import Mathlib

/-!
Verification of the dsh-etl-search-ai metadata-catalogue search engine.

This file gives a shallow embedding, in Lean 4, of the parts of the code
base that the checked properties speak about:

* `etl/search/hybrid.py` — reciprocal-rank-fusion merging, exact-match
  boosting, query-type routing (`HybridSearchService`);
* `etl/repository/dataset_repository.py` — keyword `search` (SQL ILIKE);
* `etl/embeddings/vector_store.py` — `VectorStore.search`;
* `etl/resources/http.py` — `HttpResource._do_fetch` retry loop;
* `etl/resources/cached.py` — `CachedResource` fetch/cache logic and the
  cache write I/O;
* `etl/pipeline/etl_pipeline.py` — `ETLPipeline.run`, `_commit_batch`,
  `Checkpoint.save`;
* `etl/guardrails/filters.py` — `redact_pii` and its three PII patterns.

Numeric scores are modelled by `ℚ`; Python dicts that are used in
insertion order are modelled by association lists; Python `re`
character classes are modelled over ASCII (the code is only ever run on
ASCII identifiers, titles and placeholders; the embedded classes below
list exactly the characters of the character classes in the source).
-/

namespace Etl

/-- Python `s or ""` applied to an optional string field (`None` and the
empty string both collapse to the empty string). -/
def pyOrEmpty : Option String → String
  | none => ""
  | some s => s

/-- Python `str.lower` (the strings involved are ASCII): lower-case the
string character by character. -/
def pyLower (s : String) : String := ⟨s.data.map Char.toLower⟩

/-- `startsWithL needle hay`: `needle` is a prefix of `hay`. -/
def startsWithL : List Char → List Char → Bool
  | [], _ => true
  | _ :: _, [] => false
  | a :: as, b :: bs => a == b && startsWithL as bs

/-- `occursIn needle hay`: `needle` occurs as a contiguous sublist of
`hay` (Python's `needle in hay` on strings). -/
def occursIn (needle : List Char) : List Char → Bool
  | [] => startsWithL needle []
  | c :: t => startsWithL needle (c :: t) || occursIn needle t

/-- Python `needle in hay` on strings. -/
def strIn (needle hay : String) : Bool := occursIn needle.data hay.data

/-! ## Data model (`etl/models/dataset.py`, `etl/embeddings/vector_store.py`) -/

/-- `ResponsibleParty` — only the field the hybrid merge reads. -/
structure ResponsibleParty where
  name : Option String := none
  organisation : Option String := none
deriving Repr, DecidableEq

/-- `DatasetMetadata` (the canonical entity), restricted to the fields the
embedded operations read.  `title` is a required `str`, `abstract` is
`str | None`, `access_level` is a string-valued enum. -/
structure DatasetMetadata where
  identifier : String
  title : String
  abstract : Option String := none
  keywords : List String := []
  responsible_parties : List ResponsibleParty := []
  access_level : String := "public"
deriving Repr, DecidableEq

/-- `SearchResult` from `etl/embeddings/vector_store.py` (a semantic
search hit).  The dataclass has no `access_level` attribute, which is why
the hybrid merge's `getattr(result, "access_level", "public")` always
yields `"public"` for semantic results. -/
structure SemanticResult where
  dataset_id : String
  title : String
  abstract : String
  score : ℚ
  keywords : List String := []
deriving Repr, DecidableEq

/-- `HybridSearchResult` from `etl/search/hybrid.py`. -/
structure HybridSearchResult where
  dataset_id : String
  title : String
  abstract : String
  hybrid_score : ℚ
  semantic_rank : Option Nat := none
  keyword_rank : Option Nat := none
  from_semantic : Bool := false
  from_keyword : Bool := false
  is_exact_match : Bool := false
  keywords : List String := []
  organisation : Option String := none
  access_level : String := "public"
deriving Repr, DecidableEq

/-! ## Hybrid search: `_merge_rrf` (hybrid.py lines 239–297)

The Python accumulator `scores: dict[str, HybridSearchResult]` is a dict
used in insertion order; we model it as an association list with
append-on-new-key and in-place update. -/

namespace HybridSearch

/-- `HybridSearchService.RRF_K` (the standard RRF constant). -/
def RRF_K : ℚ := 60

/-- Membership test on the insertion-ordered accumulator. -/
def alHas (st : List (String × HybridSearchResult)) (k : String) : Bool :=
  st.any (fun p => p.1 == k)

/-- In-place update of one key of the accumulator. -/
def alModify (st : List (String × HybridSearchResult)) (k : String)
    (f : HybridSearchResult → HybridSearchResult) :
    List (String × HybridSearchResult) :=
  st.map (fun p => if p.1 == k then (p.1, f p.2) else p)

/-- Lookup in the accumulator (used only by theorems). -/
def alGet (st : List (String × HybridSearchResult)) (k : String) :
    Option HybridSearchResult :=
  (st.find? (fun p => p.1 == k)).map (·.2)

/-- One iteration of the semantic loop of `_merge_rrf`:
`rrf_score = semantic_weight / (RRF_K + rank)`, insert a fresh entry if
the id is new (semantic entries get `access_level = "public"` because
`SearchResult` has no such attribute), then accumulate. -/
def semStep (semantic_weight : ℚ) (st : List (String × HybridSearchResult))
    (rank : Nat) (r : SemanticResult) : List (String × HybridSearchResult) :=
  let rrf_score := semantic_weight / (RRF_K + rank)
  let st' :=
    if alHas st r.dataset_id then st
    else st ++ [(r.dataset_id,
      { dataset_id := r.dataset_id
        title := r.title
        abstract := r.abstract
        hybrid_score := 0
        keywords := r.keywords
        access_level := "public" })]
  alModify st' r.dataset_id (fun h =>
    { h with
      hybrid_score := h.hybrid_score + rrf_score
      semantic_rank := some rank
      from_semantic := true })

/-- First organisation among the responsible parties whose
`organisation` field is truthy (non-`None` and non-empty), as in the
`for party in dataset.responsible_parties: ... break` loop. -/
def firstOrganisation : List ResponsibleParty → Option String
  | [] => none
  | p :: ps =>
    match p.organisation with
    | some s => if s = "" then firstOrganisation ps else some s
    | none => firstOrganisation ps

/-- One iteration of the keyword loop of `_merge_rrf`: accumulate
`keyword_weight / (RRF_K + rank)`, mark `from_keyword`, overwrite
`access_level` from the repository row and pull the first organisation
out of the responsible parties. -/
def kwStep (keyword_weight : ℚ) (st : List (String × HybridSearchResult))
    (rank : Nat) (d : DatasetMetadata) : List (String × HybridSearchResult) :=
  let rrf_score := keyword_weight / (RRF_K + rank)
  let st' :=
    if alHas st d.identifier then st
    else st ++ [(d.identifier,
      { dataset_id := d.identifier
        title := d.title
        abstract := pyOrEmpty d.abstract
        hybrid_score := 0
        keywords := d.keywords
        access_level := d.access_level })]
  alModify st' d.identifier (fun h =>
    { h with
      hybrid_score := h.hybrid_score + rrf_score
      keyword_rank := some rank
      from_keyword := true
      access_level := d.access_level
      organisation :=
        match firstOrganisation d.responsible_parties with
        | some s => some s
        | none => h.organisation })

/-- Fold a ranked loop (`enumerate(results, start=1)`). -/
def foldRanked {α σ : Type} (f : σ → Nat → α → σ) (st : σ) (l : List α)
    (start : Nat) : σ :=
  match l with
  | [] => st
  | a :: as => foldRanked f (f st start a) as (start + 1)

/-- `HybridSearchService._merge_rrf`: the two ranked loops followed by
`list(scores.values())`. -/
def merge_rrf (semantic_results : List SemanticResult)
    (keyword_results : List DatasetMetadata)
    (semantic_weight keyword_weight : ℚ) : List HybridSearchResult :=
  let st := foldRanked (semStep semantic_weight) [] semantic_results 1
  let st := foldRanked (kwStep keyword_weight) st keyword_results 1
  st.map (·.2)

/-- Stable descending sort by `hybrid_score`
(`merged.sort(key=lambda x: x.hybrid_score, reverse=True)`). -/
def insertDesc (x : HybridSearchResult) :
    List HybridSearchResult → List HybridSearchResult
  | [] => [x]
  | y :: ys =>
    if y.hybrid_score > x.hybrid_score then y :: insertDesc x ys
    else x :: y :: ys

/-- Stable descending sort by `hybrid_score` (insertion sort; elements
with equal scores keep their original relative order, as with Python's
stable `list.sort`). -/
def sortByScoreDesc : List HybridSearchResult → List HybridSearchResult
  | [] => []
  | x :: xs => insertDesc x (sortByScoreDesc xs)

/-! ## Hybrid search: `_boost_exact_matches` (hybrid.py lines 299–317) -/

/-- `HybridSearchService._boost_exact_matches`: an `if/elif` on the
title (equality wins over containment, they are not cumulative), plus an
independent `if` on the keywords.  `0.5` and `0.3` are the float
literals of the source. -/
def boost_exact_matches (results : List HybridSearchResult) (query : String)
    (exact_match_boost : ℚ) : List HybridSearchResult :=
  let query_lower := pyLower query
  results.map fun result =>
    let r1 :=
      if result.title != "" && query_lower == pyLower result.title then
        { result with
          hybrid_score := result.hybrid_score + exact_match_boost
          is_exact_match := true }
      else if result.title != "" && strIn query_lower (pyLower result.title) then
        { result with hybrid_score := result.hybrid_score + exact_match_boost * (1 / 2) }
      else result
    if result.keywords.any (fun kw => query_lower == pyLower kw) then
      { r1 with hybrid_score := r1.hybrid_score + exact_match_boost * (3 / 10) }
    else r1

end HybridSearch

/-! ## C1: the RRF merge example -/

/-- Semantic result list `[A, B]` of the spec's RRF example. -/
def semExA : SemanticResult :=
  { dataset_id := "A", title := "Dataset A", abstract := "", score := 9/10 }

/-- Second semantic result of the RRF example. -/
def semExB : SemanticResult :=
  { dataset_id := "B", title := "Dataset B", abstract := "", score := 8/10 }

/-- Keyword result list `[B, C]` of the spec's RRF example. -/
def kwExB : DatasetMetadata := { identifier := "B", title := "Dataset B" }

/-- Second keyword result of the RRF example. -/
def kwExC : DatasetMetadata := { identifier := "C", title := "Dataset C" }

/-- The merged output of the RRF example (semantic `[A,B]`, keyword
`[B,C]`, both weights `1`). -/
def rrfExample : List HybridSearchResult :=
  HybridSearch.merge_rrf [semExA, semExB] [kwExB, kwExC] 1 1

/-- Explicit evaluation of the RRF example merge. -/
lemma rrfExample_eval :
    rrfExample =
      [ { dataset_id := "A", title := "Dataset A", abstract := "",
          hybrid_score := 1 / 61, semantic_rank := some 1, from_semantic := true },
        { dataset_id := "B", title := "Dataset B", abstract := "",
          hybrid_score := 1 / 62 + 1 / 61, semantic_rank := some 2,
          keyword_rank := some 1, from_semantic := true, from_keyword := true },
        { dataset_id := "C", title := "Dataset C", abstract := "",
          hybrid_score := 1 / 62, keyword_rank := some 2, from_keyword := true } ] := by
  simp +decide [rrfExample, HybridSearch.merge_rrf, HybridSearch.foldRanked,
    HybridSearch.semStep, HybridSearch.kwStep, HybridSearch.alHas,
    HybridSearch.alModify, HybridSearch.RRF_K, HybridSearch.firstOrganisation,
    pyOrEmpty, semExA, semExB, kwExB, kwExC]
  norm_num

/-- C1 counterexample: on semantic results `[A,B]` and keyword results
`[B,C]` with equal weights and `k = 60`, document `B` sits at rank 2 of
the semantic list and rank 1 of the keyword list, so `_merge_rrf` gives
it `1/62 + 1/61`, not the claimed `1/61 + 1/61 ≈ 0.032787`. -/
theorem C1_rrf_B_score_counterexample :
    ((rrfExample.find? (fun r => r.dataset_id == "B")).map (·.hybrid_score)
      = some (1 / 62 + 1 / 61)) ∧ (1 / 62 + 1 / 61 : ℚ) ≠ 1 / 61 + 1 / 61 := by
  rw [rrfExample_eval]
  constructor
  · simp
  · norm_num

/-- C1 (amended): the RRF example yields scores `A = 1/61`,
`B = 1/61 + 1/62 ≈ 0.032522`, `C = 1/62`, and sorting by descending
score orders the documents `[B, A, C]`. -/
theorem C1_rrf_merge_example :
    (rrfExample.map (fun r => (r.dataset_id, r.hybrid_score))
      = [("A", 1 / 61), ("B", 1 / 61 + 1 / 62), ("C", 1 / 62)]) ∧
    ((HybridSearch.sortByScoreDesc rrfExample).map (·.dataset_id) = ["B", "A", "C"]) := by
  rw [rrfExample_eval]
  constructor
  · norm_num
  · norm_num [HybridSearch.sortByScoreDesc, HybridSearch.insertDesc]

/-! ## C2: exact-match boosting -/

/-- The single candidate of the title-exact-boost example: merged score
`0.5`, title equal to the query. -/
def boostExCandidate : HybridSearchResult :=
  { dataset_id := "d1", title := "Rainfall", abstract := "", hybrid_score := 1 / 2 }

/-- C2 counterexample: with the default boost `10`, a candidate whose
title equals the query satisfies both the equality condition and the
containment condition, yet `_boost_exact_matches` adds only the `+boost`
contribution (the title cases are an `if/elif` chain): the final score
is `10.5`, not `0.5 + 10 + 10·0.5 = 15.5` as adding *all applicable*
contributions would give. -/
theorem C2_boost_counterexample :
    ((HybridSearch.boost_exact_matches [boostExCandidate] "Rainfall" 10).map
        (·.hybrid_score) = [21 / 2]) ∧
    (pyLower "Rainfall" = pyLower boostExCandidate.title ∧
      strIn (pyLower "Rainfall") (pyLower boostExCandidate.title) = true) ∧
    (21 / 2 : ℚ) ≠ 1 / 2 + 10 + 10 * (1 / 2) := by
  refine ⟨?_, ⟨by decide, by decide⟩, by norm_num⟩
  simp +decide [HybridSearch.boost_exact_matches, boostExCandidate]
  norm_num

/-- C2 (amended): the boost step adds exactly one title contribution —
`+boost` when the (non-empty) title equals the query case-insensitively,
otherwise `+boost·0.5` when the title contains the query — plus an
independent `+boost·0.3` when any keyword equals the query;
`is_exact_match` is set exactly on title equality.  In particular a
single candidate with merged score `0.5` whose title equals the query
ends with `10.5` and `is_exact_match = true` under the default boost. -/
theorem C2_boost_amended (results : List HybridSearchResult) (query : String)
    (boost : ℚ) :
    (HybridSearch.boost_exact_matches results query boost =
      results.map (fun result =>
        { result with
          hybrid_score := result.hybrid_score +
            (if result.title != "" && pyLower query == pyLower result.title then boost
             else if result.title != "" && strIn (pyLower query) (pyLower result.title)
               then boost * (1 / 2)
             else 0) +
            (if result.keywords.any (fun kw => pyLower query == pyLower kw) then
              boost * (3 / 10)
             else 0)
          is_exact_match := result.is_exact_match ||
            (result.title != "" && pyLower query == pyLower result.title) })) ∧
    ((HybridSearch.boost_exact_matches [boostExCandidate] "Rainfall" 10).map
      (fun r => (r.hybrid_score, r.is_exact_match)) = [(21 / 2, true)]) := by
  constructor
  · unfold HybridSearch.boost_exact_matches
    refine List.map_congr_left (fun result _ => ?_)
    cases h1 : (result.title != "" && pyLower query == pyLower result.title) <;>
      cases h3 : result.keywords.any (fun kw => pyLower query == pyLower kw) <;>
      cases h2 : (result.title != "" && strIn (pyLower query) (pyLower result.title)) <;>
      simp [h1, h2, h3]
  · simp +decide [HybridSearch.boost_exact_matches, boostExCandidate]
    norm_num

/-! ## C4: `DatasetRepository.search` (dataset_repository.py lines 273–292)

The source builds `search_pattern = f"%{query}%"` (no escaping) and
filters on `title ILIKE pattern OR abstract ILIKE pattern`, limited to
`limit` rows.  We model the document table as a list of rows in scan
order and SQL `ILIKE` by the standard LIKE semantics (`%` matches any
sequence, `_` any single character, other characters match
case-insensitively; `NULL ILIKE p` is not a match). -/

namespace Repo

/-- SQL LIKE matching, case-insensitive (`ILIKE`): `%` matches any
sequence of characters (i.e. the rest of the pattern matches some
suffix of the text), `_` matches exactly one character, any other
pattern character matches itself up to case. -/
def likeM : List Char → List Char → Bool
  | [], t => t.isEmpty
  | p :: ps, t =>
    if p = '%' then t.tails.any (fun s => likeM ps s)
    else if p = '_' then
      (match t with
       | [] => false
       | _ :: ts => likeM ps ts)
    else
      (match t with
       | [] => false
       | c :: ts => (p.toLower == c.toLower) && likeM ps ts)

/-- `column ILIKE pattern` on strings. -/
def ilikeStr (pattern s : String) : Bool := likeM pattern.data s.data

/-- The row filter of `DatasetRepository.search`:
`title ILIKE pattern OR abstract ILIKE pattern` (a SQL `NULL` abstract
never matches). -/
def rowMatches (search_pattern : String) (d : DatasetMetadata) : Bool :=
  ilikeStr search_pattern d.title ||
    (match d.abstract with
     | some a => ilikeStr search_pattern a
     | none => false)

/-- `DatasetRepository.search`: filter with the unescaped pattern
`f"%{query}%"` and take at most `limit` rows. -/
def search (rows : List DatasetMetadata) (query : String) (lim : Nat) :
    List DatasetMetadata :=
  (rows.filter (rowMatches ("%" ++ query ++ "%"))).take lim

end Repo

/-- A stored row whose title is `"abc"` (for the C4 counterexample). -/
def rowAbc : DatasetMetadata := { identifier := "r1", title := "abc" }

/-- C4 counterexample: the search pattern is not escaped, so `_` in the
query acts as a one-character wildcard: searching for `"a_c"` returns
the row titled `"abc"`, although `"a_c"` is not a literal substring of
its title (and its abstract is `NULL`). -/
theorem C4_search_counterexample :
    Repo.search [rowAbc] "a_c" 10 = [rowAbc] ∧
    strIn (pyLower "a_c") (pyLower rowAbc.title) = false ∧
    rowAbc.abstract = none := by
  refine ⟨by decide, by decide, by decide⟩

/-- Unfolding lemma: a leading `%` matches iff the rest of the pattern
matches some suffix of the text. -/
lemma likeM_percent_cons (ps : List Char) (t : List Char) :
    Repo.likeM ('%' :: ps) t = t.tails.any (fun s => Repo.likeM ps s) := by
  rw [Repo.likeM.eq_def]
  simp

/-- A wildcard-free pattern followed by `'%'` matches iff the lowered
pattern is a prefix of the lowered text. -/
lemma likeM_literal (q : List Char)
    (hq : q.all (fun c => !(c == '%') && !(c == '_')) = true) (t : List Char) :
    Repo.likeM (q ++ ['%']) t =
      startsWithL (q.map Char.toLower) (t.map Char.toLower) := by
  induction q generalizing t with
  | nil =>
    have hall : Repo.likeM ['%'] t = true := by
      rw [likeM_percent_cons]
      refine List.any_eq_true.mpr ⟨[], ?_, by simp [Repo.likeM]⟩
      induction t with
      | nil => simp [List.tails]
      | cons c cs ihc => simp [List.tails, ihc]
    simpa [startsWithL] using hall
  | cons c cs ih =>
    simp only [List.all_cons, Bool.and_eq_true] at hq
    obtain ⟨⟨hc1, hc2⟩, hcs⟩ := hq
    have hc1' : c ≠ '%' := by simpa using hc1
    have hc2' : c ≠ '_' := by simpa using hc2
    cases t with
    | nil =>
      rw [List.cons_append, Repo.likeM]
      simp [hc1', hc2', startsWithL]
    | cons d ts =>
      rw [List.cons_append, Repo.likeM]
      simp only [if_neg hc1', if_neg hc2', List.map_cons, startsWithL]
      rw [ih hcs]

/-- The full unescaped pattern `%q%` with a wildcard-free `q` matches
iff the lowered query occurs in the lowered text. -/
lemma likeM_pattern_occurs (q : List Char)
    (hq : q.all (fun c => !(c == '%') && !(c == '_')) = true) (t : List Char) :
    Repo.likeM ('%' :: (q ++ ['%'])) t =
      occursIn (q.map Char.toLower) (t.map Char.toLower) := by
  rw [likeM_percent_cons]
  induction t with
  | nil =>
    simp [List.tails, occursIn, likeM_literal q hq]
  | cons c ts ih =>
    simp only [List.tails, List.any_cons, List.map_cons, occursIn]
    rw [ih, likeM_literal q hq, List.map_cons]

/-- C4 (amended): `search` returns at most `limit` rows, each returned
row matches the unescaped ILIKE pattern `%query%` on its title or
abstract (so `%` and `_` in the query keep their wildcard meaning), and
when the query contains no wildcard characters the returned rows are
exactly the stored rows whose title or abstract contains the query as a
literal case-insensitive substring, up to `limit`. -/
theorem C4_search_amended (rows : List DatasetMetadata) (query : String)
    (lim : Nat) :
    (Repo.search rows query lim).length ≤ lim ∧
    (∀ d ∈ Repo.search rows query lim,
      Repo.rowMatches ("%" ++ query ++ "%") d = true) ∧
    (query.data.all (fun c => !(c == '%') && !(c == '_')) = true →
      Repo.search rows query lim =
        (rows.filter (fun d =>
          strIn (pyLower query) (pyLower d.title) ||
            (match d.abstract with
             | some a => strIn (pyLower query) (pyLower a)
             | none => false))).take lim) := by
  refine ⟨List.length_take_le lim _, fun d hd => ?_, fun hq => ?_⟩
  · exact (List.mem_filter.mp (List.mem_of_mem_take hd)).2
  · unfold Repo.search
    congr 1
    refine List.filter_congr (fun d _ => ?_)
    have hpat : ("%" ++ query ++ "%").data = '%' :: (query.data ++ ['%']) := by
      simp
    have hmain : ∀ s : String,
        Repo.ilikeStr ("%" ++ query ++ "%") s = strIn (pyLower query) (pyLower s) := by
      intro s
      unfold Repo.ilikeStr strIn
      rw [hpat, likeM_pattern_occurs query.data hq s.data]
      rfl
    unfold Repo.rowMatches
    cases h : d.abstract <;> simp [hmain]

/-- C4 witness: the wildcard-free query `"ab"` on a one-row store,
through `C4_search_amended`. -/
theorem C4_search_amended_witness :
    Repo.search [rowAbc] "ab" 5 =
      ([rowAbc].filter (fun d =>
        strIn (pyLower "ab") (pyLower d.title) ||
          (match d.abstract with
           | some a => strIn (pyLower "ab") (pyLower a)
           | none => false))).take 5 :=
  (C4_search_amended [rowAbc] "ab" 5).2.2 (by decide)

/-! ## C6: `HttpResource._do_fetch` (http.py lines 122–192)

`_single_fetch` produces either a successful `FetchResult`, a failed one
carrying the `≥ 400` status in its metadata, or raises a transport
error.  `_do_fetch` loops over `range(max_retries)`, returns successes
and non-retryable failures immediately, and otherwise sleeps
`retry_delay * 2 ** attempt` before the next attempt.  We model the
sequence of attempt outcomes by an oracle and record the backoff sleeps
in a trace. -/

namespace Http

/-- Outcome of one `_single_fetch` attempt. -/
inductive AttemptOutcome where
  | success (content : String)
  | httpError (status : Nat) (reason : String)
  | transportError (msg : String)
deriving Repr, DecidableEq

/-- Final value of `_do_fetch`. -/
inductive FetchOutcome where
  | ok (content : String)
  | httpFailure (status : Nat) (reason : String)
  | exhausted (attempts : Nat) (last_error : Option String)
deriving Repr, DecidableEq

/-- `HttpResource.RETRY_STATUS_CODES`. -/
def RETRY_STATUS_CODES : List Nat := [408, 429, 500, 502, 503, 504]

/-- The error string of a failed single fetch
(`f"HTTP {response.status}: {response.reason}"`). -/
def errString (status : Nat) (reason : String) : String :=
  "HTTP " ++ toString status ++ ": " ++ reason

/-- The `last_error` recorded by one iteration of the retry loop. -/
def errMsgOf : AttemptOutcome → Option String
  | .success _ => none
  | .httpError st reason => some (errString st reason)
  | .transportError msg => some msg

/-- Whether an attempt outcome sends the loop into another iteration. -/
def retryable : AttemptOutcome → Bool
  | .success _ => false
  | .httpError st _ => st ∈ RETRY_STATUS_CODES
  | .transportError _ => true

/-- The retry loop of `_do_fetch`, from attempt number `attempt` with
`fuel` iterations left (`fuel = max_retries - attempt`).  Returns the
result together with the trace of backoff sleeps. -/
def doFetchAux (oracle : Nat → AttemptOutcome) (max_retries : Nat)
    (retry_delay : ℚ) : Nat → Nat → Option String → FetchOutcome × List ℚ
  | _, 0, last_error => (.exhausted max_retries last_error, [])
  | attempt, fuel + 1, last_error =>
    let continueLoop : Option String → FetchOutcome × List ℚ := fun le =>
      let rest := doFetchAux oracle max_retries retry_delay (attempt + 1) fuel le
      if attempt < max_retries - 1 then
        (rest.1, retry_delay * 2 ^ attempt :: rest.2)
      else rest
    match oracle attempt with
    | .success c => (.ok c, [])
    | .httpError st reason =>
      if st ∈ RETRY_STATUS_CODES then continueLoop (some (errString st reason))
      else (.httpFailure st reason, [])
    | .transportError msg => continueLoop (some msg)

/-- `HttpResource._do_fetch`. -/
def do_fetch (oracle : Nat → AttemptOutcome) (max_retries : Nat)
    (retry_delay : ℚ) : FetchOutcome × List ℚ :=
  doFetchAux oracle max_retries retry_delay 0 max_retries none

/-- Generalized immediate-return lemma: if every attempt before `i` is
retryable and attempt `i` yields a non-retryable `≥ 400` status, the
loop returns that failure after sleeping once per earlier attempt. -/
lemma doFetchAux_immediate (oracle : Nat → AttemptOutcome) (max_retries : Nat)
    (retry_delay : ℚ) :
    ∀ fuel attempt last_error i st reason,
      attempt + fuel = max_retries → attempt ≤ i → i < max_retries →
      (∀ j, attempt ≤ j → j < i → retryable (oracle j) = true) →
      oracle i = .httpError st reason → st ∉ RETRY_STATUS_CODES →
      doFetchAux oracle max_retries retry_delay attempt fuel last_error =
        (.httpFailure st reason,
          (List.range' attempt (i - attempt)).map (fun j => retry_delay * 2 ^ j)) := by
  intro fuel
  induction fuel with
  | zero =>
    intro attempt last_error i st reason hfuel hai him _ _ _
    omega
  | succ fuel ih =>
    intro attempt last_error i st reason hfuel hai him hpre hi hst
    rcases eq_or_lt_of_le hai with heq | hlt
    · subst heq
      rw [doFetchAux, hi]
      simp only [Nat.sub_self, List.range', List.map_nil]
      rw [if_neg hst]
    · have hre : retryable (oracle attempt) = true := hpre attempt le_rfl hlt
      have hcond : attempt < max_retries - 1 := by omega
      have hrange : List.range' attempt (i - attempt) =
          attempt :: List.range' (attempt + 1) (i - (attempt + 1)) := by
        have h1 : i - attempt = (i - (attempt + 1)) + 1 := by omega
        rw [h1, List.range'_succ]
      have ihres := ih (attempt + 1) (errMsgOf (oracle attempt)) i st reason
        (by omega) (by omega) him
        (fun j hj1 hj2 => hpre j (by omega) hj2) hi hst
      rw [doFetchAux]
      cases hor : oracle attempt with
      | success c => rw [hor] at hre; simp [retryable] at hre
      | httpError st' reason' =>
        rw [hor] at hre
        simp only [retryable, decide_eq_true_eq] at hre
        simp only [if_pos hre]
        rw [hor] at ihres
        simp only [errMsgOf] at ihres
        simp only [ihres, if_pos hcond, hrange, List.map_cons]
      | transportError msg =>
        rw [hor] at ihres
        simp only [errMsgOf] at ihres
        simp only [ihres, if_pos hcond, hrange, List.map_cons]

/-- Generalized exhaustion lemma: if every remaining attempt is
retryable, the loop runs out of attempts and fails, having slept once
between each pair of consecutive attempts. -/
lemma doFetchAux_exhausted (oracle : Nat → AttemptOutcome) (max_retries : Nat)
    (retry_delay : ℚ) :
    ∀ fuel attempt last_error,
      attempt + fuel = max_retries →
      (∀ j, attempt ≤ j → j < max_retries → retryable (oracle j) = true) →
      doFetchAux oracle max_retries retry_delay attempt fuel last_error =
        (.exhausted max_retries
          (if max_retries ≤ attempt then last_error
           else errMsgOf (oracle (max_retries - 1))),
          (List.range' attempt (max_retries - 1 - attempt)).map
            (fun j => retry_delay * 2 ^ j)) := by
  intro fuel
  induction fuel with
  | zero =>
    intro attempt last_error hfuel _
    rw [doFetchAux]
    have h1 : max_retries ≤ attempt := by omega
    have h2 : max_retries - 1 - attempt = 0 := by omega
    rw [if_pos h1, h2]
    simp [List.range']
  | succ fuel ih =>
    intro attempt last_error hfuel hpre
    have hlt : attempt < max_retries := by omega
    have hre : retryable (oracle attempt) = true := hpre attempt le_rfl hlt
    have ihres := ih (attempt + 1) (errMsgOf (oracle attempt)) (by omega)
      (fun j hj1 hj2 => hpre j (by omega) hj2)
    have hlast :
        (if max_retries ≤ attempt + 1 then errMsgOf (oracle attempt)
         else errMsgOf (oracle (max_retries - 1))) =
          errMsgOf (oracle (max_retries - 1)) := by
      rcases Nat.lt_or_ge (attempt + 1) max_retries with h | h
      · rw [if_neg (by omega)]
      · have : attempt = max_retries - 1 := by omega
        rw [if_pos h, this]
    rw [hlast] at ihres
    have hnot : ¬ max_retries ≤ attempt := by omega
    rw [doFetchAux]
    rcases Nat.lt_or_ge attempt (max_retries - 1) with hc | hc
    · have hrange : List.range' attempt (max_retries - 1 - attempt) =
          attempt :: List.range' (attempt + 1) (max_retries - 1 - (attempt + 1)) := by
        have h1 : max_retries - 1 - attempt = (max_retries - 1 - (attempt + 1)) + 1 := by
          omega
        rw [h1, List.range'_succ]
      cases hor : oracle attempt with
      | success c => rw [hor] at hre; simp [retryable] at hre
      | httpError st' reason' =>
        rw [hor] at hre
        simp only [retryable, decide_eq_true_eq] at hre
        simp only [if_pos hre]
        rw [hor] at ihres
        simp only [errMsgOf] at ihres
        simp only [ihres, if_pos hc, hrange, List.map_cons, if_neg hnot]
        rfl
      | transportError msg =>
        rw [hor] at ihres
        simp only [errMsgOf] at ihres
        simp only [ihres, if_pos hc, hrange, List.map_cons, if_neg hnot]
        rfl
    · -- attempt = max_retries - 1: last iteration, no sleep afterwards
      have hattempt : attempt = max_retries - 1 := by omega
      have hzero : max_retries - 1 - attempt = 0 := by omega
      have hzero' : max_retries - 1 - (attempt + 1) = 0 := by omega
      rw [hzero] at *
      have hfz : fuel = 0 := by omega
      subst hfz
      cases hor : oracle attempt with
      | success c => rw [hor] at hre; simp [retryable] at hre
      | httpError st' reason' =>
        rw [hor] at hre
        simp only [retryable, decide_eq_true_eq] at hre
        simp only [if_pos hre]
        rw [hor] at ihres
        simp only [errMsgOf] at ihres
        rw [hzero'] at ihres
        simp only [ihres, if_neg (by omega : ¬ attempt < max_retries - 1)]
        simp [List.range', errMsgOf, hnot]
      | transportError msg =>
        rw [hor] at ihres
        simp only [errMsgOf] at ihres
        rw [hzero'] at ihres
        simp only [ihres, if_neg (by omega : ¬ attempt < max_retries - 1)]
        simp [List.range', errMsgOf, hnot]

end Http

/-- C6: the HTTP retry policy.  (a) A response with a status that is
not in `{408, 429, 500, 502, 503, 504}` is returned as a failure
immediately — the loop performs no further attempts, having slept
`retry_delay·2^j` after each earlier (retryable) attempt `j`.  (b) When
every attempt fails retryably (retryable status or transport error), the
loop sleeps `retry_delay·2^attempt` between consecutive attempts and
returns a failure after `max_retries` attempts. -/
theorem C6_http_retry_policy (oracle : Nat → Http.AttemptOutcome)
    (max_retries : Nat) (retry_delay : ℚ) :
    (∀ i st reason, i < max_retries →
      (∀ j, j < i → Http.retryable (oracle j) = true) →
      oracle i = .httpError st reason → st ∉ Http.RETRY_STATUS_CODES →
      Http.do_fetch oracle max_retries retry_delay =
        (.httpFailure st reason,
          (List.range i).map (fun j => retry_delay * 2 ^ j))) ∧
    ((∀ j, j < max_retries → Http.retryable (oracle j) = true) → 0 < max_retries →
      Http.do_fetch oracle max_retries retry_delay =
        (.exhausted max_retries (Http.errMsgOf (oracle (max_retries - 1))),
          (List.range (max_retries - 1)).map (fun j => retry_delay * 2 ^ j))) := by
  constructor
  · intro i st reason him hpre hi hst
    have h := Http.doFetchAux_immediate oracle max_retries retry_delay
      max_retries 0 none i st reason (by omega) (Nat.zero_le i) him
      (fun j _ hj => hpre j hj) hi hst
    rw [Http.do_fetch, h, List.range_eq_range']
    simp
  · intro hpre hpos
    have h := Http.doFetchAux_exhausted oracle max_retries retry_delay
      max_retries 0 none (by omega) (fun j _ hj => hpre j hj)
    rw [Http.do_fetch, h, List.range_eq_range']
    rw [if_neg (by omega)]
    simp

/-- Oracle for the C6 witness: a timeout, then a plain 404. -/
def c6Oracle : Nat → Http.AttemptOutcome := fun i =>
  if i = 0 then .transportError "Request timed out after 30.0s"
  else .httpError 404 "Not Found"

/-- C6 witness: with `max_retries = 3` and `retry_delay = 1`, a timeout
followed by a 404 gives one backoff sleep of `1·2^0` and then an
immediate `HTTP 404` failure, through `C6_http_retry_policy`. -/
theorem C6_http_retry_policy_witness :
    Http.do_fetch c6Oracle 3 1 = (.httpFailure 404 "Not Found", [1]) := by
  have h := (C6_http_retry_policy c6Oracle 3 1).1 1 404 "Not Found"
    (by omega)
    (fun j hj => by
      have hj0 : j = 0 := by omega
      subst hj0
      decide)
    (by decide) (by decide)
  simpa using h

/-! ## C7: `CachedResource._do_fetch` (cached.py lines 115–137, 268–281)

The on-disk pair of cache files is modelled by two optional fields (the
`.content` bytes and the `.meta` file reduced to its `cached_at`
timestamp; `_read_cache` succeeds exactly when both files are present
and readable).  The wrapped resource is a function of the current time,
and time is passed explicitly to `fetch`. -/

namespace Cache

/-- `FetchResult`, reduced to the fields the cache logic touches. -/
structure FetchResult where
  content : String
  success : Bool
  from_cache : Bool := false
deriving Repr, DecidableEq

/-- The two cache files of one resource
(`<key>.content` and `<key>.meta`). -/
structure CacheState where
  contentFile : Option String := none
  metaFile : Option ℚ := none
deriving Repr, DecidableEq

/-- `CachedResource._read_cache`: succeeds iff both files are present
(and readable), reconstructing a `FetchResult` with `from_cache=True`
plus the `cached_at` stamp. -/
def read_cache (st : CacheState) : Option (FetchResult × ℚ) :=
  match st.contentFile, st.metaFile with
  | some c, some t => some ({ content := c, success := true, from_cache := true }, t)
  | _, _ => none

/-- `CachedResource._is_cache_valid`: valid iff no TTL is configured or
`now - cached_at ≤ ttl` (the code invalidates on `> ttl`). -/
def is_cache_valid (ttl : Option ℚ) (now cached_at : ℚ) : Bool :=
  match ttl with
  | none => true
  | some d => !(now - cached_at > d)

/-- `CachedResource._write_cache` (state effect only; the I/O trace is
modelled separately for C8): store the content and stamp `cached_at`
with the current time. -/
def write_cache (content : String) (now : ℚ) : CacheState :=
  { contentFile := some content, metaFile := some now }

/-- `CachedResource._do_fetch`: return the cached content if present
and valid, otherwise delegate to the wrapped resource and cache
successful results. -/
def do_fetch (wrapped : ℚ → FetchResult) (ttl : Option ℚ) (now : ℚ)
    (st : CacheState) : FetchResult × CacheState :=
  match read_cache st with
  | some (cached, cached_at) =>
    if is_cache_valid ttl now cached_at then
      ({ cached with from_cache := true }, st)
    else
      let r := wrapped now
      if r.success then (r, write_cache r.content now) else (r, st)
  | none =>
    let r := wrapped now
    if r.success then (r, write_cache r.content now) else (r, st)

/-- `CachedResource.invalidate`: delete both files. -/
def invalidate (_st : CacheState) : CacheState :=
  { contentFile := none, metaFile := none }

end Cache

/-- C7: cached fetch semantics.  (a) When both cache files are present
and either no TTL is configured or `now - cached_at ≤ ttl`, the cached
content is returned with `from_cache = true` and the cache is untouched.
(b) Otherwise the fetch delegates to the wrapped resource; on success
both cache files are (re)written.  (c) Hence against a stable
always-successful source starting from an empty cache, `fetch` returns
`from_cache = false` exactly once: the first fetch misses and caches,
every fetch within the TTL hits the cache with identical content, and
after `invalidate` the next fetch misses again. -/
theorem C7_cached_fetch (wrapped : ℚ → Cache.FetchResult) (ttl : Option ℚ)
    (now : ℚ) (st : Cache.CacheState) (c : String) (t0 : ℚ) (body : String) :
    (st.contentFile = some c → st.metaFile = some t0 →
      Cache.is_cache_valid ttl now t0 = true →
      Cache.do_fetch wrapped ttl now st =
        ({ content := c, success := true, from_cache := true }, st)) ∧
    ((st.contentFile = none ∨ st.metaFile = none ∨
        Cache.is_cache_valid ttl now t0 = false ∧ st.metaFile = some t0) →
      Cache.do_fetch wrapped ttl now st =
        (wrapped now,
          if (wrapped now).success then Cache.write_cache (wrapped now).content now
          else st)) ∧
    ((∀ u : ℚ, wrapped u = { content := body, success := true, from_cache := false }) →
      ∀ t1 : ℚ,
        Cache.do_fetch wrapped ttl t0 {} =
          ({ content := body, success := true, from_cache := false },
            Cache.write_cache body t0) ∧
        (Cache.is_cache_valid ttl t1 t0 = true →
          Cache.do_fetch wrapped ttl t1 (Cache.write_cache body t0) =
            ({ content := body, success := true, from_cache := true },
              Cache.write_cache body t0)) ∧
        (Cache.do_fetch wrapped ttl t1
            (Cache.invalidate (Cache.write_cache body t0)) =
          ({ content := body, success := true, from_cache := false },
            Cache.write_cache body t1))) := by
  have hdeleg : ∀ st' : Cache.CacheState, Cache.read_cache st' = none →
      Cache.do_fetch wrapped ttl now st' =
        (wrapped now,
          if (wrapped now).success then Cache.write_cache (wrapped now).content now
          else st') := by
    intro st' h
    rw [Cache.do_fetch, h]
    cases h2 : (wrapped now).success <;> simp [h2]
  refine ⟨fun hc hm hv => ?_, fun hmiss => ?_, fun hstable t1 => ⟨?_, fun hv => ?_, ?_⟩⟩
  · rw [Cache.do_fetch, Cache.read_cache, hc, hm]
    simp [hv]
  · rcases hmiss with h | h | ⟨hv, hm⟩
    · refine hdeleg st ?_
      cases hm2 : st.metaFile <;> simp [Cache.read_cache, h, hm2]
    · refine hdeleg st ?_
      cases hc2 : st.contentFile <;> simp [Cache.read_cache, h, hc2]
    · cases hc2 : st.contentFile with
      | none =>
        refine hdeleg st ?_
        cases hm2 : st.metaFile <;> simp [Cache.read_cache, hc2, hm2]
      | some c2 =>
        rw [Cache.do_fetch, Cache.read_cache, hc2, hm]
        simp only [hv]
        cases h2 : (wrapped now).success <;> simp [h2]
  · rw [Cache.do_fetch]
    simp [Cache.read_cache, hstable t0, Cache.write_cache]
  · rw [Cache.do_fetch]
    simp only [Cache.write_cache, Cache.read_cache]
    simp [hv, hstable t1]
  · rw [Cache.do_fetch]
    simp [Cache.invalidate, Cache.read_cache, hstable t1, Cache.write_cache]

/-- C7 witness: a stable source with TTL 10, first fetch at time 0,
second at time 5 (within TTL), then after invalidation, through
`C7_cached_fetch`. -/
theorem C7_cached_fetch_witness :
    Cache.do_fetch (fun _ => { content := "data", success := true }) (some 10) 0 {} =
      ({ content := "data", success := true, from_cache := false },
        Cache.write_cache "data" 0) ∧
    Cache.do_fetch (fun _ => { content := "data", success := true }) (some 10) 5
        (Cache.write_cache "data" 0) =
      ({ content := "data", success := true, from_cache := true },
        Cache.write_cache "data" 0) := by
  have h := (C7_cached_fetch (fun _ => { content := "data", success := true })
    (some 10) 0 {} "data" 0 "data").2.2 (fun u => rfl) 5
  exact ⟨h.1, h.2.1 (by norm_num [Cache.is_cache_valid])⟩

/-! ## C8: the cache write and checkpoint write I/O
(cached.py lines 240–266, etl_pipeline.py lines 452–459)

We record the sequence of filesystem operations each writer performs.
`_write_cache` calls `mkdir(parents=True)` on the subdirectory, then
opens the final `.content` path for writing and writes the bytes, then
opens the final `.meta` path and writes the metadata JSON.
`Checkpoint.save` is a single `path.write_text(json.dumps(data))`.
Payloads are kept structurally (not as serialized text). -/

namespace FsTrace

/-- What a single write puts into a file. -/
inductive Payload where
  | bytes (content : String)
  | metaJson (content_type : Option String) (cached_at : ℚ) (identifier : String)
  | checkpointJson (processed_ids failed_ids : List String) (last_updated : String)
deriving Repr, DecidableEq

/-- One filesystem operation. -/
inductive FsOp where
  | mkdirs (path : String)
  | writeFile (path : String) (payload : Payload)
  | rename (src dst : String)
deriving Repr, DecidableEq

/-- Whether an operation is a rename. -/
def isRename : FsOp → Bool
  | .rename _ _ => true
  | _ => false

/-- The I/O trace of `CachedResource._write_cache`: ensure the
subdirectory exists, write the `.content` file in place, write the
`.meta` file in place.  (The path arguments stand for the values of
`self._cache_paths()`, i.e. `cache_dir/<key[:2]>/<key>.content` and
`….meta` for the SHA-256 `key` of the identifier.) -/
def write_cache_trace (parent content_path meta_path : String)
    (content : String) (content_type : Option String) (cached_at : ℚ)
    (identifier : String) : List FsOp :=
  [ .mkdirs parent,
    .writeFile content_path (.bytes content),
    .writeFile meta_path (.metaJson content_type cached_at identifier) ]

/-- The I/O trace of `Checkpoint.save`: one direct
`path.write_text(...)`. -/
def checkpoint_save_trace (path : String) (processed_ids failed_ids : List String)
    (last_updated : String) : List FsOp :=
  [ .writeFile path (.checkpointJson processed_ids failed_ids last_updated) ]

/-- The write discipline asserted by the claim: the data is written to
a temporary name and then renamed onto the final path, and the final
path is never opened for writing directly. -/
def usesWriteTempThenRename (trace : List FsOp) (final : String) : Prop :=
  (∃ tmp payload, tmp ≠ final ∧ FsOp.writeFile tmp payload ∈ trace ∧
      FsOp.rename tmp final ∈ trace) ∧
  ∀ payload, FsOp.writeFile final payload ∉ trace

end FsTrace

/-- C8 counterexample: a concrete cache write and a concrete checkpoint
save contain no rename at all and write the final paths directly, so
neither satisfies the write-temp-then-rename discipline the claim
asserts. -/
theorem C8_write_trace_counterexample :
    (FsTrace.write_cache_trace "cache/ab" "cache/ab/k.content" "cache/ab/k.meta"
        "body" none 0 "https://x").any FsTrace.isRename = false ∧
    (FsTrace.checkpoint_save_trace "checkpoint.json" ["a"] [] "t").any
        FsTrace.isRename = false ∧
    ¬ FsTrace.usesWriteTempThenRename
        (FsTrace.write_cache_trace "cache/ab" "cache/ab/k.content" "cache/ab/k.meta"
          "body" none 0 "https://x") "cache/ab/k.content" ∧
    ¬ FsTrace.usesWriteTempThenRename
        (FsTrace.checkpoint_save_trace "checkpoint.json" ["a"] [] "t")
        "checkpoint.json" := by
  refine ⟨rfl, rfl, fun h => ?_, fun h => ?_⟩
  · obtain ⟨⟨tmp, payload, _, _, hren⟩, _⟩ := h
    simp [FsTrace.write_cache_trace] at hren
  · obtain ⟨⟨tmp, payload, _, _, hren⟩, _⟩ := h
    simp [FsTrace.checkpoint_save_trace] at hren

/-- C8 (amended): every cache write writes the `.content` file and then
the `.meta` file directly at their final paths (after ensuring the
subdirectory exists), and every checkpoint save is a single direct
write of the checkpoint file; no temporary-name-then-rename step is
performed by either writer. -/
theorem C8_write_trace_amended (parent content_path meta_path content : String)
    (content_type : Option String) (cached_at : ℚ) (identifier path : String)
    (processed_ids failed_ids : List String) (last_updated : String) :
    FsTrace.write_cache_trace parent content_path meta_path content
        content_type cached_at identifier =
      [ .mkdirs parent,
        .writeFile content_path (.bytes content),
        .writeFile meta_path (.metaJson content_type cached_at identifier) ] ∧
    FsTrace.checkpoint_save_trace path processed_ids failed_ids last_updated =
      [ .writeFile path (.checkpointJson processed_ids failed_ids last_updated) ] ∧
    (FsTrace.write_cache_trace parent content_path meta_path content
        content_type cached_at identifier).any FsTrace.isRename = false ∧
    (FsTrace.checkpoint_save_trace path processed_ids failed_ids
        last_updated).any FsTrace.isRename = false :=
  ⟨rfl, rfl, rfl, rfl⟩

/-! ## C9: `VectorStore.search` (vector_store.py lines 241–290)

The embedding service and the ChromaDB collection are abstracted as
functions; the candidate batch returned by `collection.query` is
modelled as one list of records (the zip of the parallel `ids` /
`metadatas` / `distances` arrays).  The effect trace records the embed
call and the `n_results` value passed to the index. -/

namespace VectorStoreM

/-- One candidate row of the `collection.query` response. -/
structure Candidate where
  id : String
  title : String
  abstract : String
  keywordsCsv : String
  distance : ℚ
deriving Repr, DecidableEq

/-- An observable call made by `VectorStore.search`. -/
inductive EffectOp where
  | embedQuery (query : String)
  | collectionQuery (n_results : Nat)
deriving Repr, DecidableEq

/-- Split a comma-joined keyword string (`"a,b".split(",")`). -/
def splitCommaL : List Char → List (List Char)
  | [] => [[]]
  | c :: t =>
    if c = ',' then [] :: splitCommaL t
    else
      match splitCommaL t with
      | h :: r => (c :: h) :: r
      | [] => [[c]]

/-- The keyword list recovered from the stored CSV metadata
(`metadata.get("keywords", "").split(",") if ... else []`). -/
def keywordsOfCsv (csv : String) : List String :=
  if csv = "" then [] else (splitCommaL csv.data).map (fun l => ⟨l⟩)

/-- Convert one candidate row, applying the `min_score` filter on the
similarity `score = 1 - distance` (`if score < min_score: continue`). -/
def convertCandidate (min_score : ℚ) (c : Candidate) : Option SemanticResult :=
  if 1 - c.distance < min_score then none
  else some
    { dataset_id := c.id
      title := c.title
      abstract := c.abstract
      score := 1 - c.distance
      keywords := keywordsOfCsv c.keywordsCsv }

/-- `VectorStore.search`: embed the query once, request `n_results =
limit` candidates from the index, and keep — in index order — the
candidates whose similarity meets `min_score`. -/
def search (embed : String → List ℚ)
    (collectionQuery : List ℚ → Nat → List Candidate)
    (query : String) (lim : Nat) (min_score : ℚ) :
    List SemanticResult × List EffectOp :=
  let query_embedding := embed query
  let cands := collectionQuery query_embedding lim
  (cands.filterMap (convertCandidate min_score),
   [.embedQuery query, .collectionQuery lim])

end VectorStoreM

/-- Embedding service for the C9 counterexample. -/
def c9Embed : String → List ℚ := fun _ => [1, 0]

/-- Index for the C9 counterexample: two candidates at distances `1/5`
and `9/10`. -/
def c9Index : List ℚ → Nat → List VectorStoreM.Candidate := fun _ _ =>
  [ { id := "d1", title := "T1", abstract := "A1", keywordsCsv := "flood,rain",
      distance := 1/5 },
    { id := "d2", title := "T2", abstract := "A2", keywordsCsv := "",
      distance := 9/10 } ]

/-- C9 counterexample: with `limit = 10` the code passes `n_results =
limit` (not `limit·10 = 100`) to the index; the `min_score` filter and
ordering behave as claimed (here only `d1`, score `4/5 ≥ 1/2`,
survives). -/
theorem C9_vector_search_counterexample :
    (VectorStoreM.search c9Embed c9Index "flood" 10 (1/2)).2 =
      [.embedQuery "flood", .collectionQuery 10] ∧
    VectorStoreM.EffectOp.collectionQuery (10 * 10) ∉
      (VectorStoreM.search c9Embed c9Index "flood" 10 (1/2)).2 ∧
    (VectorStoreM.search c9Embed c9Index "flood" 10 (1/2)).1.map
        (fun r => (r.dataset_id, r.score)) = [("d1", 4/5)] := by
  refine ⟨rfl, by simp +decide [VectorStoreM.search], ?_⟩
  norm_num [VectorStoreM.search, c9Embed, c9Index, VectorStoreM.convertCandidate,
    VectorStoreM.keywordsOfCsv, List.filterMap_cons]

/-- C9 (amended): `search` embeds the query exactly once and requests
`limit` (not `limit·10`) candidates from the index; it returns, in
index (relevance) order, exactly the requested candidates whose
similarity `1 - distance` meets `min_score`; when the index returns at
most `limit` candidates the result also has at most `limit` entries. -/
theorem C9_vector_search_amended (embed : String → List ℚ)
    (index : List ℚ → Nat → List VectorStoreM.Candidate)
    (query : String) (lim : Nat) (min_score : ℚ) :
    (VectorStoreM.search embed index query lim min_score).2 =
      [.embedQuery query, .collectionQuery lim] ∧
    (VectorStoreM.search embed index query lim min_score).1 =
      (index (embed query) lim).filterMap
        (VectorStoreM.convertCandidate min_score) ∧
    (∀ r ∈ (VectorStoreM.search embed index query lim min_score).1,
      min_score ≤ r.score) ∧
    ((index (embed query) lim).length ≤ lim →
      (VectorStoreM.search embed index query lim min_score).1.length ≤ lim) := by
  refine ⟨rfl, rfl, fun r hr => ?_, fun hlen => ?_⟩
  · obtain ⟨c, _, hc⟩ := List.mem_filterMap.mp hr
    unfold VectorStoreM.convertCandidate at hc
    by_cases h : 1 - c.distance < min_score
    · rw [if_pos h] at hc
      exact absurd hc (by simp)
    · rw [if_neg h] at hc
      obtain rfl := Option.some.inj hc |>.symm
      exact le_of_not_lt h
  · exact le_trans (List.length_filterMap_le _ _) hlen

/-- C9 witness: the amended statement at the concrete index of the
counterexample (which returns 2 ≤ 10 candidates), through
`C9_vector_search_amended`. -/
theorem C9_vector_search_amended_witness :
    (VectorStoreM.search c9Embed c9Index "flood" 10 (1/2)).1.length ≤ 10 :=
  (C9_vector_search_amended c9Embed c9Index "flood" 10 (1/2)).2.2.2
    (by norm_num [c9Index, c9Embed])

/-! ## C5: query-type routing and the exact-ID fast path
(hybrid.py lines 106–206)

`HybridSearchService.search` strips the query, classifies it, and for
UUID-shaped queries performs only `repository.get`.  The vector store,
the repository keyword search and the repository lookup are abstracted
as functions, and every call the routine makes is recorded in a trace.
Python string helpers (`strip`, `strip('"\'')`, `split`) are modelled
over their ASCII behaviour. -/

namespace HybridSearch

/-- ASCII whitespace as stripped by Python's `str.strip()` /
`str.split()`. -/
def isPySpace (c : Char) : Bool :=
  c = ' ' ∨ c = '\t' ∨ c = '\n' ∨ c = '\r' ∨ c = '\x0b' ∨ c = '\x0c'

/-- `str.strip()` on a character list. -/
def stripL (l : List Char) : List Char :=
  ((l.dropWhile isPySpace).reverse.dropWhile isPySpace).reverse

/-- `query.strip()`. -/
def pyStrip (s : String) : String := ⟨stripL s.data⟩

/-- A quote character (`"` or `'`), for `query.strip('"\'')`. -/
def isQuote (c : Char) : Bool := c = '"' ∨ c = Char.ofNat 39

/-- `query.strip('"\'')` on a character list. -/
def stripQuotesL (l : List Char) : List Char :=
  ((l.dropWhile isQuote).reverse.dropWhile isQuote).reverse

/-- `query.strip('"\'')`. -/
def pyStripQuotes (s : String) : String := ⟨stripQuotesL s.data⟩

/-- `str.split()` helper: accumulate the current word (reversed). -/
def pyWordsAux : List Char → List Char → List (List Char)
  | cur, [] => if cur = [] then [] else [cur.reverse]
  | cur, c :: t =>
    if isPySpace c then
      if cur = [] then pyWordsAux [] t else cur.reverse :: pyWordsAux [] t
    else pyWordsAux (c :: cur) t

/-- Python `query.split()` (split on whitespace runs, no empties). -/
def pySplitWs (s : String) : List String :=
  (pyWordsAux [] s.data).map (fun l => ⟨l⟩)

/-- A hexadecimal digit (the `[0-9a-f]` class with `re.IGNORECASE`). -/
def isHexDigit (c : Char) : Bool :=
  c.isDigit || (Char.ofNat 97 ≤ c ∧ c ≤ Char.ofNat 102) ||
    (Char.ofNat 65 ≤ c ∧ c ≤ Char.ofNat 70)

/-- Consume exactly `n` hex digits, returning the rest of the input. -/
def hexRun : Nat → List Char → Option (List Char)
  | 0, rest => some rest
  | _ + 1, [] => none
  | n + 1, c :: rest => if isHexDigit c then hexRun n rest else none

/-- `HybridSearchService.UUID_PATTERN.match(query)`: the anchored
`8-4-4-4-12` hex pattern. -/
def isUUIDQuery (s : String) : Bool :=
  match hexRun 8 s.data with
  | some ('-' :: r1) =>
    (match hexRun 4 r1 with
     | some ('-' :: r2) =>
       (match hexRun 4 r2 with
        | some ('-' :: r3) =>
          (match hexRun 4 r3 with
           | some ('-' :: r4) =>
             (match hexRun 12 r4 with
              | some [] => true
              | _ => false)
           | _ => false)
        | _ => false)
     | _ => false)
  | _ => false

/-- `QueryType` from hybrid.py. -/
inductive QueryType where
  | exact_id
  | exact_title
  | short
  | normal
deriving Repr, DecidableEq

/-- `query.startswith(c)` for a single character. -/
def startsWithC (c : Char) (s : String) : Bool :=
  match s.data with
  | [] => false
  | d :: _ => d == c

/-- `query.endswith(c)` for a single character. -/
def endsWithC (c : Char) (s : String) : Bool :=
  match s.data.getLast? with
  | some d => d == c
  | none => false

/-- `HybridSearchService._detect_query_type`. -/
def detect_query_type (query : String) : QueryType :=
  if isUUIDQuery query then .exact_id
  else if (startsWithC '"' query && endsWithC '"' query) ||
      (startsWithC (Char.ofNat 39) query && endsWithC (Char.ofNat 39) query) then
    .exact_title
  else if (pySplitWs query).length ≤ 2 then .short
  else .normal

/-- `HybridSearchResponse` from hybrid.py. -/
structure HybridSearchResponse where
  results : List HybridSearchResult
  query : String
  query_type : QueryType
  total_semantic : Nat
  total_keyword : Nat
deriving Repr, DecidableEq

/-- One call issued by the search routine to its collaborators. -/
inductive SearchCall where
  | vectorSearch (query : String) (lim : Nat)
  | repoSearch (query : String) (lim : Nat)
  | repoGet (id : String)
deriving Repr, DecidableEq

/-- `HybridSearchService._exact_id_search`: a single `repository.get`;
a hit becomes one result with `hybrid_score = 1.0`,
`is_exact_match = True`, `from_keyword = True`. -/
def exact_id_search (repo_get : String → Option DatasetMetadata)
    (dataset_id : String) : HybridSearchResponse × List SearchCall :=
  match repo_get dataset_id with
  | some dataset =>
    ({ results := [
        { dataset_id := dataset.identifier
          title := dataset.title
          abstract := pyOrEmpty dataset.abstract
          hybrid_score := 1
          is_exact_match := true
          from_keyword := true
          keywords := dataset.keywords }]
       query := dataset_id
       query_type := .exact_id
       total_semantic := 0
       total_keyword := 1 }, [.repoGet dataset_id])
  | none =>
    ({ results := []
       query := dataset_id
       query_type := .exact_id
       total_semantic := 0
       total_keyword := 0 }, [.repoGet dataset_id])

/-- `HybridSearchService._exact_title_search`. -/
def exact_title_search (repo_search : String → Nat → List DatasetMetadata)
    (title : String) (lim : Nat) : HybridSearchResponse × List SearchCall :=
  let results := repo_search title lim
  let hybrid_results := (foldRanked
    (fun acc rank (dataset : DatasetMetadata) =>
      let is_exact := dataset.title != "" &&
        strIn (pyLower title) (pyLower dataset.title)
      acc ++ [{
        dataset_id := dataset.identifier
        title := dataset.title
        abstract := pyOrEmpty dataset.abstract
        hybrid_score := if is_exact then (1 : ℚ) else 1/2
        keyword_rank := some rank
        is_exact_match := is_exact
        from_keyword := true
        keywords := dataset.keywords }]) [] results 1)
  ({ results := hybrid_results
     query := title
     query_type := .exact_title
     total_semantic := 0
     total_keyword := results.length }, [.repoSearch title lim])

/-- `HybridSearchService.search`: strip, classify, route; on the normal
and short paths run both sub-searches, merge with RRF, boost exact
matches, sort by descending score and truncate. -/
def search (vector_search : String → Nat → List SemanticResult)
    (repo_search : String → Nat → List DatasetMetadata)
    (repo_get : String → Option DatasetMetadata)
    (semantic_weight keyword_weight exact_match_boost : ℚ)
    (query : String) (lim semantic_limit keyword_limit : Nat) :
    HybridSearchResponse × List SearchCall :=
  let query := pyStrip query
  let query_type := detect_query_type query
  if query_type = .exact_id then exact_id_search repo_get query
  else if query_type = .exact_title then
    exact_title_search repo_search (pyStripQuotes query) lim
  else
    let keyword_w :=
      if query_type = .short then keyword_weight * (3/2) else keyword_weight
    let semantic_results := vector_search query semantic_limit
    let keyword_results := repo_search query keyword_limit
    let merged := merge_rrf semantic_results keyword_results
      semantic_weight keyword_w
    let merged := boost_exact_matches merged query exact_match_boost
    let merged := sortByScoreDesc merged
    ({ results := merged.take lim
       query := query
       query_type := query_type
       total_semantic := semantic_results.length
       total_keyword := keyword_results.length },
     [.vectorSearch query semantic_limit, .repoSearch query keyword_limit])

/-- `hexRun` consumes exactly `n` hex characters. -/
lemma hexRun_structure :
    ∀ n l r, hexRun n l = some r →
      ∃ pre, l = pre ++ r ∧ pre.length = n ∧ ∀ c ∈ pre, isHexDigit c = true := by
  intro n
  induction n with
  | zero =>
    intro l r h
    rw [hexRun] at h
    exact ⟨[], by simpa using h, rfl, by simp⟩
  | succ n ih =>
    intro l r h
    cases l with
    | nil => rw [hexRun] at h; exact absurd h (by simp)
    | cons c t =>
      rw [hexRun] at h
      by_cases hc : isHexDigit c = true
      · rw [if_pos hc] at h
        obtain ⟨pre, hpre, hlen, hall⟩ := ih t r h
        refine ⟨c :: pre, by simp [hpre], by simp [hlen], ?_⟩
        intro d hd
        rcases List.mem_cons.mp hd with rfl | hd
        · exact hc
        · exact hall d hd
      · rw [if_neg hc] at h
        exact absurd h (by simp)

/-- A hex digit is not whitespace. -/
lemma isHexDigit_not_space {c : Char} (h : isHexDigit c = true) :
    isPySpace c = false := by
  cases hs : isPySpace c
  · rfl
  · exfalso
    unfold isPySpace at hs
    simp only [decide_eq_true_eq] at hs
    rcases hs with rfl | rfl | rfl | rfl | rfl | rfl <;>
      exact absurd h (by decide)

/-- `stripL` is the identity when neither end of the list is
whitespace. -/
lemma stripL_eq_self (l : List Char)
    (h1 : ∀ c, l.head? = some c → isPySpace c = false)
    (h2 : ∀ c, l.getLast? = some c → isPySpace c = false) :
    stripL l = l := by
  cases l with
  | nil => rfl
  | cons a t =>
    have ha := h1 a rfl
    unfold stripL
    rw [List.dropWhile_cons, ha]
    simp only [Bool.false_eq_true, if_false]
    cases hr : (a :: t).reverse with
    | nil => simp at hr
    | cons b u =>
      have hb : (a :: t).getLast? = some b := by
        rw [← List.head?_reverse, hr]
        rfl
      rw [List.dropWhile_cons, h2 b hb]
      simp only [Bool.false_eq_true, if_false]
      rw [← hr, List.reverse_reverse]

/-- A query matching the UUID pattern contains no leading or trailing
whitespace, so `query.strip()` leaves it unchanged. -/
lemma uuid_pyStrip_id (s : String) (h : isUUIDQuery s = true) :
    pyStrip s = s := by
  unfold isUUIDQuery at h
  split at h
  case _ r1 heq1 =>
    split at h
    case _ r2 heq2 =>
      split at h
      case _ r3 heq3 =>
        split at h
        case _ r4 heq4 =>
          split at h
          case _ heq5 =>
            obtain ⟨p8, hd8, hl8, ha8⟩ := hexRun_structure 8 s.data _ heq1
            obtain ⟨p12, hd12, hl12, ha12⟩ := hexRun_structure 12 r4 _ heq5
            rw [List.append_nil] at hd12
            obtain ⟨p4a, hd4a, _, _⟩ := hexRun_structure 4 r1 _ heq2
            obtain ⟨p4b, hd4b, _, _⟩ := hexRun_structure 4 r2 _ heq3
            obtain ⟨p4c, hd4c, _, _⟩ := hexRun_structure 4 r3 _ heq4
            cases p8 with
            | nil => simp at hl8
            | cons c0 p8t =>
              have hc0 : isHexDigit c0 = true := ha8 c0 (List.mem_cons_self _ _)
              rcases List.eq_nil_or_concat p12 with rfl | ⟨rest12, clast, hp12⟩
              · simp at hl12
              · rw [List.concat_eq_append] at hp12
                have hclast : isHexDigit clast = true := by
                  refine ha12 clast ?_
                  rw [hp12]
                  exact List.mem_append_right _ (List.mem_singleton.mpr rfl)
                have hdata : s.data =
                    (c0 :: p8t) ++ '-' :: (p4a ++ '-' :: (p4b ++ '-' ::
                      (p4c ++ '-' :: (rest12 ++ [clast])))) := by
                  rw [hd8, hd4a, hd4b, hd4c, hd12, hp12]
                have hdata2 : s.data =
                    (c0 :: (p8t ++ '-' :: (p4a ++ '-' :: (p4b ++ '-' ::
                      (p4c ++ '-' :: rest12))))) ++ [clast] := by
                  rw [hdata]
                  simp
                have hhead : ∀ c, s.data.head? = some c → isPySpace c = false := by
                  intro c hc
                  rw [hdata] at hc
                  simp only [List.cons_append, List.head?_cons,
                    Option.some.injEq] at hc
                  rw [← hc]
                  exact isHexDigit_not_space hc0
                have hlast : ∀ c, s.data.getLast? = some c → isPySpace c = false := by
                  intro c hc
                  rw [hdata2, List.getLast?_concat] at hc
                  rw [← Option.some.inj hc]
                  exact isHexDigit_not_space hclast
                show String.mk (stripL s.data) = s
                rw [stripL_eq_self s.data hhead hlast]
          all_goals simp at h
        all_goals simp at h
      all_goals simp at h
    all_goals simp at h
  all_goals simp at h

end HybridSearch

/-- C5: the exact-ID fast path.  For any query matching the UUID
pattern, `search` performs exactly one repository lookup and never
calls the vector store; the response has `query_type = exact_id` and
`total_semantic = 0`; when the store holds the record the response
carries exactly one result with `is_exact_match = true` and
`total_keyword = 1`, and otherwise an empty result list with
`total_keyword = 0`. -/
theorem C5_exact_id_fast_path
    (vector_search : String → Nat → List SemanticResult)
    (repo_search : String → Nat → List DatasetMetadata)
    (repo_get : String → Option DatasetMetadata)
    (sw kw boost : ℚ) (query : String) (lim slim klim : Nat)
    (h : HybridSearch.isUUIDQuery query = true) :
    (HybridSearch.search vector_search repo_search repo_get sw kw boost
        query lim slim klim).2 = [.repoGet query] ∧
    (HybridSearch.search vector_search repo_search repo_get sw kw boost
        query lim slim klim).1.query_type = .exact_id ∧
    (HybridSearch.search vector_search repo_search repo_get sw kw boost
        query lim slim klim).1.total_semantic = 0 ∧
    (∀ d, repo_get query = some d →
      (HybridSearch.search vector_search repo_search repo_get sw kw boost
          query lim slim klim).1.results =
        [{ dataset_id := d.identifier
           title := d.title
           abstract := pyOrEmpty d.abstract
           hybrid_score := 1
           is_exact_match := true
           from_keyword := true
           keywords := d.keywords }] ∧
      (HybridSearch.search vector_search repo_search repo_get sw kw boost
          query lim slim klim).1.total_keyword = 1) ∧
    (repo_get query = none →
      (HybridSearch.search vector_search repo_search repo_get sw kw boost
          query lim slim klim).1.results = [] ∧
      (HybridSearch.search vector_search repo_search repo_get sw kw boost
          query lim slim klim).1.total_keyword = 0) := by
  have hstrip : HybridSearch.pyStrip query = query :=
    HybridSearch.uuid_pyStrip_id query h
  have hsearch : HybridSearch.search vector_search repo_search repo_get
      sw kw boost query lim slim klim =
        HybridSearch.exact_id_search repo_get query := by
    unfold HybridSearch.search HybridSearch.detect_query_type
    rw [hstrip]
    simp [h]
  rw [hsearch]
  refine ⟨?_, ?_, ?_, fun d hd => ?_, fun hd => ?_⟩ <;>
    unfold HybridSearch.exact_id_search
  · cases repo_get query <;> rfl
  · cases repo_get query <;> rfl
  · cases repo_get query <;> rfl
  · rw [hd]
    exact ⟨rfl, rfl⟩
  · rw [hd]
    exact ⟨rfl, rfl⟩

/-- The stored record of the C5 witness. -/
def c5Dataset : DatasetMetadata :=
  { identifier := "f710bed1-e564-47bf-b82c-4c2a2fe2810e"
    title := "Land cover map"
    abstract := some "A land cover map."
    keywords := ["land"] }

/-- Repository lookup of the C5 witness. -/
def c5Get : String → Option DatasetMetadata := fun id =>
  if id = "f710bed1-e564-47bf-b82c-4c2a2fe2810e" then some c5Dataset else none

/-- C5 witness: the concrete UUID query of the spec's scenario against
a store holding that record, through `C5_exact_id_fast_path`. -/
theorem C5_exact_id_fast_path_witness :
    (HybridSearch.search (fun _ _ => []) (fun _ _ => []) c5Get 1 1 10
        "f710bed1-e564-47bf-b82c-4c2a2fe2810e" 10 50 50).2 =
      [.repoGet "f710bed1-e564-47bf-b82c-4c2a2fe2810e"] ∧
    (HybridSearch.search (fun _ _ => []) (fun _ _ => []) c5Get 1 1 10
        "f710bed1-e564-47bf-b82c-4c2a2fe2810e" 10 50 50).1.results =
      [{ dataset_id := c5Dataset.identifier
         title := c5Dataset.title
         abstract := pyOrEmpty c5Dataset.abstract
         hybrid_score := 1
         is_exact_match := true
         from_keyword := true
         keywords := c5Dataset.keywords }] := by
  have h := C5_exact_id_fast_path (fun _ _ => []) (fun _ _ => []) c5Get 1 1 10
    "f710bed1-e564-47bf-b82c-4c2a2fe2810e" 10 50 50 (by decide)
  exact ⟨h.1, (h.2.2.2.1 c5Dataset (by decide)).1⟩

/-! ## C3: `ETLPipeline.run` and `_commit_batch`
(etl_pipeline.py lines 225–310 and 349–381)

The catalogue client's `fetch_all` result, the parser and the
per-record upsert outcome are abstracted as inputs.  `save_many` is
embedded from `DatasetRepository.save_many` (per-entity try/except
appending to `succeeded`/`failed`).  In `_commit_batch` the source
mutates the `ProcessedDataset` of each failed upsert (setting
`success=False`, `error_stage=STORE`, `error_message`) but returns only
the `stored` list; `run` extends `result.successful` with that list and
discards the rest of the batch, so the mutated failures reach neither
result list. -/

namespace Pipeline

/-- `PipelineStage`. -/
inductive PipelineStage where
  | fetch
  | parse
  | store
  | complete
deriving Repr, DecidableEq

/-- `ProcessedDataset` (the fields the run logic touches). -/
structure ProcessedDataset where
  dataset_id : String
  success : Bool
  stage_completed : PipelineStage
  metadata : Option DatasetMetadata := none
  from_cache : Bool := false
  error_stage : Option PipelineStage := none
  error_message : Option String := none
deriving Repr, DecidableEq

/-- `PipelineResult` (lists and batch counter). -/
structure PipelineResult where
  successful : List ProcessedDataset := []
  failed : List ProcessedDataset := []
  batches_committed : Nat := 0
deriving Repr, DecidableEq

/-- `BulkOperationResult` returned by `save_many`. -/
structure BulkOperationResult where
  succeeded : List String := []
  failed : List (String × String) := []
deriving Repr, DecidableEq

/-- One successfully fetched record (`DatasetFetchResult`). -/
structure DatasetFetchResult where
  dataset_id : String
  json_content : Option String := none
  from_cache : Bool := false
deriving Repr, DecidableEq

/-- One failed fetch. -/
structure FetchFailure where
  dataset_id : String
  error : Option String := none
deriving Repr, DecidableEq

/-- The client's `fetch_all` result. -/
structure FetchAllResult where
  successful : List DatasetFetchResult := []
  failed : List FetchFailure := []
deriving Repr, DecidableEq

/-- `DatasetRepository.save_many` with the per-record upsert outcome
abstracted (`none` = upsert succeeded, `some e` = the exception text):
each entity is tried independently and appended to `succeeded` or
`failed`. -/
def save_many (upsert : DatasetMetadata → Option String)
    (entities : List DatasetMetadata) : BulkOperationResult :=
  entities.foldl
    (fun acc entity =>
      match upsert entity with
      | none => { acc with succeeded := acc.succeeded ++ [entity.identifier] }
      | some e => { acc with failed := acc.failed ++ [(entity.identifier, e)] })
    {}

/-- Association-list update used for the Python dicts keyed by id
(later bindings replace earlier ones). -/
def amInsert {α : Type} (m : List (String × α)) (k : String) (v : α) :
    List (String × α) :=
  if m.any (fun p => p.1 == k) then
    m.map (fun p => if p.1 == k then (k, v) else p)
  else m ++ [(k, v)]

/-- Association-list lookup (`key in map` / `map[key]`). -/
def amGet {α : Type} (m : List (String × α)) (k : String) : Option α :=
  (m.find? (fun p => p.1 == k)).map (·.2)

/-- `ETLPipeline._process_dataset`: parse the fetched JSON content; a
missing body or a parser exception fails the record at `PARSE`. -/
def process_dataset (parseFn : String → Except String DatasetMetadata)
    (fr : DatasetFetchResult) : ProcessedDataset :=
  match fr.json_content with
  | none =>
    { dataset_id := fr.dataset_id, success := false,
      stage_completed := .fetch, from_cache := fr.from_cache,
      error_stage := some .parse,
      error_message := some "No JSON content available" }
  | some content =>
    match parseFn content with
    | .error e =>
      { dataset_id := fr.dataset_id, success := false,
        stage_completed := .fetch, from_cache := fr.from_cache,
        error_stage := some .parse, error_message := some e }
    | .ok md =>
      { dataset_id := fr.dataset_id, success := true,
        stage_completed := .parse, from_cache := fr.from_cache,
        metadata := some md }

/-- The `entity_map` of `_commit_batch` (`metadata.identifier ↦
processed`). -/
def entityMap (batch : List ProcessedDataset) :
    List (String × ProcessedDataset) :=
  batch.foldl
    (fun m p =>
      match p.metadata with
      | some md => amInsert m md.identifier p
      | none => m)
    []

/-- `ETLPipeline._commit_batch`: upsert the batch entities through
`save_many` and return only the `stored` list (each succeeded record
with `stage_completed = STORE`).  The records of failed upserts are
mutated in the source (`success=False`, `error_stage=STORE`, …) but not
returned, and the caller drops them. -/
def commit_batch (upsert : DatasetMetadata → Option String)
    (batch : List ProcessedDataset) : List ProcessedDataset :=
  let entities := batch.filterMap (fun p => p.metadata)
  let emap := entityMap batch
  if entities.isEmpty then []
  else
    let bulk := save_many upsert entities
    bulk.succeeded.filterMap (fun identifier =>
      (amGet emap identifier).map (fun p => { p with stage_completed := .store }))

/-- Flush the residual batch at the end of `run` (`if batch: ...`). -/
def flushBatch (upsert : DatasetMetadata → Option String)
    (batch : List ProcessedDataset) (result : PipelineResult) : PipelineResult :=
  if batch.isEmpty then result
  else
    { result with
      successful := result.successful ++ commit_batch upsert batch
      batches_committed := result.batches_committed + 1 }

/-- The `for i, dataset_id in enumerate(dataset_ids)` loop of `run`. -/
def runLoop (parseFn : String → Except String DatasetMetadata)
    (upsert : DatasetMetadata → Option String) (batch_size : Nat)
    (stop_on_error : Bool) (fetch_map : List (String × DatasetFetchResult)) :
    List String → List ProcessedDataset → PipelineResult → PipelineResult
  | [], batch, result => flushBatch upsert batch result
  | id :: rest, batch, result =>
    match amGet fetch_map id with
    | none => runLoop parseFn upsert batch_size stop_on_error fetch_map rest batch result
    | some fr =>
      let processed := process_dataset parseFn fr
      if processed.success then
        let batch := batch ++ [processed]
        if batch_size ≤ batch.length then
          runLoop parseFn upsert batch_size stop_on_error fetch_map rest []
            { result with
              successful := result.successful ++ commit_batch upsert batch
              batches_committed := result.batches_committed + 1 }
        else
          runLoop parseFn upsert batch_size stop_on_error fetch_map rest batch result
      else
        let result := { result with failed := result.failed ++ [processed] }
        if stop_on_error then flushBatch upsert batch result
        else if batch_size ≤ batch.length then
          runLoop parseFn upsert batch_size stop_on_error fetch_map rest []
            { result with
              successful := result.successful ++ commit_batch upsert batch
              batches_committed := result.batches_committed + 1 }
        else
          runLoop parseFn upsert batch_size stop_on_error fetch_map rest batch result

/-- `ETLPipeline.run`: record the fetch failures at stage `FETCH`, then
process each input id found in the fetch map, committing batches of
`batch_size` and flushing the residual batch. -/
def run (fetch_results : FetchAllResult)
    (parseFn : String → Except String DatasetMetadata)
    (upsert : DatasetMetadata → Option String) (batch_size : Nat)
    (stop_on_error : Bool) (dataset_ids : List String) : PipelineResult :=
  let fetch_map := fetch_results.successful.foldl
    (fun m r => amInsert m r.dataset_id r) []
  let result0 : PipelineResult :=
    { failed := fetch_results.failed.map (fun f =>
        { dataset_id := f.dataset_id, success := false,
          stage_completed := .fetch, error_stage := some .fetch,
          error_message := f.error }) }
  runLoop parseFn upsert batch_size stop_on_error fetch_map dataset_ids [] result0

end Pipeline

/-- The parsed record of the C3 failing input. -/
def c3Parsed : DatasetMetadata := { identifier := "x", title := "T" }

/-- Parser of the C3 failing input: always succeeds with `c3Parsed`. -/
def c3Parse : String → Except String DatasetMetadata := fun _ => .ok c3Parsed

/-- Upsert of the C3 failing input: every upsert raises `disk full`. -/
def c3Upsert : DatasetMetadata → Option String := fun _ => some "disk full"

/-- Fetch results of the C3 failing input: id `x` fetched fine. -/
def c3Fetch : Pipeline.FetchAllResult :=
  { successful := [{ dataset_id := "x", json_content := some "raw json" }] }

/-- C3: a dataset that is fetched and parsed successfully but whose
individual upsert fails is recorded in **neither** list of the returned
`PipelineResult` — `_commit_batch` mutates the record with
`error_stage = STORE` but returns only the stored ones, and `run` drops
the rest of the batch — even though the `save_many` bulk result does
report the failed id.  The claimed partition of processed ids into
`successful ∪ failed` therefore fails. -/
theorem C3_store_failure_dropped :
    (Pipeline.run c3Fetch c3Parse c3Upsert 20 false ["x"]).successful = [] ∧
    (Pipeline.run c3Fetch c3Parse c3Upsert 20 false ["x"]).failed = [] ∧
    (Pipeline.run c3Fetch c3Parse c3Upsert 20 false ["x"]).batches_committed = 1 ∧
    (Pipeline.save_many c3Upsert [c3Parsed]).failed = [("x", "disk full")] ∧
    (Pipeline.process_dataset c3Parse
        { dataset_id := "x", json_content := some "raw json" }).success = true := by
  refine ⟨by decide, by decide, by decide, by decide, by decide⟩

/-! ## C10: `RAGGuardrails.redact_pii` (filters.py lines 32–39 and 109–114)

`redact_pii` applies `pattern.sub(replacement, text)` for the three
`_PII_PATTERNS` in order (email, UK phone, UK postcode).  The three
regular expressions are embedded as deterministic matchers over
character lists: each matcher takes the character preceding the current
position (for `\b`) and the remaining text, and returns the length of
the match the backtracking engine produces there, or `none`.  Character
classes are the ASCII classes written in the source patterns; `\w` (for
`\b`) and `\s` are modelled over ASCII.  `re.sub` scans positions left
to right, replacing each leftmost non-overlapping match. -/

namespace Guardrails

/-- `[0-9]`. -/
def isDigitC (c : Char) : Bool := c.isDigit

/-- `[a-zA-Z]`. -/
def isLetterC (c : Char) : Bool := c.isAlpha

/-- A word character for `\b` (`[a-zA-Z0-9_]`). -/
def isWordC (c : Char) : Bool := c.isAlphanum || c = '_'

/-- A whitespace character for `\s`. -/
def isSpaceC (c : Char) : Bool :=
  c = ' ' ∨ c = '\t' ∨ c = '\n' ∨ c = '\r' ∨ c = '\x0b' ∨ c = '\x0c'

/-- The email local-part class `[a-zA-Z0-9_.+-]`. -/
def localC (c : Char) : Bool :=
  c.isAlphanum || c = '_' || c = '.' || c = '+' || c = '-'

/-- The email domain class `[a-zA-Z0-9-]`. -/
def domC (c : Char) : Bool := c.isAlphanum || c = '-'

/-- The email top-level class `[a-zA-Z0-9-.]`. -/
def tldC (c : Char) : Bool := c.isAlphanum || c = '-' || c = '.'

/-- Word-ness of an optional character (`None` = string edge, which is
a non-word position). -/
def isWordO : Option Char → Bool
  | none => false
  | some c => isWordC c

/-- The word boundary `\b` between two (optional) characters. -/
def bnd (a b : Option Char) : Bool := isWordO a != isWordO b

/-- Length of the maximal run of `p`-characters at the head. -/
def countWhile (p : Char → Bool) (l : List Char) : Nat :=
  (l.takeWhile p).length

/-- The email matcher
(`[a-zA-Z0-9_.+-]+@[a-zA-Z0-9-]+\.[a-zA-Z0-9-.]+`): greedy runs are
forced because `@` and `.` do not belong to the preceding classes. -/
def matchE (s : List Char) : Option Nat :=
  let l := countWhile localC s
  if l = 0 then none
  else
    match s.drop l with
    | '@' :: r1 =>
      let d := countWhile domC r1
      if d = 0 then none
      else
        (match r1.drop d with
         | '.' :: r2 =>
           let t := countWhile tldC r2
           if t = 0 then none else some (l + 1 + d + 1 + t)
         | _ => none)
    | _ => none

/-- The repetition `(?:\d\s?){9,10}` followed by the final `\b`, in the
engine's preference order: iterate greedily (consuming an optional
single space after each digit), backtrack the space, and stop once at
least 9 units are done and the word boundary holds.  `fuel` is the
number of units still allowed (`10` initially); stopping is allowed
when `fuel ≤ 1`. -/
def units (last : Char) : Nat → List Char → Option Nat
  | 0, s =>
    if bnd (some last) s.head? then some 0 else none
  | fuel + 1, s =>
    let iter : Option Nat :=
      match s with
      | d :: rest =>
        if isDigitC d then
          match rest with
          | sp :: rest2 =>
            if isSpaceC sp then
              match units sp fuel rest2 with
              | some n => some (n + 2)
              | none => (units d fuel rest).map (· + 1)
            else (units d fuel rest).map (· + 1)
          | [] => (units d fuel []).map (· + 1)
        else none
      | [] => none
    match iter with
    | some n => some n
    | none =>
      if fuel ≤ 1 && bnd (some last) s.head? then some 0 else none

/-- The part of the phone pattern after the prefix: `\s?` (greedy, with
backtracking) then the digit units. -/
def afterPrefix (lastOfPfx : Char) (rest : List Char) : Option Nat :=
  match rest with
  | sp :: r2 =>
    if isSpaceC sp then
      match units sp 10 r2 with
      | some n => some (n + 1)
      | none => units lastOfPfx 10 rest
    else units lastOfPfx 10 rest
  | [] => units lastOfPfx 10 []

/-- The UK phone matcher
(`\b(?:(?:\+44|0044|0)\s?(?:\d\s?){9,10})\b`): the three prefix
alternatives are tried in order with full fallback; the leading `\b` is
evaluated against the first character of the tried prefix. -/
def matchP (prev : Option Char) (s : List Char) : Option Nat :=
  (match s with
   | '+' :: '4' :: '4' :: rest =>
     if bnd prev (some '+') then (afterPrefix '4' rest).map (· + 3) else none
   | _ => none) <|>
  (match s with
   | '0' :: '0' :: '4' :: '4' :: rest =>
     if bnd prev (some '0') then (afterPrefix '4' rest).map (· + 4) else none
   | _ => none) <|>
  (match s with
   | '0' :: rest =>
     if bnd prev (some '0') then (afterPrefix '0' rest).map (· + 1) else none
   | _ => none)

/-- The tail `\s*\d[A-Z]{2}\b` of the postcode pattern: the space run
is forced maximal because a digit must follow it. -/
def pcTail (s : List Char) : Option Nat :=
  let k := countWhile isSpaceC s
  match s.drop k with
  | d :: l1 :: l2 :: rest =>
    if isDigitC d && isLetterC l1 && isLetterC l2 && bnd (some l2) rest.head?
    then some (k + 3) else none
  | _ => none

/-- `[A-Z\d]?` (greedy, with backtracking) then the postcode tail. -/
def pcAfterDigit (s : List Char) : Option Nat :=
  (match s with
   | c :: rest =>
     if isLetterC c || isDigitC c then (pcTail rest).map (· + 1) else none
   | [] => none) <|> pcTail s

/-- The UK postcode matcher
(`\b[A-Z]{1,2}\d[A-Z\d]?\s*\d[A-Z]{2}\b` with `re.IGNORECASE`):
`{1,2}` is greedy (two letters preferred), with fallback to one. -/
def matchPC (prev : Option Char) (s : List Char) : Option Nat :=
  if bnd prev s.head? then
    match s with
    | a :: b :: rest =>
      if isLetterC a then
        ((if isLetterC b then
            (match rest with
             | d :: r2 =>
               if isDigitC d then (pcAfterDigit r2).map (· + 3) else none
             | [] => none)
          else none) <|>
         (if isDigitC b then (pcAfterDigit rest).map (· + 2) else none))
      else none
    | _ => none
  else none

/-- `pattern.sub(repl, text)`: scan left to right, replacing each
leftmost non-overlapping match (all matches are found on the input
text; `prev` is the character just before the current position). -/
def sub (m : Option Char → List Char → Option Nat) (r : List Char) :
    Option Char → List Char → List Char
  | _, [] => []
  | prev, c :: cs =>
    match m prev (c :: cs) with
    | some (n + 1) =>
      r ++ sub m r (some ((c :: cs).getD n c)) (List.drop (n + 1) (c :: cs))
    | _ => c :: sub m r (some c) cs
termination_by _ s => s.length
decreasing_by
  · simp only [List.length_drop, List.length_cons]
    omega
  · simp

/-- The `[EMAIL REDACTED]` placeholder. -/
def ER : List Char := "[EMAIL REDACTED]".data

/-- The `[PHONE REDACTED]` placeholder. -/
def PR : List Char := "[PHONE REDACTED]".data

/-- The `[POSTCODE REDACTED]` placeholder. -/
def PCR : List Char := "[POSTCODE REDACTED]".data

/-- `RAGGuardrails.redact_pii` on character lists: substitute the three
patterns in order. -/
def redactL (t : List Char) : List Char :=
  sub matchPC PCR none (sub matchP PR none (sub (fun _ s => matchE s) ER none t))

/-- `RAGGuardrails.redact_pii`. -/
def redact_pii (t : String) : String := ⟨redactL t.data⟩

/-! ### Scan infrastructure -/

/-- The character just before the current scan position: the last
character of the already-scanned prefix, or the initial `prev`. -/
def olastD (p0 : Option Char) (pre : List Char) : Option Char :=
  match pre.getLast? with
  | some c => some c
  | none => p0

/-- No match fires at any position of `s` when scanned with initial
previous character `p0`. -/
def NoMatchFrom (m : Option Char → List Char → Option Nat)
    (p0 : Option Char) (s : List Char) : Prop :=
  ∀ pre suf, s = pre ++ suf → m (olastD p0 pre) suf = none

lemma olastD_cons (p0 : Option Char) (c : Char) (pre : List Char) :
    olastD p0 (c :: pre) = olastD (some c) pre := by
  cases pre with
  | nil => rfl
  | cons d t =>
    unfold olastD
    rw [List.getLast?_cons_cons]
    cases h : (d :: t).getLast? with
    | some e => rfl
    | none => simp at h

lemma olastD_ne_nil (p0 p1 : Option Char) {pre : List Char} (h : pre ≠ []) :
    olastD p0 pre = olastD p1 pre := by
  unfold olastD
  cases hg : pre.getLast? with
  | none => exact absurd (List.getLast?_eq_none_iff.mp hg) h
  | some c => rfl

lemma olastD_append (p0 : Option Char) (A B : List Char) :
    olastD p0 (A ++ B) = olastD (olastD p0 A) B := by
  unfold olastD
  rw [List.getLast?_append]
  cases hg : B.getLast? <;> simp

lemma olastD_eq_getLast {p0 : Option Char} {A : List Char} {c : Char}
    (h : A.getLast? = some c) : olastD p0 A = some c := by
  unfold olastD
  rw [h]

lemma noMatchFrom_append {m : Option Char → List Char → Option Nat}
    {p0 : Option Char} {A B : List Char} (h : NoMatchFrom m p0 (A ++ B)) :
    NoMatchFrom m (olastD p0 A) B := by
  intro pre suf hsp
  have := h (A ++ pre) suf (by rw [hsp]; simp)
  rwa [olastD_append] at this

lemma noMatchFrom_head {m p0 c cs} (h : NoMatchFrom m p0 (c :: cs)) :
    m p0 (c :: cs) = none :=
  h [] (c :: cs) rfl

lemma noMatchFrom_tail {m p0 c cs} (h : NoMatchFrom m p0 (c :: cs)) :
    NoMatchFrom m (some c) cs := by
  intro pre suf hsp
  have := h (c :: pre) suf (by simp [hsp])
  rwa [olastD_cons] at this

lemma sub_nil (m : Option Char → List Char → Option Nat) (r : List Char)
    (p0 : Option Char) : sub m r p0 [] = [] := by
  rw [sub]

lemma sub_cons_none {m : Option Char → List Char → Option Nat}
    (r : List Char) {p0 : Option Char} {c : Char} {cs : List Char}
    (h : m p0 (c :: cs) = none) :
    sub m r p0 (c :: cs) = c :: sub m r (some c) cs := by
  rw [sub, h]

lemma sub_cons_zero {m : Option Char → List Char → Option Nat}
    (r : List Char) {p0 : Option Char} {c : Char} {cs : List Char}
    (h : m p0 (c :: cs) = some 0) :
    sub m r p0 (c :: cs) = c :: sub m r (some c) cs := by
  rw [sub, h]

lemma sub_cons_some {m : Option Char → List Char → Option Nat}
    (r : List Char) {p0 : Option Char} {c : Char} {cs : List Char} {n : Nat}
    (h : m p0 (c :: cs) = some (n + 1)) :
    sub m r p0 (c :: cs) =
      r ++ sub m r (some ((c :: cs).getD n c)) (List.drop (n + 1) (c :: cs)) := by
  rw [sub, h]

/-- If no match ever fires, `sub` is the identity. -/
lemma sub_id (m : Option Char → List Char → Option Nat) (r : List Char) :
    ∀ s p0, NoMatchFrom m p0 s → sub m r p0 s = s := by
  intro s
  induction s with
  | nil => intro p0 _; exact sub_nil m r p0
  | cons c cs ih =>
    intro p0 h
    rw [sub_cons_none r (noMatchFrom_head h), ih (some c) (noMatchFrom_tail h)]

/-- First-chunk decomposition of a `sub` run: either no match fires
anywhere (and the output is the input), or the input splits as a
match-free prefix `a`, a first fired match `u`, and the rest, with the
output being `a ++ r ++ ⟨recursive output⟩`. -/
lemma subSplitFire (m : Option Char → List Char → Option Nat) (r : List Char)
    (hB : ∀ p s n, m p s = some n → n ≤ s.length)
    (hNZ : ∀ p s, m p s ≠ some 0) :
    ∀ s p0, (NoMatchFrom m p0 s ∧ sub m r p0 s = s) ∨
      ∃ a u rest lc, s = a ++ (u ++ rest) ∧ u ≠ [] ∧
        (∀ a1 a2, a = a1 ++ a2 → a2 ≠ [] →
          m (olastD p0 a1) (a2 ++ (u ++ rest)) = none) ∧
        m (olastD p0 a) (u ++ rest) = some u.length ∧
        u.getLast? = some lc ∧
        sub m r p0 s = a ++ (r ++ sub m r (some lc) rest) := by
  intro s
  induction s with
  | nil =>
    intro p0
    left
    refine ⟨?_, sub_nil m r p0⟩
    intro pre suf hsp
    rw [List.nil_eq, List.append_eq_nil] at hsp
    rw [hsp.2]
    cases hcase : m (olastD p0 pre) [] with
    | none => rfl
    | some k =>
      cases k with
      | zero => exact absurd hcase (hNZ _ [])
      | succ k =>
        have := hB _ [] _ hcase
        simp at this
  | cons c cs ih =>
    intro p0
    cases hm : m p0 (c :: cs) with
    | some n =>
      cases n with
      | zero => exact absurd hm (hNZ p0 (c :: cs))
      | succ n =>
        right
        have hb := hB p0 (c :: cs) (n + 1) hm
        have hlen : ((c :: cs).take (n + 1)).length = n + 1 := by
          rw [List.length_take, Nat.min_eq_left hb]
        have hlt : n < (c :: cs).length := by
          simp only [List.length_cons] at hb ⊢
          omega
        refine ⟨[], (c :: cs).take (n + 1), (c :: cs).drop (n + 1),
          (c :: cs).getD n c, by simp, ?_, ?_, ?_, ?_, ?_⟩
        · intro hcontra
          have hle := congrArg List.length hcontra
          rw [hlen] at hle
          simp at hle
        · intro a1 a2 hsp hne
          rw [List.nil_eq, List.append_eq_nil] at hsp
          exact absurd hsp.2 hne
        · rw [List.take_append_drop, hlen]
          simpa [olastD] using hm
        · have hgd : (c :: cs).getD n c = (c :: cs)[n] := by
            rw [List.getD_eq_getElem?_getD, List.getElem?_eq_getElem hlt]
            rfl
          rw [List.getLast?_eq_getElem?, hlen, hgd]
          simp only [Nat.add_sub_cancel]
          rw [List.getElem?_take, if_pos (Nat.lt_succ_self n),
            List.getElem?_eq_getElem hlt]
        · rw [sub_cons_some r hm]
          simp
    | none =>
      rcases ih (some c) with ⟨hno, hid⟩ | ⟨a, u, rest, lc, hsp, hu, hbef, hfire,
        hlast, hout⟩
      · left
        constructor
        · intro pre suf hsp
          cases pre with
          | nil =>
            simp only [List.nil_append] at hsp
            rw [← hsp]
            simpa [olastD] using hm
          | cons e pre2 =>
            rw [List.cons_append, List.cons.injEq] at hsp
            rw [olastD_cons, ← hsp.1]
            exact hno pre2 suf hsp.2
        · rw [sub_cons_none r hm, hid]
      · right
        refine ⟨c :: a, u, rest, lc, by simp [hsp], hu, ?_, ?_, hlast, ?_⟩
        · intro a1 a2 hspl hne
          cases a1 with
          | nil =>
            simp only [List.nil_append] at hspl
            rw [← hspl, List.cons_append, ← hsp]
            simpa [olastD] using hm
          | cons e a12 =>
            rw [List.cons_append, List.cons.injEq] at hspl
            rw [olastD_cons, ← hspl.1]
            exact hbef a12 a2 hspl.2 hne
        · rwa [olastD_cons]
        · rw [sub_cons_none r hm, hout]
          simp

/-! ### Email pattern: canonical shape and blocking lemmas -/

/-- The decompositions on which the email pattern fires. -/
def emailShape (s : List Char) : Prop :=
  ∃ l d t rest, s = l ++ '@' :: (d ++ '.' :: (t :: rest)) ∧
    l ≠ [] ∧ (∀ c ∈ l, localC c = true) ∧
    d ≠ [] ∧ (∀ c ∈ d, domC c = true) ∧ tldC t = true

lemma takeWhile_append_stop (p : Char → Bool) (l r : List Char)
    (hall : ∀ c ∈ l, p c = true) (hr : ∀ c, r.head? = some c → p c = false) :
    (l ++ r).takeWhile p = l := by
  induction l with
  | nil =>
    cases r with
    | nil => rfl
    | cons c rs => simp [List.takeWhile_cons, hr c rfl]
  | cons c ls ih =>
    simp only [List.cons_append, List.takeWhile_cons,
      hall c (List.mem_cons_self _ _), if_true]
    rw [ih (fun a ha => hall a (List.mem_cons_of_mem _ ha))]

lemma countWhile_append_stop (p : Char → Bool) (l r : List Char)
    (hall : ∀ c ∈ l, p c = true) (hr : ∀ c, r.head? = some c → p c = false) :
    countWhile p (l ++ r) = l.length := by
  rw [countWhile, takeWhile_append_stop p l r hall hr]

lemma drop_countWhile (p : Char → Bool) (s : List Char) :
    s.drop (countWhile p s) = s.dropWhile p := by
  rw [countWhile]
  nth_rewrite 2 [← List.takeWhile_append_dropWhile (p := p) (l := s)]
  rw [List.drop_left]

/-- Restatement of the email matcher over `dropWhile`. -/
lemma matchE_eq (s : List Char) : matchE s =
    (if countWhile localC s = 0 then none
     else
       match s.dropWhile localC with
       | '@' :: r1 =>
         if countWhile domC r1 = 0 then none
         else
           (match r1.dropWhile domC with
            | '.' :: r2 =>
              if countWhile tldC r2 = 0 then none
              else some (countWhile localC s + 1 + countWhile domC r1 +
                1 + countWhile tldC r2)
            | _ => none)
       | _ => none) := by
  unfold matchE
  simp only [drop_countWhile]

/-- Soundness of the email matcher: a fire yields the canonical
decomposition. -/
lemma matchE_shape {s : List Char} (h : matchE s ≠ none) : emailShape s := by
  rw [matchE_eq] at h
  split at h
  · exact absurd rfl h
  next h0 =>
  split at h
  next r1 heq =>
    split at h
    · exact absurd rfl h
    next hd0 =>
    split at h
    next r2 heq2 =>
      split at h
      · exact absurd rfl h
      next ht0 =>
      cases hr2 : r2 with
      | nil =>
        rw [hr2] at ht0
        exact absurd rfl ht0
      | cons t rest =>
        refine ⟨s.takeWhile localC, r1.takeWhile domC, t, rest,
          ?_, ?_, ?_, ?_, ?_, ?_⟩
        · conv_lhs => rw [← List.takeWhile_append_dropWhile
            (p := localC) (l := s)]
          rw [heq]
          congr 2
          conv_lhs => rw [← List.takeWhile_append_dropWhile
            (p := domC) (l := r1)]
          rw [heq2, hr2]
        · intro hnil
          rw [countWhile, hnil] at h0
          exact h0 rfl
        · exact fun c hc => List.mem_takeWhile_imp hc
        · intro hnil
          rw [countWhile, hnil] at hd0
          exact hd0 rfl
        · exact fun c hc => List.mem_takeWhile_imp hc
        · rw [hr2] at ht0
          by_contra htc
          rw [Bool.not_eq_true] at htc
          rw [countWhile, List.takeWhile_cons, htc] at ht0
          exact ht0 rfl
    next => exact absurd rfl h
  next => exact absurd rfl h

/-- `dropWhile` over a run of `p`-characters stopped by the head of `r`. -/
lemma dropWhile_append_stop (p : Char → Bool) (l r : List Char)
    (hall : ∀ c ∈ l, p c = true) (hr : ∀ c, r.head? = some c → p c = false) :
    (l ++ r).dropWhile p = r := by
  have h := List.takeWhile_append_dropWhile (p := p) (l := l ++ r)
  rw [takeWhile_append_stop p l r hall hr] at h
  exact List.append_cancel_left h

/-- Completeness of the email matcher on canonical decompositions. -/
lemma emailShape_fires {s : List Char} (h : emailShape s) : matchE s ≠ none := by
  obtain ⟨l, d, t, rest, hs, hl, hall, hd, halld, ht⟩ := h
  have hat : ∀ c, ('@' :: (d ++ '.' :: (t :: rest))).head? = some c →
      localC c = false := by
    intro c hc
    rw [List.head?_cons, Option.some_inj] at hc
    subst hc
    decide
  have hdot : ∀ c, ('.' :: (t :: rest)).head? = some c → domC c = false := by
    intro c hc
    rw [List.head?_cons, Option.some_inj] at hc
    subst hc
    decide
  have e1 : countWhile localC (l ++ '@' :: (d ++ '.' :: (t :: rest))) =
      l.length := countWhile_append_stop localC l _ hall hat
  have e2 : (l ++ '@' :: (d ++ '.' :: (t :: rest))).dropWhile localC =
      '@' :: (d ++ '.' :: (t :: rest)) :=
    dropWhile_append_stop localC l _ hall hat
  have e3 : countWhile domC (d ++ '.' :: (t :: rest)) = d.length :=
    countWhile_append_stop domC d _ halld hdot
  have e4 : (d ++ '.' :: (t :: rest)).dropWhile domC = '.' :: (t :: rest) :=
    dropWhile_append_stop domC d _ halld hdot
  have e5 : countWhile tldC (t :: rest) ≠ 0 := by
    rw [countWhile, List.takeWhile_cons, ht]
    simp
  rw [matchE_eq, hs]
  simp only [e1, e2, e3, e4]
  rw [if_neg (fun h0 => hl (List.length_eq_zero.mp h0)),
    if_neg (fun h0 => hd (List.length_eq_zero.mp h0)),
    if_neg e5]
  simp

lemma take_len_add (l1 l2 : List Char) (i : Nat) :
    (l1 ++ l2).take (l1.length + i) = l1 ++ l2.take i := by
  induction l1 with
  | nil => simp
  | cons c t ih =>
    simp only [List.cons_append, List.length_cons]
    rw [Nat.add_right_comm, List.take_succ_cons, ih]

lemma take_countWhile (p : Char → Bool) (s : List Char) :
    s.take (countWhile p s) = s.takeWhile p := by
  rw [countWhile]
  nth_rewrite 2 [← List.takeWhile_append_dropWhile (p := p) (l := s)]
  rw [List.take_left]

/-- Full soundness of the email matcher: a fire of length `n` yields the
canonical decomposition, `n` covers the mandatory part and stays within
the text, and every consumed character belongs to one of the pattern's
character classes. -/
lemma matchE_some_shape {s : List Char} {n : Nat} (h : matchE s = some n) :
    ∃ L D T0 rest, s = L ++ '@' :: (D ++ '.' :: (T0 :: rest)) ∧
      L ≠ [] ∧ (∀ c ∈ L, localC c = true) ∧
      D ≠ [] ∧ (∀ c ∈ D, domC c = true) ∧ tldC T0 = true ∧
      L.length + D.length + 3 ≤ n ∧ n ≤ s.length ∧
      ∀ c ∈ s.take n, localC c = true ∨ c = '@' ∨ domC c = true ∨
        c = '.' ∨ tldC c = true := by
  rw [matchE_eq] at h
  split at h
  · exact absurd h (by simp)
  next h0 =>
  split at h
  next r1 heq =>
    split at h
    · exact absurd h (by simp)
    next hd0 =>
    split at h
    next r2 heq2 =>
      split at h
      · exact absurd h (by simp)
      next ht0 =>
      rw [Option.some_inj] at h
      have hsdec : s = s.takeWhile localC ++
          '@' :: (r1.takeWhile domC ++ '.' :: r2) := by
        conv_lhs => rw [← List.takeWhile_append_dropWhile (p := localC) (l := s)]
        rw [heq]
        congr 2
        conv_lhs => rw [← List.takeWhile_append_dropWhile (p := domC) (l := r1)]
        rw [heq2]
      have hslen : s.length = countWhile localC s +
          (1 + (countWhile domC r1 + (1 + r2.length))) := by
        conv_lhs => rw [hsdec]
        simp [countWhile, List.length_append]
        omega
      have hctle : countWhile tldC r2 ≤ r2.length := by
        rw [countWhile]
        nth_rewrite 2 [← List.takeWhile_append_dropWhile (p := tldC) (l := r2)]
        rw [List.length_append]
        omega
      have hn' : n = countWhile localC s +
          (1 + (countWhile domC r1 + (1 + countWhile tldC r2))) := by omega
      have htake : s.take n = s.takeWhile localC ++
          '@' :: (r1.takeWhile domC ++ '.' :: r2.takeWhile tldC) := by
        conv_lhs => rw [hsdec]
        rw [hn']
        simp only [countWhile]
        rw [take_len_add, Nat.add_comm 1 _, List.take_succ_cons,
          take_len_add, Nat.add_comm 1 _, List.take_succ_cons]
        rw [← countWhile, take_countWhile]
      cases hr2 : r2 with
      | nil => rw [hr2] at ht0; exact absurd rfl ht0
      | cons T0 rest =>
        refine ⟨s.takeWhile localC, r1.takeWhile domC, T0, rest,
          ?_, ?_, ?_, ?_, ?_, ?_, ?_, ?_, ?_⟩
        · conv_lhs => rw [hsdec, hr2]
        · intro hnil
          rw [countWhile, hnil] at h0
          exact h0 rfl
        · exact fun c hc => List.mem_takeWhile_imp hc
        · intro hnil
          rw [countWhile, hnil] at hd0
          exact hd0 rfl
        · exact fun c hc => List.mem_takeWhile_imp hc
        · rw [hr2] at ht0
          by_contra htc
          rw [Bool.not_eq_true] at htc
          rw [countWhile, List.takeWhile_cons, htc] at ht0
          exact ht0 rfl
        · have h1 : countWhile localC s = (s.takeWhile localC).length := rfl
          have h2 : countWhile domC r1 = (r1.takeWhile domC).length := rfl
          have h3 : 1 ≤ countWhile tldC r2 := Nat.one_le_iff_ne_zero.mpr ht0
          omega
        · omega
        · intro c hc
          rw [htake] at hc
          simp only [List.mem_append, List.mem_cons] at hc
          rcases hc with hl | hq | hdm | hdot | htl
          · exact Or.inl (List.mem_takeWhile_imp hl)
          · exact Or.inr (Or.inl hq)
          · exact Or.inr (Or.inr (Or.inl (List.mem_takeWhile_imp hdm)))
          · exact Or.inr (Or.inr (Or.inr (Or.inl hdot)))
          · exact Or.inr (Or.inr (Or.inr (Or.inr
              (List.mem_takeWhile_imp htl))))
    next => exact absurd h (by simp)
  next => exact absurd h (by simp)

lemma matchE_nil : matchE [] = none := rfl

/-- The email matcher never reports an empty match. -/
lemma matchE_nz (s : List Char) : matchE s ≠ some 0 := by
  intro h
  obtain ⟨L, D, T0, rest, _, _, _, _, _, _, hge, _, _⟩ := matchE_some_shape h
  omega

/-- The email matcher never consumes past the end of the text. -/
lemma matchE_le {s : List Char} {n : Nat} (h : matchE s = some n) :
    n ≤ s.length := by
  obtain ⟨L, D, T0, rest, _, _, _, _, _, _, _, hle, _⟩ := matchE_some_shape h
  exact hle

/-- No `[` occurs in an email match. -/
lemma matchE_no_bracket {s : List Char} {n : Nat} (h : matchE s = some n) :
    '[' ∉ s.take n := by
  intro hmem
  obtain ⟨L, D, T0, rest, _, _, _, _, _, _, _, _, hcs⟩ := matchE_some_shape h
  rcases hcs _ hmem with hc | hc | hc | hc | hc <;> revert hc <;> decide

/-- An email fire contained in `x` (except for its greedy top-level-domain
run) re-fires whatever follows `x`. -/
lemma e_trans {x v : List Char} {n : Nat} (h : matchE (x ++ v) = some n)
    (hn : n ≤ x.length) : ∀ w, matchE (x ++ w) ≠ none := by
  intro w
  obtain ⟨L, D, T0, rest, hs, hL, hLc, hD, hDc, hT, hge, _, _⟩ :=
    matchE_some_shape h
  have hs2 : x ++ v = (L ++ '@' :: (D ++ '.' :: [T0])) ++ rest := by
    rw [hs]
    simp
  have hlenA : (L ++ '@' :: (D ++ '.' :: [T0])).length ≤ x.length := by
    simp only [List.length_append, List.length_cons, List.length_nil]
    omega
  rcases List.append_eq_append_iff.mp hs2 with ⟨m, hm1, hm2⟩ | ⟨m, hm1, hm2⟩
  · -- L ++ '@' :: (D ++ '.' :: [T0]) = x ++ m : forces m = []
    have hlen := congrArg List.length hm1
    simp only [List.length_append] at hlen
    have hm0 : m.length = 0 := by
      have := hlenA
      rw [hm1, List.length_append] at this
      omega
    rw [List.length_eq_zero] at hm0
    subst hm0
    rw [List.append_nil] at hm1
    apply emailShape_fires
    exact ⟨L, D, T0, w, by rw [← hm1]; simp, hL, hLc, hD, hDc, hT⟩
  · -- x = (L ++ '@' :: (D ++ '.' :: [T0])) ++ m
    apply emailShape_fires
    exact ⟨L, D, T0, m ++ w, by rw [hm1]; simp, hL, hLc, hD, hDc, hT⟩

/-- A chunk with no `@` and some non-local character can never begin an
email match, whatever follows it. -/
lemma matchE_noat {u X : List Char} (hq : ∀ a ∈ u, a ≠ '@')
    (hnl : ∃ a ∈ u, localC a = false) : matchE (u ++ X) = none := by
  by_contra h
  obtain ⟨L, D, T0, rest, hs, _, hLc, _, _, _⟩ := matchE_shape h
  rcases List.append_eq_append_iff.mp hs with ⟨m, hm1, hm2⟩ | ⟨m, hm1, hm2⟩
  · -- L = u ++ m : every element of u is local
    obtain ⟨a, ha, hal⟩ := hnl
    have : a ∈ L := by
      rw [hm1]
      exact List.mem_append_left m ha
    rw [hLc a this] at hal
    exact absurd hal (by simp)
  · -- u = L ++ m and '@' :: _ = m ++ X
    cases m with
    | nil =>
      obtain ⟨a, ha, hal⟩ := hnl
      rw [List.append_nil] at hm1
      have : a ∈ L := hm1 ▸ ha
      rw [hLc a this] at hal
      exact absurd hal (by simp)
    | cons e m2 =>
      rw [List.cons_append, List.cons.injEq] at hm2
      have : e ∈ u := by
        rw [hm1]
        exact List.mem_append_right L (List.mem_cons_self e m2)
      exact hq e this hm2.1.symm

/-- No email match fires at any position of `X` (the email pattern is
independent of the previous character). -/
def NoE (X : List Char) : Prop :=
  ∀ pre suf, X = pre ++ suf → matchE suf = none

lemma getLast?_append_right {m k : List Char} {x : Char}
    (h : (m ++ k).getLast? = some x) (hk : k ≠ []) : k.getLast? = some x := by
  rw [List.getLast?_append] at h
  cases hg : k.getLast? with
  | none => exact absurd (List.getLast?_eq_none_iff.mp hg) hk
  | some y =>
    rw [hg, Option.or_some] at h
    exact h

lemma bracket_mem_take {m z : List Char} {n : Nat} (h : m.length < n) :
    '[' ∈ (m ++ '[' :: z).take n := by
  have hn : n = m.length + (n - m.length) := by omega
  rw [hn, take_len_add]
  apply List.mem_append_right
  have : n - m.length = (n - m.length - 1) + 1 := by omega
  rw [this, List.take_succ_cons]
  exact List.mem_cons_self _ _

/-- Master lemma for the email pattern: substituting with a scanner whose
placeholder starts with `[`, ends with `]` and contains no `@` leaves no
email match in the output, provided every email fire in the input would
also make the scanner fire there. -/
lemma emailSafe (mS : Option Char → List Char → Option Nat) (R : List Char)
    (hB : ∀ p s n, mS p s = some n → n ≤ s.length)
    (hNZ : ∀ p s, mS p s ≠ some 0)
    (hRhead : ∃ Rt, R = '[' :: Rt)
    (hRat : ∀ a ∈ R, a ≠ '@')
    (hRlast : R.getLast? = some ']') :
    ∀ N s, s.length ≤ N → ∀ pIn,
      (∀ pre suf, s = pre ++ suf → matchE suf ≠ none →
        mS (olastD pIn pre) suf ≠ none) →
      NoE (sub mS R pIn s) := by
  intro N
  induction N with
  | zero =>
    intro s hlen pIn _
    rw [Nat.le_zero, List.length_eq_zero] at hlen
    subst hlen
    rw [sub_nil]
    intro pre suf hsplit
    rw [List.nil_eq, List.append_eq_nil] at hsplit
    rw [hsplit.2]
    exact matchE_nil
  | succ N ihN =>
    intro s hlen pIn HP
    rcases subSplitFire mS R hB hNZ s pIn with ⟨hno, hid⟩ |
      ⟨a, u, rest, lc, hsp, hu, hbef, hfire, hlast, hout⟩
    · rw [hid]
      intro pre suf hsplit
      by_contra hfe
      exact HP pre suf hsplit hfe (hno pre suf hsplit)
    · rw [hout]
      have hrl : rest.length ≤ N := by
        have := congrArg List.length hsp
        simp only [List.length_append] at this
        have hu1 : 1 ≤ u.length := by
          cases u with
          | nil => exact absurd rfl hu
          | cons _ _ => simp
        omega
      have holu : olastD pIn (a ++ u) = some lc := by
        rw [olastD_append]
        exact olastD_eq_getLast hlast
      have hT : NoE (sub mS R (some lc) rest) := by
        apply ihN rest hrl (some lc)
        intro pre2 suf2 hsp2 hfe
        have hsp3 : s = ((a ++ u) ++ pre2) ++ suf2 := by
          rw [hsp, hsp2]
          simp
        have := HP ((a ++ u) ++ pre2) suf2 hsp3 hfe
        rwa [olastD_append, holu] at this
      intro pre suf hsplit
      rcases List.append_eq_append_iff.mp hsplit.symm with ⟨m, hm1, hm2⟩ |
        ⟨m, hm1, hm2⟩
      · -- region (i): a = pre ++ m, suf = m ++ (R ++ T)
        subst hm2
        cases hmE : matchE (m ++ (R ++ sub mS R (some lc) rest)) with
        | none => rfl
        | some n =>
          exfalso
          by_cases hcmp : n ≤ m.length
          · cases hmeq : m with
            | nil =>
              subst hmeq
              simp only [List.length_nil, Nat.le_zero] at hcmp
              subst hcmp
              exact matchE_nz _ hmE
            | cons e m2 =>
              have hfe2 := e_trans hmE hcmp (u ++ rest)
              have hsp3 : s = pre ++ (m ++ (u ++ rest)) := by
                rw [hsp, hm1]
                simp
              have := HP pre (m ++ (u ++ rest)) hsp3 hfe2
              exact this (hbef pre m hm1 (by rw [hmeq]; simp))
          · obtain ⟨Rt, hRt⟩ := hRhead
            have hbr : '[' ∈ (m ++ (R ++ sub mS R (some lc) rest)).take n := by
              rw [hRt, List.cons_append]
              exact bracket_mem_take (by omega)
            exact matchE_no_bracket hmE hbr
      · -- pre = a ++ m, R ++ T = m ++ suf
        rcases List.append_eq_append_iff.mp hm2 with ⟨k, hk1, hk2⟩ |
          ⟨k, hk1, hk2⟩
        · -- m = R ++ k, T = k ++ suf
          exact hT k suf hk2
        · -- R = m ++ k, suf = k ++ T
          cases hkeq : k with
          | nil =>
            subst hkeq
            rw [List.nil_append] at hk2
            rw [hk2]
            exact hT [] _ rfl
          | cons e k2 =>
            rw [hk2]
            apply matchE_noat
            · intro x hx
              exact hRat x (by rw [hk1]; exact List.mem_append_right m hx)
            · refine ⟨']', ?_, by decide⟩
              have := getLast?_append_right (hk1 ▸ hRlast)
                (by rw [hkeq]; simp)
              exact List.mem_of_getLast?_eq_some this
  
/-! ### Phone and postcode matchers: structural facts -/
lemma units_zero (last : Char) (s : List Char) :
    units last 0 s = if bnd (some last) s.head? then some 0 else none := by
  rw [units.eq_def]

lemma units_succ (last : Char) (f : Nat) (s : List Char) :
    units last (f + 1) s =
      match (match s with
             | d :: rest =>
               if isDigitC d then
                 match rest with
                 | sp :: rest2 =>
                   if isSpaceC sp then
                     match units sp f rest2 with
                     | some n => some (n + 2)
                     | none => (units d f rest).map (· + 1)
                   else (units d f rest).map (· + 1)
                 | [] => (units d f []).map (· + 1)
               else none
             | [] => (none : Option Nat)) with
      | some n => some n
      | none => if f ≤ 1 && bnd (some last) s.head? then some 0 else none := by
  rw [units.eq_def]

lemma units_succ_nil (last : Char) (f : Nat) :
    units last (f + 1) [] =
      if f ≤ 1 && bnd (some last) none then some 0 else none := by
  rw [units.eq_def]
  simp

lemma units_eq_nondigit {d : Char} (last : Char) (f : Nat) (rest : List Char)
    (hd : isDigitC d = false) :
    units last (f + 1) (d :: rest) =
      if f ≤ 1 && bnd (some last) (some d) then some 0 else none := by
  rw [units.eq_def]
  simp [hd]

lemma units_eq_digit_nil_some {d : Char} {f k : Nat} (last : Char)
    (hd : isDigitC d = true) (hin : units d f [] = some k) :
    units last (f + 1) [d] = some (k + 1) := by
  rw [units.eq_def]
  simp [hd, hin]

lemma units_eq_digit_nil_none {d : Char} {f : Nat} (last : Char)
    (hd : isDigitC d = true) (hin : units d f [] = none) :
    units last (f + 1) [d] =
      if f ≤ 1 && bnd (some last) (some d) then some 0 else none := by
  rw [units.eq_def]
  simp [hd, hin]

lemma units_eq_nonspace_some {d sp : Char} {f k : Nat} (last : Char)
    (rest2 : List Char) (hd : isDigitC d = true) (hsp : isSpaceC sp = false)
    (hin : units d f (sp :: rest2) = some k) :
    units last (f + 1) (d :: sp :: rest2) = some (k + 1) := by
  rw [units.eq_def]
  simp [hd, hsp, hin]

lemma units_eq_nonspace_none {d sp : Char} {f : Nat} (last : Char)
    (rest2 : List Char) (hd : isDigitC d = true) (hsp : isSpaceC sp = false)
    (hin : units d f (sp :: rest2) = none) :
    units last (f + 1) (d :: sp :: rest2) =
      if f ≤ 1 && bnd (some last) (some d) then some 0 else none := by
  rw [units.eq_def]
  simp [hd, hsp, hin]

lemma units_eq_space_some {d sp : Char} {f k : Nat} (last : Char)
    (rest2 : List Char) (hd : isDigitC d = true) (hsp : isSpaceC sp = true)
    (hin : units sp f rest2 = some k) :
    units last (f + 1) (d :: sp :: rest2) = some (k + 2) := by
  rw [units.eq_def]
  simp [hd, hsp, hin]

lemma units_eq_space_none_some {d sp : Char} {f k : Nat} (last : Char)
    (rest2 : List Char) (hd : isDigitC d = true) (hsp : isSpaceC sp = true)
    (hin : units sp f rest2 = none)
    (hin2 : units d f (sp :: rest2) = some k) :
    units last (f + 1) (d :: sp :: rest2) = some (k + 1) := by
  rw [units.eq_def]
  simp [hd, hsp, hin, hin2]

lemma units_eq_space_none_none {d sp : Char} {f : Nat} (last : Char)
    (rest2 : List Char) (hd : isDigitC d = true) (hsp : isSpaceC sp = true)
    (hin : units sp f rest2 = none)
    (hin2 : units d f (sp :: rest2) = none) :
    units last (f + 1) (d :: sp :: rest2) =
      if f ≤ 1 && bnd (some last) (some d) then some 0 else none := by
  rw [units.eq_def]
  simp [hd, hsp, hin, hin2]

lemma stop_some {f : Nat} {last : Char} {x : Option Char} {n : Nat}
    (h : (if f ≤ 1 && bnd (some last) x then some 0 else none) = some n) :
    n = 0 ∧ f ≤ 1 ∧ bnd (some last) x = true := by
  split at h
  next hc =>
    rw [Option.some_inj] at h
    simp only [Bool.and_eq_true, decide_eq_true_eq] at hc
    exact ⟨h.symm, hc.1, hc.2⟩
  next => exact absurd h (by simp)

lemma stop_fire {f : Nat} {last : Char} {x : Option Char}
    (hf : f ≤ 1) (hb : bnd (some last) x = true) :
    (if f ≤ 1 && bnd (some last) x then some 0 else none) = some 0 := by
  rw [if_pos]
  simp [hf, hb]

lemma units_le : ∀ fuel last s n, units last fuel s = some n → n ≤ s.length := by
  intro fuel
  induction fuel with
  | zero =>
    intro last s n h
    rw [units_zero] at h
    split at h
    · rw [Option.some_inj] at h
      omega
    · exact absurd h (by simp)
  | succ f ih =>
    intro last s n h
    cases s with
    | nil =>
      rw [units_succ_nil] at h
      obtain ⟨h0, -, -⟩ := stop_some h
      omega
    | cons d rest =>
      by_cases hd : isDigitC d
      case neg =>
        rw [units_eq_nondigit last f rest (by simpa using hd)] at h
        obtain ⟨h0, -, -⟩ := stop_some h
        simp [h0]
      case pos =>
      cases rest with
      | nil =>
        cases hin : units d f [] with
        | some k =>
          rw [units_eq_digit_nil_some last hd hin] at h
          rw [Option.some_inj] at h
          have := ih d [] k hin
          simp only [List.length_nil, Nat.le_zero] at this
          simp only [List.length_cons, List.length_nil]
          omega
        | none =>
          rw [units_eq_digit_nil_none last hd hin] at h
          obtain ⟨h0, -, -⟩ := stop_some h
          simp [h0]
      | cons sp rest2 =>
        by_cases hsp : isSpaceC sp
        · cases hin : units sp f rest2 with
          | some k =>
            rw [units_eq_space_some last rest2 hd hsp hin] at h
            rw [Option.some_inj] at h
            have := ih sp rest2 k hin
            simp only [List.length_cons]
            omega
          | none =>
            cases hin2 : units d f (sp :: rest2) with
            | some k =>
              rw [units_eq_space_none_some last rest2 hd hsp hin hin2] at h
              rw [Option.some_inj] at h
              have := ih d (sp :: rest2) k hin2
              simp only [List.length_cons] at this ⊢
              omega
            | none =>
              rw [units_eq_space_none_none last rest2 hd hsp hin hin2] at h
              obtain ⟨h0, -, -⟩ := stop_some h
              simp [h0]
        · cases hin2 : units d f (sp :: rest2) with
          | some k =>
            rw [units_eq_nonspace_some last rest2 hd (by simpa using hsp)
              hin2] at h
            rw [Option.some_inj] at h
            have := ih d (sp :: rest2) k hin2
            simp only [List.length_cons] at this ⊢
            omega
          | none =>
            rw [units_eq_nonspace_none last rest2 hd (by simpa using hsp)
              hin2] at h
            obtain ⟨h0, -, -⟩ := stop_some h
            simp [h0]

/-- A character (or text edge) that none of the pattern's character
classes can consume. -/
def inertO : Option Char → Prop
  | none => True
  | some c => isDigitC c = false ∧ isSpaceC c = false ∧ isLetterC c = false ∧
      isWordC c = false

/-- Two boundary heads that the matchers cannot distinguish: equal, or
both inert. -/
def hEq (x y : Option Char) : Prop := x = y ∨ (inertO x ∧ inertO y)

lemma isWordO_of_inert {x : Option Char} (h : inertO x) : isWordO x = false := by
  cases x with
  | none => rfl
  | some c => exact h.2.2.2

lemma hEq_isWordO {x y : Option Char} (h : hEq x y) : isWordO x = isWordO y := by
  rcases h with rfl | ⟨h1, h2⟩
  · rfl
  · rw [isWordO_of_inert h1, isWordO_of_inert h2]

/-- A zero-length fire of `units` always means the boundary held. -/
lemma units_zero_bnd : ∀ f last s, units last f s = some 0 →
    bnd (some last) s.head? = true := by
  intro f last s h
  cases f with
  | zero =>
    rw [units_zero] at h
    split at h
    next hc => exact hc
    next => exact absurd h (by simp)
  | succ f =>
    cases s with
    | nil =>
      rw [units_succ_nil] at h
      exact (stop_some h).2.2
    | cons d rest =>
      by_cases hd : isDigitC d
      case neg =>
        rw [units_eq_nondigit last f rest (by simpa using hd)] at h
        exact (stop_some h).2.2
      case pos =>
      cases rest with
      | nil =>
        cases hin : units d f [] with
        | some k =>
          rw [units_eq_digit_nil_some last hd hin] at h
          simp at h
        | none =>
          rw [units_eq_digit_nil_none last hd hin] at h
          exact (stop_some h).2.2
      | cons sp rest2 =>
        by_cases hsp : isSpaceC sp
        · cases hin : units sp f rest2 with
          | some k =>
            rw [units_eq_space_some last rest2 hd hsp hin] at h
            simp at h
          | none =>
            cases hin2 : units d f (sp :: rest2) with
            | some k =>
              rw [units_eq_space_none_some last rest2 hd hsp hin hin2] at h
              simp at h
            | none =>
              rw [units_eq_space_none_none last rest2 hd hsp hin hin2] at h
              exact (stop_some h).2.2
        · cases hin2 : units d f (sp :: rest2) with
          | some k =>
            rw [units_eq_nonspace_some last rest2 hd (by simpa using hsp)
              hin2] at h
            simp at h
          | none =>
            rw [units_eq_nonspace_none last rest2 hd (by simpa using hsp)
              hin2] at h
            exact (stop_some h).2.2

/-- A zero-length fire of `units` at positive fuel means fuel had run
down to the stopping range. -/
lemma units_zero_fuel : ∀ f last s, units last (f + 1) s = some 0 → f ≤ 1 := by
  intro f last s h
  cases s with
  | nil =>
    rw [units_succ_nil] at h
    exact (stop_some h).2.1
  | cons d rest =>
    by_cases hd : isDigitC d
    case neg =>
      rw [units_eq_nondigit last f rest (by simpa using hd)] at h
      exact (stop_some h).2.1
    case pos =>
    cases rest with
    | nil =>
      cases hin : units d f [] with
      | some k =>
        rw [units_eq_digit_nil_some last hd hin] at h
        simp at h
      | none =>
        rw [units_eq_digit_nil_none last hd hin] at h
        exact (stop_some h).2.1
    | cons sp rest2 =>
      by_cases hsp : isSpaceC sp
      · cases hin : units sp f rest2 with
        | some k =>
          rw [units_eq_space_some last rest2 hd hsp hin] at h
          simp at h
        | none =>
          cases hin2 : units d f (sp :: rest2) with
          | some k =>
            rw [units_eq_space_none_some last rest2 hd hsp hin hin2] at h
            simp at h
          | none =>
            rw [units_eq_space_none_none last rest2 hd hsp hin hin2] at h
            exact (stop_some h).2.1
      · cases hin2 : units d f (sp :: rest2) with
        | some k =>
          rw [units_eq_nonspace_some last rest2 hd (by simpa using hsp)
            hin2] at h
          simp at h
        | none =>
          rw [units_eq_nonspace_none last rest2 hd (by simpa using hsp)
            hin2] at h
          exact (stop_some h).2.1

/-- With fuel in the stopping range and the boundary holding, `units`
always fires on something. -/
lemma units_succ_total (last : Char) (f : Nat) (w : List Char) (hf : f ≤ 1)
    (hb : bnd (some last) w.head? = true) :
    ∃ k, units last (f + 1) w = some k := by
  cases w with
  | nil => exact ⟨0, by rw [units_succ_nil]; exact stop_fire hf hb⟩
  | cons d rest =>
    rw [List.head?_cons] at hb
    by_cases hd : isDigitC d
    case neg =>
      refine ⟨0, ?_⟩
      rw [units_eq_nondigit last f rest (by simpa using hd)]
      exact stop_fire hf hb
    case pos =>
    cases rest with
    | nil =>
      cases hin : units d f [] with
      | some k => exact ⟨k + 1, units_eq_digit_nil_some last hd hin⟩
      | none =>
        refine ⟨0, ?_⟩
        rw [units_eq_digit_nil_none last hd hin]
        exact stop_fire hf hb
    | cons sp rest2 =>
      by_cases hsp : isSpaceC sp
      · cases hin : units sp f rest2 with
        | some k => exact ⟨k + 2, units_eq_space_some last rest2 hd hsp hin⟩
        | none =>
          cases hin2 : units d f (sp :: rest2) with
          | some k =>
            exact ⟨k + 1, units_eq_space_none_some last rest2 hd hsp hin hin2⟩
          | none =>
            refine ⟨0, ?_⟩
            rw [units_eq_space_none_none last rest2 hd hsp hin hin2]
            exact stop_fire hf hb
      · cases hin2 : units d f (sp :: rest2) with
        | some k =>
          exact ⟨k + 1, units_eq_nonspace_some last rest2 hd
            (by simpa using hsp) hin2⟩
        | none =>
          refine ⟨0, ?_⟩
          rw [units_eq_nonspace_none last rest2 hd (by simpa using hsp) hin2]
          exact stop_fire hf hb

/-- On a non-digit head the `units` matcher never looks past that head. -/
lemma units_nondigit_congr {c : Char} (last : Char) (f : Nat)
    (hc : isDigitC c = false) (X Y : List Char) :
    units last f (c :: X) = units last f (c :: Y) := by
  cases f with
  | zero =>
    rw [units_zero, units_zero]
    simp only [List.head?_cons]
  | succ f =>
    rw [units_eq_nondigit last f X hc, units_eq_nondigit last f Y hc]

/-- A zero-length fire transfers to any text with the same boundary
word-ness at its head. -/
lemma units_zero_trans {f : Nat} {last : Char} {v : List Char} (w : List Char)
    (h : units last f v = some 0) (hw : isWordO v.head? = isWordO w.head?) :
    ∃ k, units last f w = some k := by
  have hb := units_zero_bnd f last v h
  have hbw : bnd (some last) w.head? = true := by
    rw [bnd] at hb ⊢
    rwa [← hw]
  cases f with
  | zero =>
    refine ⟨0, ?_⟩
    rw [units_zero, if_pos hbw]
  | succ f => exact units_succ_total last f w (units_zero_fuel f last v h) hbw

/-- Every character consumed by `units` is a digit or a space. -/
lemma units_charset : ∀ fuel last s n, units last fuel s = some n →
    ∀ c ∈ s.take n, isDigitC c = true ∨ isSpaceC c = true := by
  intro fuel
  induction fuel with
  | zero =>
    intro last s n h
    rw [units_zero] at h
    split at h
    · rw [Option.some_inj] at h
      subst h
      simp
    · exact absurd h (by simp)
  | succ f ih =>
    intro last s n h
    cases s with
    | nil =>
      rw [units_succ_nil] at h
      obtain ⟨h0, -, -⟩ := stop_some h
      subst h0
      simp
    | cons d rest =>
      by_cases hd : isDigitC d
      case neg =>
        rw [units_eq_nondigit last f rest (by simpa using hd)] at h
        obtain ⟨h0, -, -⟩ := stop_some h
        subst h0
        simp
      case pos =>
      cases rest with
      | nil =>
        cases hin : units d f [] with
        | some k =>
          rw [units_eq_digit_nil_some last hd hin] at h
          rw [Option.some_inj] at h
          subst h
          intro c hc
          rw [List.take_succ_cons] at hc
          rcases List.mem_cons.mp hc with rfl | hc2
          · exact Or.inl hd
          · exact ih d [] k hin c hc2
        | none =>
          rw [units_eq_digit_nil_none last hd hin] at h
          obtain ⟨h0, -, -⟩ := stop_some h
          subst h0
          simp
      | cons sp rest2 =>
        by_cases hsp : isSpaceC sp
        · cases hin : units sp f rest2 with
          | some k =>
            rw [units_eq_space_some last rest2 hd hsp hin] at h
            rw [Option.some_inj] at h
            subst h
            intro c hc
            rw [List.take_succ_cons, List.take_succ_cons] at hc
            rcases List.mem_cons.mp hc with rfl | hc2
            · exact Or.inl hd
            · rcases List.mem_cons.mp hc2 with rfl | hc3
              · exact Or.inr hsp
              · exact ih sp rest2 k hin c hc3
          | none =>
            cases hin2 : units d f (sp :: rest2) with
            | some k =>
              rw [units_eq_space_none_some last rest2 hd hsp hin hin2] at h
              rw [Option.some_inj] at h
              subst h
              intro c hc
              rw [List.take_succ_cons] at hc
              rcases List.mem_cons.mp hc with rfl | hc2
              · exact Or.inl hd
              · exact ih d (sp :: rest2) k hin2 c hc2
            | none =>
              rw [units_eq_space_none_none last rest2 hd hsp hin hin2] at h
              obtain ⟨h0, -, -⟩ := stop_some h
              subst h0
              simp
        · cases hin2 : units d f (sp :: rest2) with
          | some k =>
            rw [units_eq_nonspace_some last rest2 hd (by simpa using hsp)
              hin2] at h
            rw [Option.some_inj] at h
            subst h
            intro c hc
            rw [List.take_succ_cons] at hc
            rcases List.mem_cons.mp hc with rfl | hc2
            · exact Or.inl hd
            · exact ih d (sp :: rest2) k hin2 c hc2
          | none =>
            rw [units_eq_nonspace_none last rest2 hd (by simpa using hsp)
              hin2] at h
            obtain ⟨h0, -, -⟩ := stop_some h
            subst h0
            simp

/-- After a fire of `units`, the word boundary holds between the last
consumed character (or the entry character) and the next character. -/
lemma units_bnd : ∀ fuel last s n, units last fuel s = some n →
    bnd (olastD (some last) (s.take n)) (s.drop n).head? = true := by
  intro fuel
  induction fuel with
  | zero =>
    intro last s n h
    rw [units_zero] at h
    split at h
    next hc =>
      rw [Option.some_inj] at h
      subst h
      simpa [olastD] using hc
    next => exact absurd h (by simp)
  | succ f ih =>
    intro last s n h
    cases s with
    | nil =>
      rw [units_succ_nil] at h
      obtain ⟨h0, -, hb⟩ := stop_some h
      subst h0
      simpa [olastD] using hb
    | cons d rest =>
      by_cases hd : isDigitC d
      case neg =>
        rw [units_eq_nondigit last f rest (by simpa using hd)] at h
        obtain ⟨h0, -, hb⟩ := stop_some h
        subst h0
        simpa [olastD] using hb
      case pos =>
      cases rest with
      | nil =>
        cases hin : units d f [] with
        | some k =>
          rw [units_eq_digit_nil_some last hd hin] at h
          rw [Option.some_inj] at h
          subst h
          rw [List.take_succ_cons, List.drop_succ_cons, olastD_cons]
          exact ih d [] k hin
        | none =>
          rw [units_eq_digit_nil_none last hd hin] at h
          obtain ⟨h0, -, hb⟩ := stop_some h
          subst h0
          simpa [olastD] using hb
      | cons sp rest2 =>
        by_cases hsp : isSpaceC sp
        · cases hin : units sp f rest2 with
          | some k =>
            rw [units_eq_space_some last rest2 hd hsp hin] at h
            rw [Option.some_inj] at h
            subst h
            rw [List.take_succ_cons, List.take_succ_cons,
              List.drop_succ_cons, List.drop_succ_cons, olastD_cons,
              olastD_cons]
            exact ih sp rest2 k hin
          | none =>
            cases hin2 : units d f (sp :: rest2) with
            | some k =>
              rw [units_eq_space_none_some last rest2 hd hsp hin hin2] at h
              rw [Option.some_inj] at h
              subst h
              rw [List.take_succ_cons, List.drop_succ_cons, olastD_cons]
              exact ih d (sp :: rest2) k hin2
            | none =>
              rw [units_eq_space_none_none last rest2 hd hsp hin hin2] at h
              obtain ⟨h0, -, hb⟩ := stop_some h
              subst h0
              simpa [olastD] using hb
        · cases hin2 : units d f (sp :: rest2) with
          | some k =>
            rw [units_eq_nonspace_some last rest2 hd (by simpa using hsp)
              hin2] at h
            rw [Option.some_inj] at h
            subst h
            rw [List.take_succ_cons, List.drop_succ_cons, olastD_cons]
            exact ih d (sp :: rest2) k hin2
          | none =>
            rw [units_eq_nonspace_none last rest2 hd (by simpa using hsp)
              hin2] at h
            obtain ⟨h0, -, hb⟩ := stop_some h
            subst h0
            simpa [olastD] using hb

lemma space_not_digit {c : Char} (h : isSpaceC c = true) :
    isDigitC c = false := by
  simp only [isSpaceC, decide_eq_true_eq] at h
  rcases h with rfl | rfl | rfl | rfl | rfl | rfl <;> decide

lemma space_not_word {c : Char} (h : isSpaceC c = true) :
    isWordC c = false := by
  simp only [isSpaceC, decide_eq_true_eq] at h
  rcases h with rfl | rfl | rfl | rfl | rfl | rfl <;> decide

lemma digit_word {c : Char} (h : isDigitC c = true) : isWordC c = true := by
  simp only [isWordC, Char.isAlphanum, Bool.or_eq_true, decide_eq_true_eq]
  left
  right
  simpa [isDigitC] using h

lemma letter_word {c : Char} (h : isLetterC c = true) : isWordC c = true := by
  simp only [isWordC, Char.isAlphanum, Bool.or_eq_true]
  left
  left
  simpa [isLetterC] using h

/-- A fire of `units` on `u ++ v` lying within `u` (compared at its end
with an indistinguishable boundary) re-fires on `u ++ w`. -/
lemma units_trans : ∀ fuel last (u v w : List Char) n,
    units last fuel (u ++ v) = some n → n ≤ u.length →
    (n = u.length → hEq v.head? w.head?) →
    ∃ n2, units last fuel (u ++ w) = some n2 := by
  intro fuel
  induction fuel with
  | zero =>
    intro last u v w n h hn hb
    rw [units_zero] at h
    split at h
    next hc =>
      rw [Option.some_inj] at h
      subst h
      cases u with
      | nil =>
        refine ⟨0, ?_⟩
        rw [List.nil_append] at hc ⊢
        rw [units_zero, if_pos]
        rw [bnd] at hc ⊢
        rwa [← hEq_isWordO (hb rfl)]
      | cons d u2 =>
        refine ⟨0, ?_⟩
        rw [units_zero, if_pos]
        simpa using hc
    next => exact absurd h (by simp)
  | succ f ih =>
    intro last u v w n h hn hb
    cases u with
    | nil =>
      simp only [List.length_nil, Nat.le_zero] at hn
      subst hn
      rw [List.nil_append] at h
      rw [List.nil_append]
      exact units_zero_trans w h (hEq_isWordO (hb rfl))
    | cons d u2 =>
      rw [List.cons_append] at h
      rw [List.cons_append]
      by_cases hd : isDigitC d
      case neg =>
        rw [units_eq_nondigit last f (u2 ++ v) (by simpa using hd)] at h
        obtain ⟨-, hf, hbd⟩ := stop_some h
        refine ⟨0, ?_⟩
        rw [units_eq_nondigit last f (u2 ++ w) (by simpa using hd)]
        exact stop_fire hf hbd
      case pos =>
      cases u2 with
      | nil =>
        rw [List.nil_append] at h
        rw [List.nil_append]
        simp only [List.length_cons, List.length_nil] at hn hb
        cases v with
        | nil =>
          cases hin : units d f [] with
          | some k =>
            rw [units_eq_digit_nil_some last hd hin] at h
            rw [Option.some_inj] at h
            have hk0 : k = 0 := by
              have := units_le f d [] k hin
              simpa using this
            subst hk0
            have hb1 : hEq none w.head? := hb (by omega)
            cases w with
            | nil => exact ⟨1, units_eq_digit_nil_some last hd hin⟩
            | cons e w2 =>
              have hie : inertO (some e) := by
                rcases hb1 with heq | ⟨-, h2⟩
                · exact absurd heq (by simp)
                · exact h2
              obtain ⟨j, hj⟩ := units_zero_trans (e :: w2) hin
                (by simp [isWordO, hie.2.2.2])
              exact ⟨j + 1, units_eq_nonspace_some last w2 hd hie.2.1 hj⟩
          | none =>
            rw [units_eq_digit_nil_none last hd hin] at h
            obtain ⟨-, hf, hbd⟩ := stop_some h
            cases w with
            | nil =>
              refine ⟨0, ?_⟩
              rw [units_eq_digit_nil_none last hd hin]
              exact stop_fire hf hbd
            | cons e w2 => exact units_succ_total last f (d :: e :: w2) hf hbd
        | cons sp v2 =>
          by_cases hsp : isSpaceC sp
          · cases hin : units sp f v2 with
            | some k =>
              rw [units_eq_space_some last v2 hd hsp hin] at h
              rw [Option.some_inj] at h
              omega
            | none =>
              cases hin2 : units d f (sp :: v2) with
              | some k =>
                rw [units_eq_space_none_some last v2 hd hsp hin hin2] at h
                rw [Option.some_inj] at h
                have hk0 : k = 0 := by omega
                subst hk0
                have hb1 : hEq (some sp) w.head? := hb (by omega)
                have hwsp : w.head? = some sp := by
                  rcases hb1 with heq | ⟨h1, -⟩
                  · exact heq.symm
                  · rw [h1.2.1] at hsp
                    exact absurd hsp (by simp)
                cases w with
                | nil => exact absurd hwsp (by simp)
                | cons e w2 =>
                  rw [List.head?_cons, Option.some_inj] at hwsp
                  have hspe : isSpaceC e = true := by rw [hwsp]; exact hsp
                  have hcongr : units d f (e :: w2) = some 0 := by
                    rw [hwsp]
                    rw [units_nondigit_congr d f (space_not_digit hsp) w2 v2]
                    exact hin2
                  cases hinw : units e f w2 with
                  | some j =>
                    exact ⟨j + 2, units_eq_space_some last w2 hd hspe hinw⟩
                  | none =>
                    exact ⟨1, units_eq_space_none_some last w2 hd hspe hinw
                      hcongr⟩
              | none =>
                rw [units_eq_space_none_none last v2 hd hsp hin hin2] at h
                obtain ⟨-, hf, hbd⟩ := stop_some h
                cases w with
                | nil =>
                  cases hinw : units d f [] with
                  | some j => exact ⟨j + 1, units_eq_digit_nil_some last hd hinw⟩
                  | none =>
                    refine ⟨0, ?_⟩
                    rw [units_eq_digit_nil_none last hd hinw]
                    exact stop_fire hf hbd
                | cons e w2 => exact units_succ_total last f (d :: e :: w2) hf hbd
          · cases hin2 : units d f (sp :: v2) with
            | some k =>
              rw [units_eq_nonspace_some last v2 hd (by simpa using hsp)
                hin2] at h
              rw [Option.some_inj] at h
              have hk0 : k = 0 := by omega
              subst hk0
              have hb1 : hEq (some sp) w.head? := hb (by omega)
              have hbd2 := units_zero_bnd f d (sp :: v2) hin2
              have hspw : isWordC sp = false := by
                rw [bnd] at hbd2
                simp only [List.head?_cons, isWordO, digit_word hd] at hbd2
                cases hcw : isWordC sp
                · rfl
                · rw [hcw] at hbd2
                  simp at hbd2
              rcases hb1 with heq | ⟨-, hiw⟩
              · cases w with
                | nil => exact absurd heq (by simp)
                | cons e w2 =>
                  rw [List.head?_cons, Option.some_inj] at heq
                  subst heq
                  have hcongr : units d f (sp :: w2) = some 0 := by
                    rw [units_nondigit_congr d f
                      (by cases hcd : isDigitC sp
                          · rfl
                          · rw [digit_word hcd] at hspw
                            exact absurd hspw (by simp)) w2 v2]
                    exact hin2
                  exact ⟨1, units_eq_nonspace_some last w2 hd
                    (by simpa using hsp) hcongr⟩
              · cases w with
                | nil =>
                  obtain ⟨j, hj⟩ := units_zero_trans [] hin2
                    (by simp [isWordO, hspw])
                  exact ⟨j + 1, units_eq_digit_nil_some last hd hj⟩
                | cons e w2 =>
                  have hie : inertO (some e) := hiw
                  obtain ⟨j, hj⟩ := units_zero_trans (e :: w2) hin2
                    (by simp [isWordO, hspw, hie.2.2.2])
                  exact ⟨j + 1, units_eq_nonspace_some last w2 hd hie.2.1 hj⟩
            | none =>
              rw [units_eq_nonspace_none last v2 hd (by simpa using hsp)
                hin2] at h
              obtain ⟨-, hf, hbd⟩ := stop_some h
              cases w with
              | nil =>
                cases hinw : units d f [] with
                | some j => exact ⟨j + 1, units_eq_digit_nil_some last hd hinw⟩
                | none =>
                  refine ⟨0, ?_⟩
                  rw [units_eq_digit_nil_none last hd hinw]
                  exact stop_fire hf hbd
              | cons e w2 => exact units_succ_total last f (d :: e :: w2) hf hbd
      | cons e u3 =>
        rw [List.cons_append] at h
        rw [List.cons_append]
        by_cases hsp : isSpaceC e
        · cases hin : units e f (u3 ++ v) with
          | some k =>
            rw [units_eq_space_some last (u3 ++ v) hd hsp hin] at h
            rw [Option.some_inj] at h
            have hk : k ≤ u3.length := by
              simp only [List.length_cons] at hn
              omega
            obtain ⟨k2, hk2⟩ := ih e u3 v w k hin hk
              (fun hke => hb (by simp only [List.length_cons]; omega))
            exact ⟨k2 + 2, units_eq_space_some last (u3 ++ w) hd hsp hk2⟩
          | none =>
            cases hin2 : units d f (e :: (u3 ++ v)) with
            | some k =>
              rw [units_eq_space_none_some last (u3 ++ v) hd hsp hin hin2] at h
              rw [Option.some_inj] at h
              have hk : k ≤ (e :: u3).length := by
                simp only [List.length_cons] at hn ⊢
                omega
              have hin2' : units d f ((e :: u3) ++ v) = some k := by
                rwa [List.cons_append]
              obtain ⟨k2, hk2⟩ := ih d (e :: u3) v w k hin2' hk
                (fun hke => hb (by
                  simp only [List.length_cons] at hke ⊢
                  omega))
              rw [List.cons_append] at hk2
              cases hinw : units e f (u3 ++ w) with
              | some j =>
                exact ⟨j + 2, units_eq_space_some last (u3 ++ w) hd hsp hinw⟩
              | none =>
                exact ⟨k2 + 1, units_eq_space_none_some last (u3 ++ w) hd hsp
                  hinw hk2⟩
            | none =>
              rw [units_eq_space_none_none last (u3 ++ v) hd hsp hin hin2] at h
              obtain ⟨-, hf, hbd⟩ := stop_some h
              exact units_succ_total last f (d :: e :: (u3 ++ w)) hf hbd
        · cases hin2 : units d f (e :: (u3 ++ v)) with
          | some k =>
            rw [units_eq_nonspace_some last (u3 ++ v) hd (by simpa using hsp)
              hin2] at h
            rw [Option.some_inj] at h
            have hk : k ≤ (e :: u3).length := by
              simp only [List.length_cons] at hn ⊢
              omega
            have hin2' : units d f ((e :: u3) ++ v) = some k := by
              rwa [List.cons_append]
            obtain ⟨k2, hk2⟩ := ih d (e :: u3) v w k hin2' hk
              (fun hke => hb (by
                simp only [List.length_cons] at hke ⊢
                omega))
            rw [List.cons_append] at hk2
            exact ⟨k2 + 1, units_eq_nonspace_some last (u3 ++ w) hd
              (by simpa using hsp) hk2⟩
          | none =>
            rw [units_eq_nonspace_none last (u3 ++ v) hd (by simpa using hsp)
              hin2] at h
            obtain ⟨-, hf, hbd⟩ := stop_some h
            exact units_succ_total last f (d :: e :: (u3 ++ w)) hf hbd

lemma ap_eq_nil (l : Char) : afterPrefix l [] = units l 10 [] := by
  rw [afterPrefix.eq_def]

lemma ap_eq_nonspace {sp : Char} (l : Char) (r2 : List Char)
    (hsp : isSpaceC sp = false) :
    afterPrefix l (sp :: r2) = units l 10 (sp :: r2) := by
  rw [afterPrefix.eq_def]
  simp [hsp]

lemma ap_eq_space_some {sp : Char} {k : Nat} (l : Char) (r2 : List Char)
    (hsp : isSpaceC sp = true) (hin : units sp 10 r2 = some k) :
    afterPrefix l (sp :: r2) = some (k + 1) := by
  rw [afterPrefix.eq_def]
  simp [hsp, hin]

lemma ap_eq_space_none {sp : Char} (l : Char) (r2 : List Char)
    (hsp : isSpaceC sp = true) (hin : units sp 10 r2 = none) :
    afterPrefix l (sp :: r2) = units l 10 (sp :: r2) := by
  rw [afterPrefix.eq_def]
  simp [hsp, hin]

lemma ap_le {l : Char} {rest : List Char} {n : Nat}
    (h : afterPrefix l rest = some n) : n ≤ rest.length := by
  cases rest with
  | nil =>
    rw [ap_eq_nil] at h
    exact units_le 10 l [] n h
  | cons sp r2 =>
    by_cases hsp : isSpaceC sp
    · cases hin : units sp 10 r2 with
      | some k =>
        rw [ap_eq_space_some l r2 hsp hin] at h
        rw [Option.some_inj] at h
        have := units_le 10 sp r2 k hin
        simp only [List.length_cons]
        omega
      | none =>
        rw [ap_eq_space_none l r2 hsp hin] at h
        exact units_le 10 l (sp :: r2) n h
    · rw [ap_eq_nonspace l r2 (by simpa using hsp)] at h
      exact units_le 10 l (sp :: r2) n h

lemma ap_charset {l : Char} {rest : List Char} {n : Nat}
    (h : afterPrefix l rest = some n) :
    ∀ c ∈ rest.take n, isDigitC c = true ∨ isSpaceC c = true := by
  cases rest with
  | nil =>
    rw [ap_eq_nil] at h
    exact units_charset 10 l [] n h
  | cons sp r2 =>
    by_cases hsp : isSpaceC sp
    · cases hin : units sp 10 r2 with
      | some k =>
        rw [ap_eq_space_some l r2 hsp hin] at h
        rw [Option.some_inj] at h
        subst h
        intro c hc
        rw [List.take_succ_cons] at hc
        rcases List.mem_cons.mp hc with rfl | hc2
        · exact Or.inr hsp
        · exact units_charset 10 sp r2 k hin c hc2
      | none =>
        rw [ap_eq_space_none l r2 hsp hin] at h
        exact units_charset 10 l (sp :: r2) n h
    · rw [ap_eq_nonspace l r2 (by simpa using hsp)] at h
      exact units_charset 10 l (sp :: r2) n h

lemma ap_bnd {l : Char} {rest : List Char} {n : Nat}
    (h : afterPrefix l rest = some n) :
    bnd (olastD (some l) (rest.take n)) ((rest.drop n).head?) = true := by
  cases rest with
  | nil =>
    rw [ap_eq_nil] at h
    exact units_bnd 10 l [] n h
  | cons sp r2 =>
    by_cases hsp : isSpaceC sp
    · cases hin : units sp 10 r2 with
      | some k =>
        rw [ap_eq_space_some l r2 hsp hin] at h
        rw [Option.some_inj] at h
        subst h
        rw [List.take_succ_cons, List.drop_succ_cons, olastD_cons]
        exact units_bnd 10 sp r2 k hin
      | none =>
        rw [ap_eq_space_none l r2 hsp hin] at h
        exact units_bnd 10 l (sp :: r2) n h
    · rw [ap_eq_nonspace l r2 (by simpa using hsp)] at h
      exact units_bnd 10 l (sp :: r2) n h

lemma ap_zero_units {l : Char} {rest : List Char}
    (h : afterPrefix l rest = some 0) : units l 10 rest = some 0 := by
  cases rest with
  | nil => rwa [ap_eq_nil] at h
  | cons sp r2 =>
    by_cases hsp : isSpaceC sp
    · cases hin : units sp 10 r2 with
      | some k =>
        rw [ap_eq_space_some l r2 hsp hin] at h
        simp at h
      | none => rwa [ap_eq_space_none l r2 hsp hin] at h
    · rwa [ap_eq_nonspace l r2 (by simpa using hsp)] at h

lemma ap_of_units {l : Char} {w : List Char} {j : Nat}
    (hj : units l 10 w = some j) : ∃ n2, afterPrefix l w = some n2 := by
  cases w with
  | nil => exact ⟨j, by rw [ap_eq_nil]; exact hj⟩
  | cons sp w2 =>
    by_cases hsp : isSpaceC sp
    · cases hinw : units sp 10 w2 with
      | some k => exact ⟨k + 1, ap_eq_space_some l w2 hsp hinw⟩
      | none => exact ⟨j, by rw [ap_eq_space_none l w2 hsp hinw]; exact hj⟩
    · exact ⟨j, by rw [ap_eq_nonspace l w2 (by simpa using hsp)]; exact hj⟩

lemma ap_trans {l : Char} {u v w : List Char} {n : Nat}
    (h : afterPrefix l (u ++ v) = some n) (hn : n ≤ u.length)
    (hb : n = u.length → hEq v.head? w.head?) :
    ∃ n2, afterPrefix l (u ++ w) = some n2 := by
  cases u with
  | nil =>
    simp only [List.length_nil, Nat.le_zero] at hn
    subst hn
    rw [List.nil_append] at h
    rw [List.nil_append]
    obtain ⟨j, hj⟩ := units_zero_trans w (ap_zero_units h)
      (hEq_isWordO (hb rfl))
    exact ap_of_units hj
  | cons c u2 =>
    rw [List.cons_append] at h
    rw [List.cons_append]
    by_cases hsp : isSpaceC c
    · cases hin : units c 10 (u2 ++ v) with
      | some k =>
        rw [ap_eq_space_some l (u2 ++ v) hsp hin] at h
        rw [Option.some_inj] at h
        have hk : k ≤ u2.length := by
          simp only [List.length_cons] at hn
          omega
        obtain ⟨k2, hk2⟩ := units_trans 10 c u2 v w k hin hk
          (fun hke => hb (by simp only [List.length_cons]; omega))
        exact ⟨k2 + 1, ap_eq_space_some l (u2 ++ w) hsp hk2⟩
      | none =>
        rw [ap_eq_space_none l (u2 ++ v) hsp hin] at h
        have h2 : units l 10 ((c :: u2) ++ v) = some n := by
          rwa [List.cons_append]
        obtain ⟨n2, hn2⟩ := units_trans 10 l (c :: u2) v w n h2
          (by simpa using hn) hb
        rw [List.cons_append] at hn2
        cases hinw : units c 10 (u2 ++ w) with
        | some j => exact ⟨j + 1, ap_eq_space_some l (u2 ++ w) hsp hinw⟩
        | none =>
          exact ⟨n2, by rw [ap_eq_space_none l (u2 ++ w) hsp hinw]; exact hn2⟩
    · rw [ap_eq_nonspace l (u2 ++ v) (by simpa using hsp)] at h
      have h2 : units l 10 ((c :: u2) ++ v) = some n := by
        rwa [List.cons_append]
      obtain ⟨n2, hn2⟩ := units_trans 10 l (c :: u2) v w n h2
        (by simpa using hn) hb
      rw [List.cons_append] at hn2
      refine ⟨n2, ?_⟩
      rw [ap_eq_nonspace l (u2 ++ w) (by simpa using hsp)]
      exact hn2

lemma drop_len_add (l1 l2 : List Char) (i : Nat) :
    (l1 ++ l2).drop (l1.length + i) = l2.drop i := by
  induction l1 with
  | nil => simp
  | cons c t ih =>
    simp only [List.cons_append, List.length_cons]
    rw [Nat.add_right_comm, List.drop_succ_cons, ih]

lemma olastD_some {a : Char} (B : List Char) :
    ∃ c, olastD (some a) B = some c := by
  unfold olastD
  cases B.getLast? with
  | none => exact ⟨a, rfl⟩
  | some x => exact ⟨x, rfl⟩

lemma getLast?_append_olastD {A B : List Char} {a : Char}
    (hA : A.getLast? = some a) :
    (A ++ B).getLast? = olastD (some a) B := by
  rw [List.getLast?_append, hA]
  unfold olastD
  cases B.getLast? <;> simp

lemma bnd_shift {pfx rest : List Char} {lpfx : Char} {m : Nat}
    (hpl : pfx.getLast? = some lpfx)
    (hb : bnd (olastD (some lpfx) (rest.take m)) ((rest.drop m).head?) = true) :
    ∃ lc, (((pfx ++ rest).take (pfx.length + m)).getLast? = some lc) ∧
      bnd (some lc) (((pfx ++ rest).drop (pfx.length + m)).head?) = true := by
  rw [take_len_add, drop_len_add, getLast?_append_olastD hpl]
  obtain ⟨lc, hlc⟩ := olastD_some (rest.take m)
  refine ⟨lc, hlc, ?_⟩
  rwa [hlc] at hb

/-- The first phone alternative `\+44…`. -/
def pAlt1 (prev : Option Char) (s : List Char) : Option Nat :=
  match s with
  | '+' :: '4' :: '4' :: rest =>
    if bnd prev (some '+') then (afterPrefix '4' rest).map (· + 3) else none
  | _ => none

/-- The second phone alternative `0044…`. -/
def pAlt2 (prev : Option Char) (s : List Char) : Option Nat :=
  match s with
  | '0' :: '0' :: '4' :: '4' :: rest =>
    if bnd prev (some '0') then (afterPrefix '4' rest).map (· + 4) else none
  | _ => none

/-- The third phone alternative `0…`. -/
def pAlt3 (prev : Option Char) (s : List Char) : Option Nat :=
  match s with
  | '0' :: rest =>
    if bnd prev (some '0') then (afterPrefix '0' rest).map (· + 1) else none
  | _ => none

lemma matchP_eq_alts (p : Option Char) (s : List Char) :
    matchP p s = (pAlt1 p s <|> pAlt2 p s <|> pAlt3 p s) := rfl

lemma pAlt1_some {p : Option Char} {s : List Char} {n : Nat}
    (h : pAlt1 p s = some n) :
    ∃ rest m, s = '+' :: '4' :: '4' :: rest ∧ bnd p (some '+') = true ∧
      afterPrefix '4' rest = some m ∧ n = m + 3 := by
  rw [pAlt1.eq_def] at h
  split at h
  next rest =>
    split at h
    next hbnd =>
      cases hm : afterPrefix '4' rest with
      | none => rw [hm] at h; simp at h
      | some m =>
        rw [hm] at h
        simp only [Option.map_some', Option.some_inj] at h
        exact ⟨rest, m, rfl, hbnd, hm, h.symm⟩
    next => simp at h
  next => simp at h

lemma pAlt2_some {p : Option Char} {s : List Char} {n : Nat}
    (h : pAlt2 p s = some n) :
    ∃ rest m, s = '0' :: '0' :: '4' :: '4' :: rest ∧ bnd p (some '0') = true ∧
      afterPrefix '4' rest = some m ∧ n = m + 4 := by
  rw [pAlt2.eq_def] at h
  split at h
  next rest =>
    split at h
    next hbnd =>
      cases hm : afterPrefix '4' rest with
      | none => rw [hm] at h; simp at h
      | some m =>
        rw [hm] at h
        simp only [Option.map_some', Option.some_inj] at h
        exact ⟨rest, m, rfl, hbnd, hm, h.symm⟩
    next => simp at h
  next => simp at h

lemma pAlt3_some {p : Option Char} {s : List Char} {n : Nat}
    (h : pAlt3 p s = some n) :
    ∃ rest m, s = '0' :: rest ∧ bnd p (some '0') = true ∧
      afterPrefix '0' rest = some m ∧ n = m + 1 := by
  rw [pAlt3.eq_def] at h
  split at h
  next rest =>
    split at h
    next hbnd =>
      cases hm : afterPrefix '0' rest with
      | none => rw [hm] at h; simp at h
      | some m =>
        rw [hm] at h
        simp only [Option.map_some', Option.some_inj] at h
        exact ⟨rest, m, rfl, hbnd, hm, h.symm⟩
    next => simp at h
  next => simp at h

/-- Inversion for the phone matcher: a fire is one of the three prefix
alternatives followed by the digit units. -/
lemma matchP_inv {p : Option Char} {s : List Char} {n : Nat}
    (h : matchP p s = some n) :
    (∃ rest m, s = '+' :: '4' :: '4' :: rest ∧ bnd p (some '+') = true ∧
      afterPrefix '4' rest = some m ∧ n = m + 3) ∨
    (∃ rest m, s = '0' :: '0' :: '4' :: '4' :: rest ∧ bnd p (some '0') = true ∧
      afterPrefix '4' rest = some m ∧ n = m + 4) ∨
    (∃ rest m, s = '0' :: rest ∧ bnd p (some '0') = true ∧
      afterPrefix '0' rest = some m ∧ n = m + 1) := by
  rw [matchP_eq_alts] at h
  cases h1 : pAlt1 p s with
  | some k =>
    rw [h1, Option.some_orElse, Option.some_inj] at h
    subst h
    exact Or.inl (pAlt1_some h1)
  | none =>
    rw [h1, Option.none_orElse] at h
    cases h2 : pAlt2 p s with
    | some k =>
      rw [h2, Option.some_orElse, Option.some_inj] at h
      subst h
      exact Or.inr (Or.inl (pAlt2_some h2))
    | none =>
      rw [h2, Option.none_orElse] at h
      exact Or.inr (Or.inr (pAlt3_some h))

lemma pAlt1_fire {p : Option Char} {rest : List Char} {m : Nat}
    (hb : bnd p (some '+') = true) (hm : afterPrefix '4' rest = some m) :
    matchP p ('+' :: '4' :: '4' :: rest) = some (m + 3) := by
  rw [matchP_eq_alts]
  have h1 : pAlt1 p ('+' :: '4' :: '4' :: rest) = some (m + 3) := by
    rw [pAlt1.eq_def]
    simp [hb, hm]
  rw [h1, Option.some_orElse]

lemma pAlt2_fire {p : Option Char} {rest : List Char} {m : Nat}
    (hb : bnd p (some '0') = true) (hm : afterPrefix '4' rest = some m) :
    matchP p ('0' :: '0' :: '4' :: '4' :: rest) = some (m + 4) := by
  rw [matchP_eq_alts]
  have h1 : pAlt1 p ('0' :: '0' :: '4' :: '4' :: rest) = none := rfl
  have h2 : pAlt2 p ('0' :: '0' :: '4' :: '4' :: rest) = some (m + 4) := by
    rw [pAlt2.eq_def]
    simp [hb, hm]
  rw [h1, Option.none_orElse, h2, Option.some_orElse]

lemma pAlt3_fire {p : Option Char} {rest : List Char} {m : Nat}
    (hb : bnd p (some '0') = true) (hm : afterPrefix '0' rest = some m) :
    matchP p ('0' :: rest) ≠ none := by
  rw [matchP_eq_alts]
  cases h1 : pAlt1 p ('0' :: rest) with
  | some k => simp [Option.some_orElse]
  | none =>
    rw [Option.none_orElse]
    cases h2 : pAlt2 p ('0' :: rest) with
    | some k => simp [Option.some_orElse]
    | none =>
      rw [Option.none_orElse]
      have h3 : pAlt3 p ('0' :: rest) = some (m + 1) := by
        rw [pAlt3.eq_def]
        simp [hb, hm]
      rw [h3]
      simp

lemma destruct1 {u v rest : List Char} {a : Char} (h : u ++ v = a :: rest)
    (hl : 1 ≤ u.length) : ∃ u1, u = a :: u1 ∧ rest = u1 ++ v := by
  cases u with
  | nil => simp at hl
  | cons x u1 =>
    rw [List.cons_append, List.cons.injEq] at h
    exact ⟨u1, by rw [h.1], h.2.symm⟩

/-- The phone matcher consumes at least one character. -/
lemma matchP_nz (p : Option Char) (s : List Char) : matchP p s ≠ some 0 := by
  intro h
  rcases matchP_inv h with ⟨r, m, -, -, -, hn⟩ | ⟨r, m, -, -, -, hn⟩ |
    ⟨r, m, -, -, -, hn⟩ <;> omega

/-- The phone matcher never consumes past the end of the text. -/
lemma matchP_le {p : Option Char} {s : List Char} {n : Nat}
    (h : matchP p s = some n) : n ≤ s.length := by
  rcases matchP_inv h with ⟨r, m, hs, -, hm, hn⟩ | ⟨r, m, hs, -, hm, hn⟩ |
    ⟨r, m, hs, -, hm, hn⟩ <;>
    rw [hs] <;> simp only [List.length_cons] <;> have := ap_le hm <;> omega

lemma matchP_nil (p : Option Char) : matchP p [] = none := rfl

/-- A phone fire needs the leading word boundary against its head. -/
lemma matchP_lead {p : Option Char} {s : List Char} {n : Nat}
    (h : matchP p s = some n) :
    ∃ hd, s.head? = some hd ∧ bnd p (some hd) = true := by
  rcases matchP_inv h with ⟨r, m, hs, hb, -, -⟩ | ⟨r, m, hs, hb, -, -⟩ |
    ⟨r, m, hs, hb, -, -⟩
  · exact ⟨'+', by rw [hs]; rfl, hb⟩
  · exact ⟨'0', by rw [hs]; rfl, hb⟩
  · exact ⟨'0', by rw [hs]; rfl, hb⟩

/-- After a phone fire, the word boundary holds between the last consumed
character and the next one. -/
lemma matchP_bnd {p : Option Char} {s : List Char} {n : Nat}
    (h : matchP p s = some n) :
    ∃ lc, (s.take n).getLast? = some lc ∧
      bnd (some lc) ((s.drop n).head?) = true := by
  rcases matchP_inv h with ⟨r, m, hs, -, hm, hn⟩ | ⟨r, m, hs, -, hm, hn⟩ |
    ⟨r, m, hs, -, hm, hn⟩
  · subst hs
    have h3 : n = (['+', '4', '4'] : List Char).length + m := by
      simp only [List.length_cons, List.length_nil]
      omega
    rw [h3]
    exact bnd_shift (by rfl) (ap_bnd hm)
  · subst hs
    have h4 : n = (['0', '0', '4', '4'] : List Char).length + m := by
      simp only [List.length_cons, List.length_nil]
      omega
    rw [h4]
    exact bnd_shift (by rfl) (ap_bnd hm)
  · subst hs
    have h1 : n = (['0'] : List Char).length + m := by
      simp only [List.length_cons, List.length_nil]
      omega
    rw [h1]
    exact bnd_shift (by rfl) (ap_bnd hm)

/-- Every character of a phone fire is a digit, a space, or `+`. -/
lemma matchP_charset {p : Option Char} {s : List Char} {n : Nat}
    (h : matchP p s = some n) :
    ∀ c ∈ s.take n, isDigitC c = true ∨ isSpaceC c = true ∨ c = '+' := by
  rcases matchP_inv h with ⟨r, m, hs, -, hm, hn⟩ | ⟨r, m, hs, -, hm, hn⟩ |
    ⟨r, m, hs, -, hm, hn⟩ <;> subst hs
  · have h3 : n = (['+', '4', '4'] : List Char).length + m := by
      simp only [List.length_cons, List.length_nil]
      omega
    rw [show ('+' :: '4' :: '4' :: r : List Char) = ['+', '4', '4'] ++ r
      from rfl, h3, take_len_add]
    intro c hc
    simp only [List.cons_append, List.nil_append, List.mem_cons] at hc
    rcases hc with rfl | rfl | rfl | hc
    · exact Or.inr (Or.inr rfl)
    · exact Or.inl (by decide)
    · exact Or.inl (by decide)
    · rcases ap_charset hm c hc with hd | hsp
      · exact Or.inl hd
      · exact Or.inr (Or.inl hsp)
  · have h4 : n = (['0', '0', '4', '4'] : List Char).length + m := by
      simp only [List.length_cons, List.length_nil]
      omega
    rw [show ('0' :: '0' :: '4' :: '4' :: r : List Char) =
      ['0', '0', '4', '4'] ++ r from rfl, h4, take_len_add]
    intro c hc
    simp only [List.cons_append, List.nil_append, List.mem_cons] at hc
    rcases hc with rfl | rfl | rfl | rfl | hc
    · exact Or.inl (by decide)
    · exact Or.inl (by decide)
    · exact Or.inl (by decide)
    · exact Or.inl (by decide)
    · rcases ap_charset hm c hc with hd | hsp
      · exact Or.inl hd
      · exact Or.inr (Or.inl hsp)
  · have h1 : n = (['0'] : List Char).length + m := by
      simp only [List.length_cons, List.length_nil]
      omega
    rw [show ('0' :: r : List Char) = ['0'] ++ r from rfl, h1, take_len_add]
    intro c hc
    simp only [List.cons_append, List.nil_append, List.mem_cons] at hc
    rcases hc with rfl | hc
    · exact Or.inl (by decide)
    · rcases ap_charset hm c hc with hd | hsp
      · exact Or.inl hd
      · exact Or.inr (Or.inl hsp)

/-- The phone matcher sees the previous character only through its
word-ness. -/
lemma matchP_prev {p1 p2 : Option Char} (s : List Char)
    (hw : isWordO p1 = isWordO p2) : matchP p1 s = matchP p2 s := by
  have hbnd : bnd p1 = bnd p2 := by
    funext x
    rw [bnd, bnd, hw]
  rw [matchP_eq_alts, matchP_eq_alts, pAlt1.eq_def, pAlt1.eq_def,
    pAlt2.eq_def, pAlt2.eq_def, pAlt3.eq_def, pAlt3.eq_def, hbnd]

/-- A phone fire within `u` (with an indistinguishable boundary at its
end) re-fires on `u ++ w`. -/
lemma matchP_trans {p : Option Char} {u v w : List Char} {n : Nat}
    (h : matchP p (u ++ v) = some n) (hn : n ≤ u.length)
    (hb : n = u.length → hEq v.head? w.head?) :
    matchP p (u ++ w) ≠ none := by
  rcases matchP_inv h with ⟨r, m, hs, hbd, hm, hn'⟩ | ⟨r, m, hs, hbd, hm, hn'⟩ |
    ⟨r, m, hs, hbd, hm, hn'⟩
  · obtain ⟨u1, hu1, hr1⟩ := destruct1 hs (by omega)
    have hl1 : 1 ≤ u1.length := by
      have := congrArg List.length hu1
      simp only [List.length_cons] at this
      omega
    obtain ⟨u2, hu2, hr2⟩ := destruct1 hr1.symm hl1
    have hl2 : 1 ≤ u2.length := by
      have t1 := congrArg List.length hu1
      have t2 := congrArg List.length hu2
      simp only [List.length_cons] at t1 t2
      omega
    obtain ⟨u3, hu3, hr3⟩ := destruct1 hr2.symm hl2
    subst hu3
    subst hu2
    subst hu1
    rw [hr3] at hm
    simp only [List.length_cons] at hn
    have hm2 : m ≤ u3.length := by omega
    obtain ⟨m2, hm3⟩ := ap_trans hm hm2
      (fun hme => hb (by simp only [List.length_cons]; omega))
    rw [show ('+' :: '4' :: '4' :: u3 : List Char) ++ w =
      '+' :: '4' :: '4' :: (u3 ++ w) from by simp]
    rw [pAlt1_fire hbd hm3]
    simp
  · obtain ⟨u1, hu1, hr1⟩ := destruct1 hs (by omega)
    have hl1 : 1 ≤ u1.length := by
      have := congrArg List.length hu1
      simp only [List.length_cons] at this
      omega
    obtain ⟨u2, hu2, hr2⟩ := destruct1 hr1.symm hl1
    have hl2 : 1 ≤ u2.length := by
      have t1 := congrArg List.length hu1
      have t2 := congrArg List.length hu2
      simp only [List.length_cons] at t1 t2
      omega
    obtain ⟨u3, hu3, hr3⟩ := destruct1 hr2.symm hl2
    have hl3 : 1 ≤ u3.length := by
      have t1 := congrArg List.length hu1
      have t2 := congrArg List.length hu2
      have t3 := congrArg List.length hu3
      simp only [List.length_cons] at t1 t2 t3
      omega
    obtain ⟨u4, hu4, hr4⟩ := destruct1 hr3.symm hl3
    subst hu4
    subst hu3
    subst hu2
    subst hu1
    rw [hr4] at hm
    simp only [List.length_cons] at hn
    have hm2 : m ≤ u4.length := by omega
    obtain ⟨m2, hm3⟩ := ap_trans hm hm2
      (fun hme => hb (by simp only [List.length_cons]; omega))
    rw [show ('0' :: '0' :: '4' :: '4' :: u4 : List Char) ++ w =
      '0' :: '0' :: '4' :: '4' :: (u4 ++ w) from by simp]
    rw [pAlt2_fire hbd hm3]
    simp
  · obtain ⟨u1, hu1, hr1⟩ := destruct1 hs (by omega)
    subst hu1
    rw [hr1] at hm
    simp only [List.length_cons] at hn
    have hm2 : m ≤ u1.length := by omega
    obtain ⟨m2, hm3⟩ := ap_trans hm hm2
      (fun hme => hb (by simp only [List.length_cons]; omega))
    rw [show ('0' :: u1 : List Char) ++ w = '0' :: (u1 ++ w) from by simp]
    exact pAlt3_fire hbd hm3

lemma countWhile_le_len (p : Char → Bool) (s : List Char) :
    countWhile p s ≤ s.length := by
  rw [countWhile]
  conv_rhs => rw [← List.takeWhile_append_dropWhile (p := p) (l := s)]
  rw [List.length_append]
  omega

lemma countWhile_append_lt {p : Char → Bool} {u v : List Char} {k : Nat}
    (h : countWhile p (u ++ v) = k) (hk : k < u.length) (w : List Char) :
    countWhile p (u ++ w) = k := by
  rw [countWhile, List.takeWhile_append] at h ⊢
  split at h
  next heq =>
    rw [List.length_append] at h
    omega
  next heq =>
    rw [if_neg heq]
    exact h

lemma drop_append_le {u : List Char} (w : List Char) {k : Nat}
    (hk : k ≤ u.length) : (u ++ w).drop k = u.drop k ++ w := by
  have hl : (u.take k).length = k := by
    rw [List.length_take]
    omega
  have h2 := drop_len_add (u.take k) (u.drop k ++ w) 0
  rw [hl, Nat.add_zero, List.drop_zero] at h2
  conv_lhs => rw [← List.take_append_drop k u, List.append_assoc]
  exact h2

lemma getLast?_cons_some {c x : Char} {X : List Char}
    (h : X.getLast? = some x) : (c :: X).getLast? = some x := by
  rw [show (c :: X) = [c] ++ X from rfl, List.getLast?_append, h,
    Option.or_some]

/-- Inversion for the postcode tail `\s*\d[A-Z]{2}\b`. -/
lemma pcTail_inv {s : List Char} {n : Nat} (h : pcTail s = some n) :
    ∃ d l1 l2 rest, s.drop (countWhile isSpaceC s) = d :: l1 :: l2 :: rest ∧
      isDigitC d = true ∧ isLetterC l1 = true ∧ isLetterC l2 = true ∧
      bnd (some l2) rest.head? = true ∧ n = countWhile isSpaceC s + 3 := by
  rw [pcTail.eq_def] at h
  simp only at h
  split at h
  next d l1 l2 rest heq =>
    split at h
    next hc =>
      simp only [Bool.and_eq_true] at hc
      rw [Option.some_inj] at h
      exact ⟨d, l1, l2, rest, heq, hc.1.1.1, hc.1.1.2, hc.1.2, hc.2, h.symm⟩
    next => simp at h
  next => simp at h

lemma pcTail_fire {s : List Char} {d l1 l2 : Char} {rest : List Char}
    (heq : s.drop (countWhile isSpaceC s) = d :: l1 :: l2 :: rest)
    (hd : isDigitC d = true) (h1 : isLetterC l1 = true)
    (h2 : isLetterC l2 = true) (hb : bnd (some l2) rest.head? = true) :
    pcTail s = some (countWhile isSpaceC s + 3) := by
  rw [pcTail.eq_def]
  simp only [heq]
  rw [if_pos]
  simp [hd, h1, h2, hb]

lemma pcTail_le {s : List Char} {n : Nat} (h : pcTail s = some n) :
    n ≤ s.length := by
  obtain ⟨d, l1, l2, rest, heq, -, -, -, -, hn⟩ := pcTail_inv h
  have h1 := congrArg List.length heq
  rw [List.length_drop] at h1
  simp only [List.length_cons] at h1
  have h2 := countWhile_le_len isSpaceC s
  omega

lemma take_add_split (s : List Char) (m n : Nat) :
    s.take (m + n) = s.take m ++ (s.drop m).take n := by
  by_cases hm : m ≤ s.length
  · have hlt : (s.take m).length = m := by
      rw [List.length_take]
      omega
    have h3 := take_len_add (s.take m) (s.drop m) n
    rw [hlt] at h3
    conv_lhs => rw [← List.take_append_drop m s]
    exact h3
  · push_neg at hm
    rw [List.take_of_length_le (by omega), List.take_of_length_le (by omega),
      List.drop_of_length_le (by omega)]
    simp

lemma drop_add_split (s : List Char) (m n : Nat) :
    s.drop (m + n) = (s.drop m).drop n := by
  rw [List.drop_drop]

/-- Decomposition of the text around a postcode-tail fire. -/
lemma pcTail_parts {s : List Char} {d l1 l2 : Char} {rest : List Char}
    (heq : s.drop (countWhile isSpaceC s) = d :: l1 :: l2 :: rest) :
    s.take (countWhile isSpaceC s + 3) =
      s.takeWhile isSpaceC ++ [d, l1, l2] ∧
      s.drop (countWhile isSpaceC s + 3) = rest := by
  have hk := countWhile_le_len isSpaceC s
  have hlt : (s.take (countWhile isSpaceC s)).length =
      countWhile isSpaceC s := by
    rw [List.length_take]
    omega
  have hs : s = s.take (countWhile isSpaceC s) ++ (d :: l1 :: l2 :: rest) := by
    conv_lhs => rw [← List.take_append_drop (countWhile isSpaceC s) s]
    rw [heq]
  constructor
  · rw [take_add_split, heq, take_countWhile]
    rfl
  · rw [drop_add_split, heq]
    rfl

lemma pcTail_charset {s : List Char} {n : Nat} (h : pcTail s = some n) :
    ∀ c ∈ s.take n, isSpaceC c = true ∨ isDigitC c = true ∨
      isLetterC c = true := by
  obtain ⟨d, l1, l2, rest, heq, hd, h1, h2, -, hn⟩ := pcTail_inv h
  subst hn
  rw [(pcTail_parts heq).1]
  intro c hc
  rcases List.mem_append.mp hc with hc1 | hc2
  · exact Or.inl (List.mem_takeWhile_imp hc1)
  · simp only [List.mem_cons, List.not_mem_nil, or_false] at hc2
    rcases hc2 with rfl | rfl | rfl
    · exact Or.inr (Or.inl hd)
    · exact Or.inr (Or.inr h1)
    · exact Or.inr (Or.inr h2)

lemma pcTail_bnd {s : List Char} {n : Nat} (h : pcTail s = some n) :
    ∃ lc, (s.take n).getLast? = some lc ∧
      bnd (some lc) ((s.drop n).head?) = true := by
  obtain ⟨d, l1, l2, rest, heq, -, -, -, hb, hn⟩ := pcTail_inv h
  subst hn
  obtain ⟨ht, hdr⟩ := pcTail_parts heq
  refine ⟨l2, ?_, ?_⟩
  · rw [ht, List.getLast?_append]
    rfl
  · rwa [hdr]

/-- A postcode-tail fire within `u` re-fires whatever follows. -/
lemma pcTail_trans {u v w : List Char} {n : Nat}
    (h : pcTail (u ++ v) = some n) (hn : n ≤ u.length)
    (hb : n = u.length → hEq v.head? w.head?) :
    ∃ n2, pcTail (u ++ w) = some n2 := by
  obtain ⟨d, l1, l2, rest, heq, hd, h1, h2, hbd, hn'⟩ := pcTail_inv h
  have hklt : countWhile isSpaceC (u ++ v) < u.length := by omega
  have hkw : countWhile isSpaceC (u ++ w) = countWhile isSpaceC (u ++ v) :=
    countWhile_append_lt rfl hklt w
  have hdu : (u ++ v).drop (countWhile isSpaceC (u ++ v)) =
      u.drop (countWhile isSpaceC (u ++ v)) ++ v :=
    drop_append_le v (by omega)
  rw [hdu] at heq
  have hlen : 1 ≤ (u.drop (countWhile isSpaceC (u ++ v))).length := by
    rw [List.length_drop]
    omega
  obtain ⟨x1, he1, hr1⟩ := destruct1 heq hlen
  have hlen1 : 1 ≤ x1.length := by
    have := congrArg List.length he1
    rw [List.length_drop] at this
    simp only [List.length_cons] at this
    omega
  obtain ⟨x2, he2, hr2⟩ := destruct1 hr1.symm hlen1
  have hlen2 : 1 ≤ x2.length := by
    have t0 := congrArg List.length he1
    have t1 := congrArg List.length he2
    rw [List.length_drop] at t0
    simp only [List.length_cons] at t0 t1
    omega
  obtain ⟨x3, he3, hr3⟩ := destruct1 hr2.symm hlen2
  -- u.drop k = d :: l1 :: l2 :: x3, rest = x3 ++ v
  rw [he3] at he2
  rw [he2] at he1
  have hdw : (u ++ w).drop (countWhile isSpaceC (u ++ w)) =
      d :: l1 :: l2 :: (x3 ++ w) := by
    rw [hkw, drop_append_le w (by omega), he1]
    simp
  have hbw : bnd (some l2) (x3 ++ w).head? = true := by
    cases hx3 : x3 with
    | nil =>
      subst hx3
      rw [List.nil_append]
      have hulen : u.length = countWhile isSpaceC (u ++ v) + 3 := by
        have := congrArg List.length he1
        rw [List.length_drop] at this
        simp only [List.length_cons, List.length_nil] at this
        omega
      have hrv : rest = v := by rw [hr3]; simp
      rw [bnd, ← hEq_isWordO (hb (by omega))]
      rw [hrv] at hbd
      rw [bnd] at hbd
      exact hbd
    | cons y x4 =>
      subst hx3
      rw [List.cons_append, List.head?_cons]
      rw [hr3, List.cons_append, List.head?_cons] at hbd
      exact hbd
  exact ⟨countWhile isSpaceC (u ++ w) + 3, pcTail_fire hdw hd h1 h2 hbw⟩

lemma pcd_fire1 {c : Char} {rest : List Char} {m : Nat}
    (hc : (isLetterC c || isDigitC c) = true) (hm : pcTail rest = some m) :
    pcAfterDigit (c :: rest) = some (m + 1) := by
  rw [pcAfterDigit.eq_def]
  simp [hc, hm]

lemma pcd_fire2 {s : List Char} {m : Nat} (hm : pcTail s = some m) :
    pcAfterDigit s ≠ none := by
  rw [pcAfterDigit.eq_def]
  cases hblk : (match s with
    | c :: rest =>
      if isLetterC c || isDigitC c then (pcTail rest).map (· + 1) else none
    | [] => (none : Option Nat)) with
  | some k => simp
  | none =>
    rw [Option.none_orElse, hm]
    simp

lemma pcd_inv {s : List Char} {n : Nat} (h : pcAfterDigit s = some n) :
    (∃ c rest m, s = c :: rest ∧ (isLetterC c || isDigitC c) = true ∧
      pcTail rest = some m ∧ n = m + 1) ∨ pcTail s = some n := by
  rw [pcAfterDigit.eq_def] at h
  cases hblk : (match s with
    | c :: rest =>
      if isLetterC c || isDigitC c then (pcTail rest).map (· + 1) else none
    | [] => (none : Option Nat)) with
  | some k =>
    rw [hblk, Option.some_orElse, Option.some_inj] at h
    subst h
    left
    split at hblk
    next c rest =>
      split at hblk
      next hc =>
        cases hm : pcTail rest with
        | none => rw [hm] at hblk; simp at hblk
        | some m =>
          rw [hm] at hblk
          simp only [Option.map_some', Option.some_inj] at hblk
          exact ⟨c, rest, m, rfl, hc, hm, hblk.symm⟩
      next => simp at hblk
    next => simp at hblk
  | none =>
    rw [hblk, Option.none_orElse] at h
    exact Or.inr h

lemma pcd_le {s : List Char} {n : Nat} (h : pcAfterDigit s = some n) :
    n ≤ s.length := by
  rcases pcd_inv h with ⟨c, rest, m, hs, -, hm, hn⟩ | hm
  · subst hs
    have := pcTail_le hm
    simp only [List.length_cons]
    omega
  · exact pcTail_le hm

lemma pcd_charset {s : List Char} {n : Nat} (h : pcAfterDigit s = some n) :
    ∀ c ∈ s.take n, isSpaceC c = true ∨ isDigitC c = true ∨
      isLetterC c = true := by
  rcases pcd_inv h with ⟨c, rest, m, hs, hc, hm, hn⟩ | hm
  · subst hs
    subst hn
    intro x hx
    rw [List.take_succ_cons] at hx
    rcases List.mem_cons.mp hx with rfl | hx2
    · rcases Bool.or_eq_true_iff.mp hc with hl | hd
      · exact Or.inr (Or.inr hl)
      · exact Or.inr (Or.inl hd)
    · exact pcTail_charset hm x hx2
  · exact pcTail_charset hm

lemma pcd_bnd {s : List Char} {n : Nat} (h : pcAfterDigit s = some n) :
    ∃ lc, (s.take n).getLast? = some lc ∧
      bnd (some lc) ((s.drop n).head?) = true := by
  rcases pcd_inv h with ⟨c, rest, m, hs, -, hm, hn⟩ | hm
  · subst hs
    subst hn
    obtain ⟨lc, hl, hb⟩ := pcTail_bnd hm
    refine ⟨lc, ?_, ?_⟩
    · rw [List.take_succ_cons]
      exact getLast?_cons_some hl
    · rwa [List.drop_succ_cons]
  · exact pcTail_bnd hm

lemma pcd_trans {u v w : List Char} {n : Nat}
    (h : pcAfterDigit (u ++ v) = some n) (hn : n ≤ u.length)
    (hb : n = u.length → hEq v.head? w.head?) :
    pcAfterDigit (u ++ w) ≠ none := by
  rcases pcd_inv h with ⟨c, rest, m, hs, hc, hm, hn'⟩ | hm
  · obtain ⟨u1, hu1, hr1⟩ := destruct1 hs (by omega)
    subst hu1
    rw [hr1] at hm
    simp only [List.length_cons] at hn
    obtain ⟨m2, hm2⟩ := pcTail_trans hm (by omega)
      (fun hme => hb (by simp only [List.length_cons]; omega))
    rw [List.cons_append]
    intro hcon
    rw [pcd_fire1 hc hm2] at hcon
    simp at hcon
  · obtain ⟨n2, hn2⟩ := pcTail_trans hm hn hb
    exact pcd_fire2 hn2

/-- Inversion for the postcode matcher. -/
lemma matchPC_inv {p : Option Char} {s : List Char} {n : Nat}
    (h : matchPC p s = some n) :
    ∃ a b rest, s = a :: b :: rest ∧ bnd p (some a) = true ∧
      isLetterC a = true ∧
      ((∃ d r2 m, rest = d :: r2 ∧ isLetterC b = true ∧ isDigitC d = true ∧
        pcAfterDigit r2 = some m ∧ n = m + 3) ∨
       (isDigitC b = true ∧ ∃ m, pcAfterDigit rest = some m ∧ n = m + 2)) := by
  rw [matchPC.eq_def] at h
  split at h
  next hbnd =>
    split at h
    next a b rest =>
      split at h
      next hla =>
        rw [List.head?_cons] at hbnd
        refine ⟨a, b, rest, rfl, hbnd, hla, ?_⟩
        cases hA : (if isLetterC b then
            (match rest with
             | d :: r2 =>
               if isDigitC d then (pcAfterDigit r2).map (· + 3) else none
             | [] => (none : Option Nat))
          else none) with
        | some k =>
          rw [hA, Option.some_orElse, Option.some_inj] at h
          subst h
          left
          split at hA
          next hlb =>
            split at hA
            next d r2 =>
              split at hA
              next hd =>
                cases hm : pcAfterDigit r2 with
                | none => rw [hm] at hA; simp at hA
                | some m =>
                  rw [hm] at hA
                  simp only [Option.map_some', Option.some_inj] at hA
                  exact ⟨d, r2, m, rfl, hlb, hd, hm, hA.symm⟩
              next => simp at hA
            next => simp at hA
          next => simp at hA
        | none =>
          rw [hA, Option.none_orElse] at h
          right
          split at h
          next hdb =>
            cases hm : pcAfterDigit rest with
            | none => rw [hm] at h; simp at h
            | some m =>
              rw [hm] at h
              simp only [Option.map_some', Option.some_inj] at h
              exact ⟨hdb, m, rfl, h.symm⟩
          next => simp at h
      next => simp at h
    next => simp at h
  next => simp at h

lemma matchPC_fireA {p : Option Char} {a b d : Char} {r2 : List Char}
    (hbnd : bnd p (some a) = true) (hla : isLetterC a = true)
    (hlb : isLetterC b = true) (hd : isDigitC d = true)
    (hm : pcAfterDigit r2 ≠ none) :
    matchPC p (a :: b :: d :: r2) ≠ none := by
  rw [matchPC.eq_def]
  simp only [List.head?_cons]
  rw [if_pos hbnd]
  rw [if_pos hla]
  cases hmm : pcAfterDigit r2 with
  | none => exact absurd hmm hm
  | some m => simp [hlb, hd]

lemma matchPC_fireB {p : Option Char} {a b : Char} {rest : List Char}
    (hbnd : bnd p (some a) = true) (hla : isLetterC a = true)
    (hdb : isDigitC b = true) (hm : pcAfterDigit rest ≠ none) :
    matchPC p (a :: b :: rest) ≠ none := by
  rw [matchPC.eq_def]
  simp only [List.head?_cons]
  rw [if_pos hbnd]
  rw [if_pos hla]
  cases hA : (if isLetterC b then
      (match rest with
       | d :: r2 =>
         if isDigitC d then (pcAfterDigit r2).map (· + 3) else none
       | [] => (none : Option Nat))
    else none) with
  | some k => simp
  | none =>
    rw [Option.none_orElse]
    rw [if_pos hdb]
    cases hmm : pcAfterDigit rest with
    | none => exact absurd hmm hm
    | some m => simp

/-- The postcode matcher consumes at least one character. -/
lemma matchPC_nz (p : Option Char) (s : List Char) : matchPC p s ≠ some 0 := by
  intro h
  obtain ⟨a, b, rest, -, -, -, hcase⟩ := matchPC_inv h
  rcases hcase with ⟨d, r2, m, -, -, -, -, hn⟩ | ⟨-, m, -, hn⟩ <;> omega

/-- The postcode matcher never consumes past the end of the text. -/
lemma matchPC_le {p : Option Char} {s : List Char} {n : Nat}
    (h : matchPC p s = some n) : n ≤ s.length := by
  obtain ⟨a, b, rest, hs, -, -, hcase⟩ := matchPC_inv h
  subst hs
  rcases hcase with ⟨d, r2, m, hr, -, -, hm, hn⟩ | ⟨-, m, hm, hn⟩
  · subst hr
    have := pcd_le hm
    simp only [List.length_cons]
    omega
  · have := pcd_le hm
    simp only [List.length_cons]
    omega

lemma matchPC_nil (p : Option Char) : matchPC p [] = none := by
  rw [matchPC.eq_def]
  split <;> rfl

/-- A postcode fire needs the leading word boundary against its head. -/
lemma matchPC_lead {p : Option Char} {s : List Char} {n : Nat}
    (h : matchPC p s = some n) :
    ∃ hd, s.head? = some hd ∧ bnd p (some hd) = true := by
  obtain ⟨a, b, rest, hs, hbnd, -, -⟩ := matchPC_inv h
  exact ⟨a, by rw [hs]; rfl, hbnd⟩

/-- After a postcode fire, the word boundary holds between the last
consumed character and the next one. -/
lemma matchPC_bnd {p : Option Char} {s : List Char} {n : Nat}
    (h : matchPC p s = some n) :
    ∃ lc, (s.take n).getLast? = some lc ∧
      bnd (some lc) ((s.drop n).head?) = true := by
  obtain ⟨a, b, rest, hs, -, -, hcase⟩ := matchPC_inv h
  subst hs
  rcases hcase with ⟨d, r2, m, hr, -, -, hm, hn⟩ | ⟨-, m, hm, hn⟩
  · subst hr
    subst hn
    obtain ⟨lc, hl, hb⟩ := pcd_bnd hm
    refine ⟨lc, ?_, ?_⟩
    · rw [show m + 3 = ((m + 2) + 1 : Nat) from rfl, List.take_succ_cons,
        show m + 2 = ((m + 1) + 1 : Nat) from rfl, List.take_succ_cons,
        List.take_succ_cons]
      exact getLast?_cons_some (getLast?_cons_some (getLast?_cons_some hl))
    · rw [show m + 3 = ((m + 2) + 1 : Nat) from rfl, List.drop_succ_cons,
        show m + 2 = ((m + 1) + 1 : Nat) from rfl, List.drop_succ_cons,
        List.drop_succ_cons]
      exact hb
  · subst hn
    obtain ⟨lc, hl, hb⟩ := pcd_bnd hm
    refine ⟨lc, ?_, ?_⟩
    · rw [show m + 2 = ((m + 1) + 1 : Nat) from rfl, List.take_succ_cons,
        List.take_succ_cons]
      exact getLast?_cons_some (getLast?_cons_some hl)
    · rw [show m + 2 = ((m + 1) + 1 : Nat) from rfl, List.drop_succ_cons,
        List.drop_succ_cons]
      exact hb

/-- Every character of a postcode fire is a letter, digit or space. -/
lemma matchPC_charset {p : Option Char} {s : List Char} {n : Nat}
    (h : matchPC p s = some n) :
    ∀ c ∈ s.take n, isSpaceC c = true ∨ isDigitC c = true ∨
      isLetterC c = true := by
  obtain ⟨a, b, rest, hs, -, hla, hcase⟩ := matchPC_inv h
  subst hs
  rcases hcase with ⟨d, r2, m, hr, hlb, hd, hm, hn⟩ | ⟨hdb, m, hm, hn⟩
  · subst hr
    subst hn
    intro c hc
    rw [show m + 3 = ((m + 2) + 1 : Nat) from rfl, List.take_succ_cons,
      show m + 2 = ((m + 1) + 1 : Nat) from rfl, List.take_succ_cons,
      List.take_succ_cons] at hc
    rcases List.mem_cons.mp hc with rfl | hc1
    · exact Or.inr (Or.inr hla)
    · rcases List.mem_cons.mp hc1 with rfl | hc2
      · exact Or.inr (Or.inr hlb)
      · rcases List.mem_cons.mp hc2 with rfl | hc3
        · exact Or.inr (Or.inl hd)
        · exact pcd_charset hm c hc3
  · subst hn
    intro c hc
    rw [show m + 2 = ((m + 1) + 1 : Nat) from rfl, List.take_succ_cons,
      List.take_succ_cons] at hc
    rcases List.mem_cons.mp hc with rfl | hc1
    · exact Or.inr (Or.inr hla)
    · rcases List.mem_cons.mp hc1 with rfl | hc2
      · exact Or.inr (Or.inl hdb)
      · exact pcd_charset hm c hc2

/-- The postcode matcher sees the previous character only through its
word-ness. -/
lemma matchPC_prev {p1 p2 : Option Char} (s : List Char)
    (hw : isWordO p1 = isWordO p2) : matchPC p1 s = matchPC p2 s := by
  have hbnd : bnd p1 = bnd p2 := by
    funext x
    rw [bnd, bnd, hw]
  rw [matchPC.eq_def, matchPC.eq_def, hbnd]

/-- The digit requirement: a postcode fire has a digit in its second or
third position. -/
lemma matchPC_need {p : Option Char} {a b : Char} {t : List Char} {n : Nat}
    (h : matchPC p (a :: b :: t) = some n) :
    isLetterC a = true ∧ (isDigitC b = true ∨
      (isLetterC b = true ∧ ∃ c t2, t = c :: t2 ∧ isDigitC c = true)) := by
  obtain ⟨a2, b2, rest, hs, -, hla, hcase⟩ := matchPC_inv h
  rw [List.cons.injEq, List.cons.injEq] at hs
  obtain ⟨h1, h2, h3⟩ := hs
  subst h1
  subst h2
  subst h3
  rcases hcase with ⟨d, r2, m, hr, hlb, hd, -, -⟩ | ⟨hdb, -⟩
  · exact ⟨hla, Or.inr ⟨hlb, d, r2, hr, hd⟩⟩
  · exact ⟨hla, Or.inl hdb⟩

/-- A postcode fire within `u` (with an indistinguishable boundary at its
end) re-fires on `u ++ w`. -/
lemma matchPC_trans {p : Option Char} {u v w : List Char} {n : Nat}
    (h : matchPC p (u ++ v) = some n) (hn : n ≤ u.length)
    (hb : n = u.length → hEq v.head? w.head?) :
    matchPC p (u ++ w) ≠ none := by
  obtain ⟨a, b, rest, hs, hbnd, hla, hcase⟩ := matchPC_inv h
  rcases hcase with ⟨d, r2, m, hr, hlb, hd, hm, hn'⟩ | ⟨hdb, m, hm, hn'⟩
  · rw [hr] at hs
    obtain ⟨u1, hu1, hr1⟩ := destruct1 hs (by omega)
    have hl1 : 1 ≤ u1.length := by
      have := congrArg List.length hu1
      simp only [List.length_cons] at this
      omega
    obtain ⟨u2, hu2, hr2⟩ := destruct1 hr1.symm hl1
    have hl2 : 1 ≤ u2.length := by
      have t1 := congrArg List.length hu1
      have t2 := congrArg List.length hu2
      simp only [List.length_cons] at t1 t2
      omega
    obtain ⟨u3, hu3, hr3⟩ := destruct1 hr2.symm hl2
    subst hu3
    subst hu2
    subst hu1
    rw [hr3] at hm
    simp only [List.length_cons] at hn
    have hmt := pcd_trans hm (by omega)
      (fun hme => hb (by simp only [List.length_cons]; omega))
    rw [show (a :: b :: d :: u3 : List Char) ++ w =
      a :: b :: d :: (u3 ++ w) from by simp]
    exact matchPC_fireA hbnd hla hlb hd hmt
  · obtain ⟨u1, hu1, hr1⟩ := destruct1 hs (by omega)
    have hl1 : 1 ≤ u1.length := by
      have := congrArg List.length hu1
      simp only [List.length_cons] at this
      omega
    obtain ⟨u2, hu2, hr2⟩ := destruct1 hr1.symm hl1
    subst hu2
    subst hu1
    rw [hr2] at hm
    simp only [List.length_cons] at hn
    have hmt := pcd_trans hm (by omega)
      (fun hme => hb (by simp only [List.length_cons]; omega))
    rw [show (a :: b :: u2 : List Char) ++ w = a :: b :: (u2 ++ w)
      from by simp]
    exact matchPC_fireB hbnd hla hdb hmt





lemma letter_not_space {c : Char} (h : isLetterC c = true) :
    isSpaceC c = false := by
  cases hsp : isSpaceC c
  · rfl
  · have h1 := letter_word h
    have h2 := space_not_word hsp
    rw [h1] at h2
    simp at h2

/-- The word-boundary master lemma: substituting matches of a scanner
`mS` with a bracketed placeholder `R` leaves no match of a target
word-boundary matcher `mT` in the output, provided `mT` had no match in
the input wherever `mS` has none. -/
lemma scanSafe (mT mS : Option Char → List Char → Option Nat) (R : List Char)
    (hSB : ∀ p s n, mS p s = some n → n ≤ s.length)
    (hSNZ : ∀ p s, mS p s ≠ some 0)
    (hSlead : ∀ p s n, mS p s = some n →
      ∃ hd, s.head? = some hd ∧ bnd p (some hd) = true)
    (hSheadns : ∀ p s n, mS p s = some n →
      ∀ hd, s.head? = some hd → isSpaceC hd = false)
    (hSbnd : ∀ p s n, mS p s = some n →
      ∃ lc, (s.take n).getLast? = some lc ∧
        bnd (some lc) ((s.drop n).head?) = true)
    (hTnil : ∀ p, mT p [] = none)
    (hTNZ : ∀ p s, mT p s ≠ some 0)
    (hTlead : ∀ p s n, mT p s = some n →
      ∃ hd, s.head? = some hd ∧ bnd p (some hd) = true)
    (hTbnd : ∀ p s n, mT p s = some n →
      ∃ lc, (s.take n).getLast? = some lc ∧
        bnd (some lc) ((s.drop n).head?) = true)
    (hTnobr : ∀ p s n, mT p s = some n → '[' ∉ s.take n)
    (hTprev : ∀ p1 p2 s, isWordO p1 = isWordO p2 → mT p1 s = mT p2 s)
    (hTtrans : ∀ p u v w n, mT p (u ++ v) = some n → n ≤ u.length →
      (n = u.length → hEq v.head? w.head?) → mT p (u ++ w) ≠ none)
    (hTRB : ∀ p r1 r2 X, R = r1 ++ r2 → r2 ≠ [] → mT p (r2 ++ X) = none)
    (hRhead : ∃ Rt, R = '[' :: Rt)
    (hRlast : R.getLast? = some ']') :
    ∀ N s, s.length ≤ N → ∀ pIn pOut,
      (isWordO pIn = isWordO pOut ∨
        (pOut = some ']' ∧ ∀ c, s.head? = some c → isWordC c = false)) →
      (∀ pre suf, s = pre ++ suf → mT (olastD pIn pre) suf ≠ none →
        mS (olastD pIn pre) suf ≠ none) →
      NoMatchFrom mT pOut (sub mS R pIn s) := by
  intro N
  induction N with
  | zero =>
    intro s hlen pIn pOut _ _
    rw [Nat.le_zero, List.length_eq_zero] at hlen
    subst hlen
    rw [sub_nil]
    intro pre suf hsplit
    rw [List.nil_eq, List.append_eq_nil] at hsplit
    rw [hsplit.2]
    exact hTnil _
  | succ N ihN =>
    intro s hlen pIn pOut hRel HP
    rcases subSplitFire mS R hSB hSNZ s pIn with ⟨hno, hid⟩ |
      ⟨a, u, rest, lc, hsp, hu, hbef, hfire, hlast, hout⟩
    · rw [hid]
      intro pre suf hsplit
      by_contra hcon
      obtain ⟨n, hn⟩ := Option.ne_none_iff_exists'.mp hcon
      cases pre with
      | cons c pre2 =>
        rw [olastD_ne_nil pOut pIn (by simp)] at hn
        exact HP _ suf hsplit (by rw [hn]; simp) (hno _ suf hsplit)
      | nil =>
        simp only [List.nil_append] at hsplit
        rcases hRel with hiso | ⟨hpr, hhead⟩
        · rw [show olastD pOut [] = pOut from rfl,
            hTprev pOut pIn suf hiso.symm] at hn
          refine HP [] suf hsplit ?_ (hno [] suf hsplit)
          rw [show olastD pIn [] = pIn from rfl, hn]
          simp
        · subst hpr
          obtain ⟨hd, hh, hb⟩ := hTlead _ _ _ hn
          have hwd : isWordC hd = false := by
            apply hhead
            rw [hsplit]
            exact hh
          rw [show olastD (some ']') [] = some ']' from rfl, bnd] at hb
          simp only [isWordO, hwd] at hb
          rw [show isWordC ']' = false from by decide] at hb
          simp at hb
    · rw [hout]
      have hrl : rest.length ≤ N := by
        have := congrArg List.length hsp
        simp only [List.length_append] at this
        have hu1 : 1 ≤ u.length := by
          cases u with
          | nil => exact absurd rfl hu
          | cons _ _ => simp
        omega
      have holu : olastD pIn (a ++ u) = some lc := by
        rw [olastD_append]
        exact olastD_eq_getLast hlast
      have hbu : bnd (some lc) rest.head? = true := by
        obtain ⟨lcu, hlcu, hbu0⟩ := hSbnd _ _ _ hfire
        rw [List.take_left' rfl] at hlcu
        rw [hlast] at hlcu
        rw [Option.some_inj] at hlcu
        rw [List.drop_left' rfl] at hbu0
        rw [← hlcu] at hbu0
        exact hbu0
      have hRel2 : isWordO (some lc) = isWordO (some ']') ∨
          ((some ']' : Option Char) = some ']' ∧
            ∀ c, rest.head? = some c → isWordC c = false) := by
        cases hw : isWordC lc
        · left
          simp only [isWordO, hw]
          decide
        · right
          refine ⟨rfl, fun c hc => ?_⟩
          rw [bnd, hc] at hbu
          simp only [isWordO, hw] at hbu
          cases hcw : isWordC c
          · rfl
          · rw [hcw] at hbu
            simp at hbu
      have HP2 : ∀ pre2 suf2, rest = pre2 ++ suf2 →
          mT (olastD (some lc) pre2) suf2 ≠ none →
          mS (olastD (some lc) pre2) suf2 ≠ none := by
        intro pre2 suf2 hsp2 hfe
        have hsp3 : s = ((a ++ u) ++ pre2) ++ suf2 := by
          rw [hsp, hsp2]
          simp
        have h1 := HP ((a ++ u) ++ pre2) suf2 hsp3
        rw [olastD_append, holu] at h1
        exact h1 hfe
      have hT : NoMatchFrom mT (some ']') (sub mS R (some lc) rest) :=
        ihN rest hrl (some lc) (some ']') hRel2 HP2
      have haR : olastD pOut (a ++ R) = some ']' := by
        apply olastD_eq_getLast
        rw [List.getLast?_append, hRlast, Option.or_some]
      intro pre suf hsplit
      rcases List.append_eq_append_iff.mp hsplit.symm with ⟨m, hm1, hm2⟩ |
        ⟨m, hm1, hm2⟩
      · -- region (i): a = pre ++ m, suf = m ++ (R ++ T)
        subst hm2
        by_contra hcon
        obtain ⟨n, hn⟩ := Option.ne_none_iff_exists'.mp hcon
        have hnn : n ≠ 0 := fun h0 => hTNZ _ _ (h0 ▸ hn)
        by_cases hcmp : n ≤ m.length
        · cases hmeq : m with
          | nil =>
            subst hmeq
            simp only [List.length_nil, Nat.le_zero] at hcmp
            exact hnn hcmp
          | cons e m2 =>
            -- prev word-ness agreement
            have hiso : isWordO (olastD pOut pre) = isWordO (olastD pIn pre)
                := by
              cases hpre : pre with
              | cons c pre2 =>
                rw [olastD_ne_nil pOut pIn (by simp)]
              | nil =>
                rcases hRel with hiso1 | ⟨hpr, hhead⟩
                · rw [show olastD pOut [] = pOut from rfl,
                    show olastD pIn [] = pIn from rfl]
                  exact hiso1.symm
                · exfalso
                  subst hpr
                  obtain ⟨hd, hh, hb⟩ := hTlead _ _ _ hn
                  rw [hmeq, List.cons_append, List.head?_cons,
                    Option.some_inj] at hh
                  have hshead : s.head? = some hd := by
                    rw [hpre, List.nil_append] at hm1
                    rw [hsp, hm1, hmeq, hh]
                    rfl
                  have hwd := hhead hd hshead
                  rw [hpre, show olastD (some ']') [] = some ']' from rfl,
                    bnd] at hb
                  simp only [isWordO, hwd] at hb
                  rw [show isWordC ']' = false from by decide] at hb
                  simp at hb
            -- transfer the fire back to the input
            rw [hTprev _ (olastD pIn pre) _ hiso] at hn
            have htk : (m.take n).length = n := by
              rw [List.length_take]
              omega
            have hdec : m ++ (R ++ sub mS R (some lc) rest) =
                m.take n ++ (m.drop n ++ (R ++ sub mS R (some lc) rest)) := by
              conv_lhs => rw [← List.take_append_drop n m]
              rw [List.append_assoc]
            rw [hdec] at hn
            have hfire2 : mT (olastD pIn pre)
                (m.take n ++ (m.drop n ++ (u ++ rest))) ≠ none := by
              apply hTtrans _ _ _ _ n hn (by omega)
              intro hne
              cases hmd : m.drop n with
              | cons x xs =>
                left
                rfl
              | nil =>
                -- n = m.length; boundary heads are '[' and the head of u
                have hnm : n = m.length := by
                  have := congrArg List.length hmd
                  rw [List.length_drop] at this
                  simp only [List.length_nil] at this
                  omega
                obtain ⟨Rt, hRt⟩ := hRhead
                obtain ⟨hdS, hhS, hbS⟩ := hSlead _ _ _ hfire
                obtain ⟨lcT, hlcT, hbT⟩ := hTbnd _ _ _ hn
                rw [List.take_left' htk] at hlcT
                rw [List.drop_left' htk] at hbT
                rw [hmd] at hbT
                simp only [List.nil_append] at hbT ⊢
                -- lcT is the last of m, and is a word character
                have hlcw : isWordC lcT = true := by
                  rw [hRt, List.cons_append, List.head?_cons, bnd] at hbT
                  simp only [isWordO] at hbT
                  rw [show isWordC '[' = false from by decide] at hbT
                  cases hcw : isWordC lcT
                  · rw [hcw] at hbT
                    simp at hbT
                  · rfl
                -- the scanner fire's head is not a word character
                have holm : olastD pIn a = some lcT := by
                  rw [hm1, olastD_append]
                  apply olastD_eq_getLast
                  have : m.take n = m := by
                    rw [hnm]
                    exact List.take_of_length_le (by omega)
                  rwa [this] at hlcT
                rw [holm, bnd] at hbS
                simp only [isWordO, hlcw] at hbS
                have hdSw : isWordC hdS = false := by
                  cases hcw : isWordC hdS
                  · rfl
                  · rw [hcw] at hbS
                    simp at hbS
                have hdSns : isSpaceC hdS = false :=
                  hSheadns _ _ _ hfire hdS hhS
                right
                constructor
                · rw [hRt, List.cons_append, List.head?_cons]
                  show isDigitC '[' = false ∧ isSpaceC '[' = false ∧
                    isLetterC '[' = false ∧ isWordC '[' = false
                  decide
                · rw [hhS]
                  refine ⟨?_, hdSns, ?_, hdSw⟩
                  · cases hcd : isDigitC hdS
                    · rfl
                    · rw [digit_word hcd] at hdSw
                      simp at hdSw
                  · cases hcl : isLetterC hdS
                    · rfl
                    · rw [letter_word hcl] at hdSw
                      simp at hdSw
            rw [← List.append_assoc, List.take_append_drop] at hfire2
            have hsp3 : s = pre ++ (m ++ (u ++ rest)) := by
              rw [hsp, hm1]
              simp
            have := HP pre (m ++ (u ++ rest)) hsp3 hfire2
            exact this (hbef pre m hm1 (by rw [hmeq]; simp))
        · obtain ⟨Rt, hRt⟩ := hRhead
          have hbr : '[' ∈ (m ++ (R ++ sub mS R (some lc) rest)).take n := by
            rw [hRt, List.cons_append]
            exact bracket_mem_take (by omega)
          exact hTnobr _ _ _ hn hbr
      · -- pre = a ++ m, R ++ T = m ++ suf
        rcases List.append_eq_append_iff.mp hm2 with ⟨k, hk1, hk2⟩ |
          ⟨k, hk1, hk2⟩
        · -- m = R ++ k, T = k ++ suf : region (iii)
          have := hT k suf hk2
          rw [hm1, hk1, ← List.append_assoc, olastD_append, haR]
          exact this
        · -- R = m ++ k, suf = k ++ T : region (ii)
          cases hkeq : k with
          | nil =>
            subst hkeq
            rw [List.nil_append] at hk2
            have hmR : m = R := by
              rw [hk1]
              simp
            rw [hk2, hm1, hmR, haR]
            have := hT [] _ rfl
            simpa [olastD] using this
          | cons e k2 =>
            rw [hk2, hm1]
            rw [show olastD pOut (a ++ m) = olastD (olastD pOut a) m from
              olastD_append pOut a m]
            exact hTRB _ m k _ hk1 (by rw [hkeq]; simp)

/-! ### Placeholder blocking and the idempotence of redaction -/

/-- A phone fire starts with `+` or `0`. -/
lemma matchP_head {p : Option Char} {s : List Char} {n : Nat}
    (h : matchP p s = some n) :
    ∃ hd rest, s = hd :: rest ∧ (hd = '+' ∨ hd = '0') := by
  rcases matchP_inv h with ⟨r, m, hs, -, -, -⟩ | ⟨r, m, hs, -, -, -⟩ |
    ⟨r, m, hs, -, -, -⟩
  · exact ⟨'+', '4' :: '4' :: r, hs, Or.inl rfl⟩
  · exact ⟨'0', '0' :: '4' :: '4' :: r, hs, Or.inr rfl⟩
  · exact ⟨'0', r, hs, Or.inr rfl⟩

/-- No suffix of a placeholder without `+` or `0` can start a phone
match. -/
lemma matchP_block {R : List Char} (hR : ∀ c ∈ R, c ≠ '+' ∧ c ≠ '0') :
    ∀ p r1 r2 X, R = r1 ++ r2 → r2 ≠ [] → matchP p (r2 ++ X) = none := by
  intro p r1 r2 X hspl hne
  cases hcon : matchP p (r2 ++ X) with
  | none => rfl
  | some n =>
    exfalso
    obtain ⟨hd, rest, hs, hhd⟩ := matchP_head hcon
    cases r2 with
    | nil => exact hne rfl
    | cons e r2t =>
      rw [List.cons_append, List.cons.injEq] at hs
      have he : e ∈ R := by
        rw [hspl]
        exact List.mem_append_right r1 (List.mem_cons_self _ _)
      rcases hhd with rfl | rfl
      · exact (hR e he).1 hs.1
      · exact (hR e he).2 hs.1

/-- No suffix of a digit-free placeholder ending in `]` can start a
postcode match. -/
lemma matchPC_block {R : List Char} (hR : ∀ c ∈ R, isDigitC c = false)
    (hRl : R.getLast? = some ']') :
    ∀ p r1 r2 X, R = r1 ++ r2 → r2 ≠ [] → matchPC p (r2 ++ X) = none := by
  intro p r1 r2 X hspl hne
  cases hcon : matchPC p (r2 ++ X) with
  | none => rfl
  | some n =>
    exfalso
    have hlast : r2.getLast? = some ']' :=
      getLast?_append_right (hspl ▸ hRl) hne
    cases r2 with
    | nil => exact hne rfl
    | cons e r2t =>
      cases r2t with
      | nil =>
        rw [show ([e] : List Char).getLast? = some e from rfl,
          Option.some_inj] at hlast
        subst hlast
        obtain ⟨a, b, rest, hs, -, hla, -⟩ := matchPC_inv hcon
        rw [List.cons_append, List.nil_append, List.cons.injEq] at hs
        rw [← hs.1] at hla
        exact absurd hla (by decide)
      | cons f r2tt =>
        have hcon2 : matchPC p (e :: f :: (r2tt ++ X)) = some n := by
          rw [← List.cons_append, ← List.cons_append]
          exact hcon
        obtain ⟨-, hdisj⟩ := matchPC_need hcon2
        rcases hdisj with hdb | ⟨hlb, c, t2, ht, hdc⟩
        · have hf : f ∈ R := by
            rw [hspl]
            refine List.mem_append_right r1 ?_
            exact List.mem_cons_of_mem e (List.mem_cons_self _ _)
          rw [hR f hf] at hdb
          exact absurd hdb (by simp)
        · cases r2tt with
          | nil =>
            rw [List.getLast?_cons_cons,
              show ([f] : List Char).getLast? = some f from rfl,
              Option.some_inj] at hlast
            subst hlast
            exact absurd hlb (by decide)
          | cons g r3 =>
            rw [List.cons_append, List.cons.injEq] at ht
            have hg : g ∈ R := by
              rw [hspl]
              refine List.mem_append_right r1 ?_
              exact List.mem_cons_of_mem e (List.mem_cons_of_mem f
                (List.mem_cons_self _ _))
            rw [← ht.1] at hdc
            rw [hR g hg] at hdc
            exact absurd hdc (by simp)

/-- A phone fire never starts with a space. -/
lemma matchP_headns : ∀ (p : Option Char) (s : List Char) (n : Nat),
    matchP p s = some n → ∀ hd, s.head? = some hd → isSpaceC hd = false := by
  intro p s n h hd hh
  obtain ⟨hd2, rest, hs, hhd⟩ := matchP_head h
  rw [hs, List.head?_cons, Option.some_inj] at hh
  subst hh
  rcases hhd with rfl | rfl <;> decide

/-- A postcode fire never starts with a space. -/
lemma matchPC_headns : ∀ (p : Option Char) (s : List Char) (n : Nat),
    matchPC p s = some n → ∀ hd, s.head? = some hd → isSpaceC hd = false := by
  intro p s n h hd hh
  obtain ⟨a, b, rest, hs, -, hla, -⟩ := matchPC_inv h
  rw [hs, List.head?_cons, Option.some_inj] at hh
  subst hh
  exact letter_not_space hla

/-- No `[` occurs in a phone match. -/
lemma matchP_nobr : ∀ (p : Option Char) (s : List Char) (n : Nat),
    matchP p s = some n → '[' ∉ s.take n := by
  intro p s n h hmem
  rcases matchP_charset h _ hmem with hc | hc | hc <;> revert hc <;> decide

/-- No `[` occurs in a postcode match. -/
lemma matchPC_nobr : ∀ (p : Option Char) (s : List Char) (n : Nat),
    matchPC p s = some n → '[' ∉ s.take n := by
  intro p s n h hmem
  rcases matchPC_charset h _ hmem with hc | hc | hc <;> revert hc <;> decide

lemma NoE_nmf {X : List Char} (h : NoE X) (p0 : Option Char) :
    NoMatchFrom (fun _ s => matchE s) p0 X :=
  fun pre suf hs => h pre suf hs

/-- `redact_pii` is idempotent on character lists. -/
lemma redactL_idem (l : List Char) : redactL (redactL l) = redactL l := by
  have hEB : ∀ (p : Option Char) (s : List Char) (n : Nat),
      (fun (_ : Option Char) (s : List Char) => matchE s) p s = some n →
        n ≤ s.length := fun _ s n h => matchE_le h
  have hENZ : ∀ (p : Option Char) (s : List Char),
      (fun (_ : Option Char) (s : List Char) => matchE s) p s ≠ some 0 :=
    fun _ s => matchE_nz s
  have hERh : ∃ Rt, ER = '[' :: Rt := ⟨"EMAIL REDACTED]".data, by decide⟩
  have hPRh : ∃ Rt, PR = '[' :: Rt := ⟨"PHONE REDACTED]".data, by decide⟩
  have hPCRh : ∃ Rt, PCR = '[' :: Rt := ⟨"POSTCODE REDACTED]".data, by decide⟩
  have hERat : ∀ a ∈ ER, a ≠ '@' := by decide
  have hPRat : ∀ a ∈ PR, a ≠ '@' := by decide
  have hPCRat : ∀ a ∈ PCR, a ≠ '@' := by decide
  have hERl : ER.getLast? = some ']' := by decide
  have hPRl : PR.getLast? = some ']' := by decide
  have hPCRl : PCR.getLast? = some ']' := by decide
  have hPRch : ∀ c ∈ PR, c ≠ '+' ∧ c ≠ '0' := by decide
  have hPCRch : ∀ c ∈ PCR, c ≠ '+' ∧ c ≠ '0' := by decide
  have hPCRnd : ∀ c ∈ PCR, isDigitC c = false := by decide
  -- stage outputs
  set X1 := sub (fun _ s => matchE s) ER none l with hX1
  set X2 := sub matchP PR none X1 with hX2
  set X3 := sub matchPC PCR none X2 with hX3
  -- no email match survives any stage
  have hNoE1 : NoE X1 :=
    emailSafe _ ER hEB hENZ hERh hERat hERl l.length l le_rfl none
      (fun pre suf hs hf => hf)
  have hNoE2 : NoE X2 :=
    emailSafe matchP PR (fun p s n h => matchP_le h) matchP_nz hPRh hPRat
      hPRl X1.length X1 le_rfl none
      (fun pre suf hs hf => absurd (hNoE1 pre suf hs) hf)
  have hNoE3 : NoE X3 :=
    emailSafe matchPC PCR (fun p s n h => matchPC_le h) matchPC_nz hPCRh
      hPCRat hPCRl X2.length X2 le_rfl none
      (fun pre suf hs hf => absurd (hNoE2 pre suf hs) hf)
  -- no phone match survives the phone or postcode stages
  have hNP2 : NoMatchFrom matchP none X2 :=
    scanSafe matchP matchP PR (fun p s n h => matchP_le h) matchP_nz
      (fun p s n h => matchP_lead h) matchP_headns
      (fun p s n h => matchP_bnd h) matchP_nil matchP_nz
      (fun p s n h => matchP_lead h) (fun p s n h => matchP_bnd h)
      matchP_nobr (fun p1 p2 s hw => matchP_prev s hw)
      (fun p u v w n h hn hb => matchP_trans h hn hb)
      (matchP_block hPRch) hPRh hPRl X1.length X1 le_rfl none none
      (Or.inl rfl) (fun pre suf hs hf => hf)
  have hNP3 : NoMatchFrom matchP none X3 :=
    scanSafe matchP matchPC PCR (fun p s n h => matchPC_le h) matchPC_nz
      (fun p s n h => matchPC_lead h) matchPC_headns
      (fun p s n h => matchPC_bnd h) matchP_nil matchP_nz
      (fun p s n h => matchP_lead h) (fun p s n h => matchP_bnd h)
      matchP_nobr (fun p1 p2 s hw => matchP_prev s hw)
      (fun p u v w n h hn hb => matchP_trans h hn hb)
      (matchP_block hPCRch) hPCRh hPCRl X2.length X2 le_rfl none none
      (Or.inl rfl) (fun pre suf hs hf => absurd (hNP2 pre suf hs) hf)
  -- no postcode match survives the postcode stage
  have hNPC3 : NoMatchFrom matchPC none X3 :=
    scanSafe matchPC matchPC PCR (fun p s n h => matchPC_le h) matchPC_nz
      (fun p s n h => matchPC_lead h) matchPC_headns
      (fun p s n h => matchPC_bnd h) matchPC_nil matchPC_nz
      (fun p s n h => matchPC_lead h) (fun p s n h => matchPC_bnd h)
      matchPC_nobr (fun p1 p2 s hw => matchPC_prev s hw)
      (fun p u v w n h hn hb => matchPC_trans h hn hb)
      (matchPC_block hPCRnd hPCRl) hPCRh hPCRl X2.length X2 le_rfl none none
      (Or.inl rfl) (fun pre suf hs hf => hf)
  show redactL X3 = X3
  rw [redactL]
  rw [sub_id _ ER X3 none (NoE_nmf hNoE3 none)]
  rw [sub_id matchP PR X3 none hNP3]
  rw [sub_id matchPC PCR X3 none hNPC3]

end Guardrails

/-- C10: PII redaction is idempotent: for every string `t`,
`redact_pii (redact_pii t) = redact_pii t`.  The placeholder strings
substituted for emails, UK phone numbers and UK postcodes can neither
match any of the three redaction patterns themselves nor combine with
the surrounding redacted text to form a new match. -/
theorem C10_redact_pii_idempotent : ∀ t : String,
    Guardrails.redact_pii (Guardrails.redact_pii t) =
      Guardrails.redact_pii t := by
  intro t
  exact congrArg String.mk (Guardrails.redactL_idem t.data)

end Etl
